import Mathlib

/-!
Auction system (`ipc_leilao`): wire codec, auction state, connection handler.

A shallow embedding of `src/ipc_leilao/comum.c`, `src/ipc_leilao/comum.h`,
`src/ipc_leilao/server_leilao.c`, the bid loops of `src/ipc_leilao/client_leilao.c`
and `src/ipc_leilao/client_leilao_bk.c`, and the lock discipline of
`src/ipc_leilao/server_leilao_bk.c`.

Conventions of the embedding:
* an `int32_t` value is an `Int` in `[-2^31, 2^31)` (`isInt32`); a `uint32_t`
  value is a `Nat` below `2^32`; conversions between the two wrap modulo `2^32`;
* a byte is a `Nat` below `256`; a byte buffer is a `List Nat`;
* the byte order of the host is a parameter `host_le` (`true` on a
  little-endian host such as x86, `false` on a big-endian host), because
  `htonl`/`ntohl` and `memcpy` of an integer both depend on it.
-/

namespace Leilao

/-! ## Machine integers -/

/-- Membership in the `int32_t` range. -/
def isInt32 (x : Int) : Prop := -2147483648 ≤ x ∧ x < 2147483648

instance (x : Int) : Decidable (isInt32 x) := by
  unfold isInt32; exact inferInstance

/-- Membership in the byte range. -/
def isByte (b : Nat) : Prop := b < 256

instance (b : Nat) : Decidable (isByte b) := by
  unfold isByte; exact inferInstance

/-- Conversion `int32_t -> uint32_t` (wraps modulo `2^32`). -/
def toU32 (x : Int) : Nat := (x % 4294967296).toNat

/-- Conversion `uint32_t -> int32_t` (two's complement reading of the 32 bits). -/
def toI32 (u : Nat) : Int :=
  if u % 4294967296 < 2147483648 then ((u % 4294967296 : Nat) : Int)
  else ((u % 4294967296 : Nat) : Int) - 4294967296

/-- Byte swap of a 32-bit word. -/
def bswap32 (u : Nat) : Nat :=
  (u % 256) * 16777216 + (u / 256 % 256) * 65536 + (u / 65536 % 256) * 256
    + (u / 16777216 % 256)

/-- The libc `htonl`: host order to network (big-endian) order. On a
little-endian host it swaps the bytes, on a big-endian host it is the identity. -/
def htonl (host_le : Bool) (u : Nat) : Nat :=
  if host_le then bswap32 u else u % 4294967296

/-- The libc `ntohl`: network order to host order (the same operation as `htonl`). -/
def ntohl (host_le : Bool) (u : Nat) : Nat :=
  if host_le then bswap32 u else u % 4294967296

/-- The four bytes `memcpy(buf, &x, sizeof(int32_t))` writes for an `int32_t`
object `x`: its 32-bit pattern in the memory order of the host. -/
def memcpy_from_int32 (host_le : Bool) (x : Int) : List Nat :=
  let u := toU32 x
  if host_le then [u % 256, u / 256 % 256, u / 65536 % 256, u / 16777216 % 256]
  else [u / 16777216 % 256, u / 65536 % 256, u / 256 % 256, u % 256]

/-- The `int32_t` object that `memcpy(&x, buf, sizeof(int32_t))` produces from
four bytes in memory, in the memory order of the host. -/
def memcpy_to_int32 (host_le : Bool) (b0 b1 b2 b3 : Nat) : Int :=
  if host_le then toI32 (b0 + 256 * b1 + 65536 * b2 + 16777216 * b3)
  else toI32 (16777216 * b0 + 65536 * b1 + 256 * b2 + b3)

/-! ## `comum.h` / `comum.c`: the bid message and its codec -/

/-- The struct `MensagemLance` of `comum.h`. -/
structure MensagemLance where
  id_cliente : Int
  valor_lance : Int
  deriving DecidableEq, Repr

/-- The function `empacotar_lance` of `comum.c`; the result is the content of
`buf[0..7]` after the call. -/
def empacotar_lance (host_le : Bool) (m : MensagemLance) : List Nat :=
  let id_net : Int := toI32 (htonl host_le (toU32 m.id_cliente))
  let lance_net : Int := toI32 (htonl host_le (toU32 m.valor_lance))
  memcpy_from_int32 host_le id_net ++ memcpy_from_int32 host_le lance_net

/-- The function `desempacotar_lance` of `comum.c`; it reads `buf[0..7]` (the
caller supplies 8 bytes). -/
def desempacotar_lance (host_le : Bool) (buf : List Nat) : MensagemLance :=
  let id_net : Int :=
    memcpy_to_int32 host_le (buf.getD 0 0) (buf.getD 1 0) (buf.getD 2 0) (buf.getD 3 0)
  let lance_net : Int :=
    memcpy_to_int32 host_le (buf.getD 4 0) (buf.getD 5 0) (buf.getD 6 0) (buf.getD 7 0)
  { id_cliente := toI32 (ntohl host_le (toU32 id_net)),
    valor_lance := toI32 (ntohl host_le (toU32 lance_net)) }

/-- The two's-complement representation of an integer on 32 bits, as an
unsigned number: the residue modulo `2^32`. -/
def twos_complement_32 (x : Int) : Nat := (x % 4294967296).toNat

/-- The big-endian (most significant byte first) two's-complement encoding of
an integer on 32 bits, as the wire format describes it: the four base-256
digits of its two's-complement representation, most significant first. -/
def big_endian_32 (x : Int) : List Nat :=
  let u := twos_complement_32 x
  [u / 16777216 % 256, u / 65536 % 256, u / 256 % 256, u % 256]

/-- A well-formed 8-byte frame. -/
def isQuadro (buf : List Nat) : Prop := buf.length = 8 ∧ ∀ b ∈ buf, isByte b

instance (buf : List Nat) : Decidable (isQuadro buf) := by
  unfold isQuadro; exact inferInstance

/-! ## `server_leilao.c`: the global auction state -/

/-- The global state of the auction in `server_leilao.c`: the variables
`lance_atual` and `cliente_vencedor` (both `int`). -/
structure EstadoLeilao where
  lance_atual : Int
  cliente_vencedor : Int
  deriving DecidableEq, Repr

/-- The initial values of the globals: `lance_atual = 0`, `cliente_vencedor = -1`. -/
def estado_inicial : EstadoLeilao := { lance_atual := 0, cliente_vencedor := -1 }

/-- The critical section of `thread_cliente` (between `pthread_mutex_lock` and
`pthread_mutex_unlock`): the compare-and-update of the globals. The second
component is the local flag `lance_aprovado`. -/
def secao_critica (s : EstadoLeilao) (lance : MensagemLance) : EstadoLeilao × Bool :=
  if lance.valor_lance > s.lance_atual then
    ({ lance_atual := lance.valor_lance, cliente_vencedor := lance.id_cliente }, true)
  else
    (s, false)

/-- The state after a sequence of bids went through the critical section one
after another. -/
def aplicar_lances (s : EstadoLeilao) (lances : List MensagemLance) : EstadoLeilao :=
  lances.foldl (fun st m => (secao_critica st m).1) s

/-- The bids of a sequence, each with the value of `lance_aprovado` the
critical section gave it when it was submitted. -/
def historico : EstadoLeilao → List MensagemLance → List (MensagemLance × Bool)
  | _, [] => []
  | s, m :: ms => (m, (secao_critica s m).2) :: historico (secao_critica s m).1 ms

/-- The most recent accepted bid of a sequence, if any. -/
def ultimo_aceito (s : EstadoLeilao) (lances : List MensagemLance) : Option MensagemLance :=
  (((historico s lances).filter (fun p => p.2)).getLast?).map (fun p => p.1)

/-- The value `v` is the maximum amount submitted in the sequence: some bid
carries it and no bid carries more. -/
def eh_maior_valor (v : Int) (lances : List MensagemLance) : Prop :=
  (∃ m ∈ lances, m.valor_lance = v) ∧ ∀ m ∈ lances, m.valor_lance ≤ v

instance (v : Int) (lances : List MensagemLance) : Decidable (eh_maior_valor v lances) := by
  unfold eh_maior_valor; exact inferInstance

/-- The first bid of the sequence that carries the amount `v`, if any. -/
def primeiro_com_valor (v : Int) (lances : List MensagemLance) : Option MensagemLance :=
  lances.find? (fun m => decide (m.valor_lance = v))

/-! ## `server_leilao.c`: reading and parsing the identity line -/

/-- How a TCP byte stream ends for the reader: `recv` returns `0`
(connection closed) or a negative value (error). -/
inductive FimFluxo where
  | fechado
  | erro
  deriving DecidableEq, Repr

/-- What the socket delivers to successive `recv` calls: the bytes `dados`,
then the end condition `fim`. -/
structure Fluxo where
  dados : List Nat
  fim : FimFluxo
  deriving DecidableEq, Repr

/-- Result of `ler_linha_socket`: the returned `int`, the bytes stored in
`buf[0 .. pos-1]` (a `'\0'` is stored at `buf[pos]` unless the return is `-1`),
and what is left unread in the stream. -/
structure ResultadoLinha where
  ret : Int
  buf : List Nat
  resto : Fluxo
  deriving DecidableEq, Repr

/-- The loop of `ler_linha_socket`; `buf` holds the bytes stored so far, so
`pos = buf.length`. One `recv` of one byte per iteration. -/
def ler_linha_socket_loop (tam : Nat) (fim : FimFluxo) :
    List Nat → List Nat → ResultadoLinha
  | [], buf =>
    if buf.length < tam - 1 then
      match fim with
      | .fechado => { ret := 0, buf := buf, resto := ⟨[], fim⟩ }
      | .erro => { ret := -1, buf := buf, resto := ⟨[], fim⟩ }
    else { ret := 1, buf := buf, resto := ⟨[], fim⟩ }
  | c :: dados, buf =>
    if buf.length < tam - 1 then
      if c = 10 then { ret := 1, buf := buf, resto := ⟨dados, fim⟩ }
      else ler_linha_socket_loop tam fim dados (buf ++ [c])
    else { ret := 1, buf := buf, resto := ⟨c :: dados, fim⟩ }

/-- The function `ler_linha_socket(sockfd, buf, tam)` of `server_leilao.c`,
reading from the stream `fluxo`, for a buffer size `tam` of at least 1 (the
only call passes 128). -/
def ler_linha_socket (tam : Nat) (fluxo : Fluxo) : ResultadoLinha :=
  ler_linha_socket_loop tam fluxo.fim fluxo.dados []

/-- The value `ler_linha_socket` returns when the stream ends before the line
is complete: `0` for a closed connection, `-1` for an error. -/
def codigo_fim : FimFluxo → Int
  | .fechado => 0
  | .erro => -1

/-- The C string a `char` buffer holds: its bytes up to the first `'\0'`
(a buffer given as a list is followed by a terminating `'\0'`). -/
def c_str (buf : List Nat) : List Nat := buf.takeWhile (fun b => b != 0)

/-- The libc `strchr(s, c)` for a character `c` other than `'\0'`: the offset
of the first occurrence of `c` in the C string `s`, or `none` for `NULL`. -/
def strchr : List Nat → Nat → Option Nat
  | [], _ => none
  | b :: bs, c =>
    if b = c then some 0
    else if b = 0 then none
    else (strchr bs c).map (fun k => k + 1)

/-- The C string held by `dst` after `strncpy(dst, src, n); dst[n - 1] = '\0';`. -/
def strncpy_term (src : List Nat) (n : Nat) : List Nat := (c_str src).take (n - 1)

/-- The initial content of `cidade`: the string "Nao informada". -/
def cidade_padrao : List Nat := [78, 97, 111, 32, 105, 110, 102, 111, 114, 109, 97, 100, 97]

/-- The identity parse of `thread_cliente` (the `strchr` / `strncpy` block):
from the content of `intro` to the C strings `(nome, cidade)`. -/
def thread_cliente_identidade (intro : List Nat) : List Nat × List Nat :=
  match strchr intro 124 with
  | some sep =>
    let intro2 := intro.set sep 0
    (strncpy_term intro2 64, strncpy_term (intro2.drop (sep + 1)) 64)
  | none => (strncpy_term intro 64, cidade_padrao)

/-! ## `server_leilao.c`: the connection handler `thread_cliente` -/

/-- The control states of a handler: before the identity line was read, in
the bid loop (with the `nome` and `cidade` it parsed), and after `close`. -/
inductive Fase where
  | AWAIT_IDENTITY
  | ACTIVE (nome cidade : List Nat)
  | CLOSED
  deriving DecidableEq, Repr

/-- What a handler waits for. `identidade fluxo`: the stream read by the call
of `ler_linha_socket`. `recv lidos buf send_ret`: one iteration of the bid
loop, where `recv` returned `lidos` and left `buf` in the 8-byte buffer, and
`send_ret` is what `send` returns if a response is sent. -/
inductive Evento where
  | identidade (fluxo : Fluxo)
  | recv (lidos : Int) (buf : List Nat) (send_ret : Int)
  deriving DecidableEq, Repr

/-- The response line of the bid loop, by its format string and the two
values printed (`lance_atual`, `cliente_vencedor`). -/
inductive Resposta where
  | aceito (lance_atual cliente_vencedor : Int)
  | rejeitado (lance_atual cliente_vencedor : Int)
  deriving DecidableEq, Repr

/-- What one step of a handler emits: the response handed to `send` and the
arguments of the call of `enviar_multicast_novo_lance`, when there is one. -/
structure Saida where
  resposta : Option Resposta
  multicast : Option (MensagemLance × List Nat × List Nat)
  deriving DecidableEq, Repr

/-- One step of `thread_cliente`: the identity phase, or one iteration of the
bid loop. The step acts on the globals only inside the critical section; the
response is built from the globals as they are right after the unlock. An
event the handler does not wait for in its phase leaves everything as it is. -/
def thread_cliente_passo (host_le : Bool) (s : EstadoLeilao) (f : Fase) (e : Evento) :
    EstadoLeilao × Fase × Saida :=
  match f, e with
  | .AWAIT_IDENTITY, .identidade fluxo =>
    let r := ler_linha_socket 128 fluxo
    if r.ret ≤ 0 then (s, .CLOSED, ⟨none, none⟩)
    else
      (s, .ACTIVE (thread_cliente_identidade r.buf).1 (thread_cliente_identidade r.buf).2,
        ⟨none, none⟩)
  | .ACTIVE nome cidade, .recv lidos buf send_ret =>
    if lidos = 0 then (s, .CLOSED, ⟨none, none⟩)
    else if lidos < 0 then (s, .CLOSED, ⟨none, none⟩)
    else if lidos ≠ 8 then (s, .ACTIVE nome cidade, ⟨none, none⟩)
    else
      let lance := desempacotar_lance host_le buf
      let s2 := (secao_critica s lance).1
      let lance_aprovado := (secao_critica s lance).2
      let saida : Saida :=
        if lance_aprovado then
          ⟨some (.aceito s2.lance_atual s2.cliente_vencedor), some (lance, nome, cidade)⟩
        else
          ⟨some (.rejeitado s2.lance_atual s2.cliente_vencedor), none⟩
      (s2, if send_ret < 0 then .CLOSED else .ACTIVE nome cidade, saida)
  | f, _ => (s, f, ⟨none, none⟩)

/-- A handler processing a sequence of events, from auction state `s` and
phase `f`: the final auction state and phase. -/
def thread_cliente_execucao (host_le : Bool) (s : EstadoLeilao) (f : Fase) :
    List Evento → EstadoLeilao × Fase
  | [] => (s, f)
  | e :: es =>
    thread_cliente_execucao host_le (thread_cliente_passo host_le s f e).1
      (thread_cliente_passo host_le s f e).2.1 es

/-- The bytes of an ASCII string. -/
def bytes (s : String) : List Nat := s.toList.map Char.toNat

/-! ## `server_leilao.c`: the texts built with `snprintf` -/

/-- The decimal digits of `n`, most significant first, as ASCII codes; `fuel`
bounds the number of divisions by ten. -/
def digitos_aux : Nat → Nat → List Nat
  | 0, _ => []
  | fuel + 1, n => if n < 10 then [48 + n] else digitos_aux fuel (n / 10) ++ [48 + n % 10]

/-- The decimal text of a natural number (`n + 1` divisions are always enough). -/
def fmt_u (n : Nat) : List Nat := digitos_aux (n + 1) n

/-- What the conversion `%d` of `printf` prints for an `int`. -/
def fmt_d (x : Int) : List Nat := if x < 0 then 45 :: fmt_u x.natAbs else fmt_u x.natAbs

/-- What the conversion `%s` of `printf` prints for a `char` buffer: the C
string it holds. -/
def fmt_s (buf : List Nat) : List Nat := c_str buf

/-- The C string in `dst` after `snprintf(dst, tam, ...)`, where `texto` is
the complete formatted text: at most `tam - 1` bytes are stored. -/
def snprintf (tam : Nat) (texto : List Nat) : List Nat := c_str (texto.take (tam - 1))

/-- The bytes handed to `send` for a response: `resposta` after the
`snprintf` into `char resposta[256]`, up to `strlen(resposta)`. -/
def resposta_texto : Resposta → List Nat
  | .aceito lance_atual cliente_vencedor =>
    snprintf 256 (bytes "Lance aceito. Novo lance atual = " ++ fmt_d lance_atual
      ++ bytes " (cliente " ++ fmt_d cliente_vencedor ++ bytes ")\n")
  | .rejeitado lance_atual cliente_vencedor =>
    snprintf 256 (bytes "Lance rejeitado. Lance atual ainda = " ++ fmt_d lance_atual
      ++ bytes " (cliente " ++ fmt_d cliente_vencedor ++ bytes ")\n")

/-- The function `enviar_multicast_novo_lance` of `server_leilao.c`: the
payload of the one datagram it hands to `sendto` (`msg` after the `snprintf`
into `char msg[256]`, up to `strlen(msg)`). -/
def enviar_multicast_novo_lance (m : MensagemLance) (nome cidade : List Nat) : List Nat :=
  snprintf 256 (bytes "NOVO_LANCE ClienteID=" ++ fmt_d m.id_cliente ++ bytes " Nome="
    ++ fmt_s nome ++ bytes " Cidade=" ++ fmt_s cidade ++ bytes " Valor="
    ++ fmt_d m.valor_lance)

/-! ## `server_leilao.c`: runs of a handler and of several handlers -/

/-- What a handler emits, step by step, while it processes a sequence of
events from auction state `s` and phase `f`. -/
def thread_cliente_saidas (host_le : Bool) (s : EstadoLeilao) (f : Fase) :
    List Evento → List Saida
  | [] => []
  | e :: es =>
    (thread_cliente_passo host_le s f e).2.2 ::
      thread_cliente_saidas host_le (thread_cliente_passo host_le s f e).1
        (thread_cliente_passo host_le s f e).2.1 es

/-- The number of bids of a run that left the critical section with
`lance_aprovado = 1`: a handler in the bid loop, a `recv` of exactly 8 bytes,
and the comparison of the critical section true. -/
def lances_aprovados (host_le : Bool) (s : EstadoLeilao) (f : Fase) : List Evento → Nat
  | [] => 0
  | e :: es =>
    (match f, e with
      | .ACTIVE _ _, .recv lidos buf _ =>
        if lidos = 8 ∧ (secao_critica s (desempacotar_lance host_le buf)).2 = true then 1 else 0
      | _, _ => 0)
    + lances_aprovados host_le (thread_cliente_passo host_le s f e).1
        (thread_cliente_passo host_le s f e).2.1 es

/-- The number of calls of `enviar_multicast_novo_lance` in a list of outputs. -/
def multicasts (saidas : List Saida) : Nat :=
  (saidas.filter (fun o => o.multicast.isSome)).length

/-- The server process with its handlers: the globals, the phase of each
thread, and whether the process is still running. -/
structure Sistema where
  estado : EstadoLeilao
  threads : List Fase
  em_execucao : Bool
  deriving DecidableEq, Repr

/-- Whether the step of a handler in phase `f` on the event `e` raises
`SIGPIPE`: the step calls `send(cliente_fd, resposta, strlen(resposta), 0)` (a
complete frame was read), the call fails, and the failure is `EPIPE` (`epipe`:
the peer has closed the connection). The call passes the flags `0`, not
`MSG_NOSIGNAL`. -/
def send_sigpipe (f : Fase) (e : Evento) (epipe : Bool) : Bool :=
  match f, e with
  | .ACTIVE _ _, .recv lidos _ send_ret => decide (lidos = 8) && decide (send_ret < 0) && epipe
  | _, _ => false

/-- One step of the server: handler number `i` processes the event `e`, and
`epipe` tells whether a failing `send` fails with `EPIPE`. Nothing in the
source changes the disposition of `SIGPIPE` (no `signal`, no `sigaction`), so
the signal has its default action: it ends the process with all its handlers,
before `send` returns. A process that has ended takes no step. Otherwise the
other handlers keep their phase. -/
def sistema_passo (host_le : Bool) (σ : Sistema) (i : Nat) (e : Evento) (epipe : Bool) :
    Sistema :=
  if σ.em_execucao = false then σ
  else
    match σ.threads[i]? with
    | none => σ
    | some f =>
      if send_sigpipe f e epipe = true then
        { estado := (thread_cliente_passo host_le σ.estado f e).1,
          threads := σ.threads,
          em_execucao := false }
      else
        { estado := (thread_cliente_passo host_le σ.estado f e).1,
          threads := σ.threads.set i (thread_cliente_passo host_le σ.estado f e).2.1,
          em_execucao := true }

/-- The server processing a sequence of steps `(i, e, epipe)`. -/
def sistema_execucao (host_le : Bool) (σ : Sistema) : List (Nat × Evento × Bool) → Sistema
  | [] => σ
  | p :: ps => sistema_execucao host_le (sistema_passo host_le σ p.1 p.2.1 p.2.2) ps

/-! ## The order of the lock and of the socket calls -/

/-- The calls of a handler that matter for the lock discipline. -/
inductive Acao where
  | recv
  | mutex_lock
  | mutex_unlock
  | sendto
  | send
  | close
  deriving DecidableEq, Repr

/-- The calls `ler_linha_socket` makes on the stream: one `recv` per loop
iteration. -/
def ler_linha_socket_acoes (tam : Nat) : List Nat → Nat → List Acao
  | [], pos => if pos < tam - 1 then [.recv] else []
  | c :: dados, pos =>
    if pos < tam - 1 then
      if c = 10 then [.recv] else .recv :: ler_linha_socket_acoes tam dados (pos + 1)
    else []

/-- The calls of `thread_cliente` in `server_leilao.c` during one step, in
program order: the identity phase up to the bid loop (or the `close`), or one
iteration of the bid loop (with the `close` when the loop is left). -/
def thread_cliente_acoes (host_le : Bool) (s : EstadoLeilao) (f : Fase) (e : Evento) :
    List Acao :=
  match f, e with
  | .AWAIT_IDENTITY, .identidade fluxo =>
    ler_linha_socket_acoes 128 fluxo.dados 0 ++
      (if (ler_linha_socket 128 fluxo).ret ≤ 0 then [.close] else [])
  | .ACTIVE _ _, .recv lidos buf send_ret =>
    if lidos = 0 then [.recv, .close]
    else if lidos < 0 then [.recv, .close]
    else if lidos ≠ 8 then [.recv]
    else
      [.recv, .mutex_lock, .mutex_unlock] ++
        (if (secao_critica s (desempacotar_lance host_le buf)).2 then [.sendto] else []) ++
        [.send] ++ (if send_ret < 0 then [.close] else [])
  | _, _ => []

/-- The calls of a handler of `server_leilao.c` over a sequence of events, in
program order. -/
def thread_cliente_acoes_execucao (host_le : Bool) (s : EstadoLeilao) (f : Fase) :
    List Evento → List Acao
  | [] => []
  | e :: es =>
    thread_cliente_acoes host_le s f e ++
      thread_cliente_acoes_execucao host_le (thread_cliente_passo host_le s f e).1
        (thread_cliente_passo host_le s f e).2.1 es

/-- The calls of one iteration of the bid loop of `thread_cliente` in
`server_leilao_bk.c` (a handler without identity phase), in program order;
`aprovado` is the flag `lance_aprovado` after the critical section. -/
def thread_cliente_bk_acoes (lidos : Int) (aprovado : Bool) (send_ret : Int) : List Acao :=
  if lidos = 0 then [.recv, .close]
  else if lidos < 0 then [.recv, .close]
  else if lidos ≠ 8 then [.recv]
  else
    [.recv, .mutex_lock, .mutex_unlock] ++ (if aprovado then [.sendto] else []) ++
      [.send] ++ (if send_ret < 0 then [.close] else [])

/-- A socket call: `recv`, `send` or `sendto`. -/
def Acao.rede : Acao → Bool
  | .recv => true
  | .send => true
  | .sendto => true
  | _ => false

/-- No socket call happens while the lock is held: `preso` tells whether the
lock is held before the first call of the list. -/
def sem_rede_sob_lock : Bool → List Acao → Bool
  | _, [] => true
  | preso, a :: as =>
    match a with
    | .mutex_lock => sem_rede_sob_lock true as
    | .mutex_unlock => sem_rede_sob_lock false as
    | _ => (!(preso && a.rede)) && sem_rede_sob_lock preso as

/-- Whether the lock is held after the calls of the list. -/
def lock_preso : Bool → List Acao → Bool
  | preso, [] => preso
  | preso, a :: as =>
    match a with
    | .mutex_lock => lock_preso true as
    | .mutex_unlock => lock_preso false as
    | _ => lock_preso preso as



/-! ## `client_leilao.c` and `client_leilao_bk.c`: the bid loop of the client -/

/-- The libc `isspace` in the C locale. -/
def isspace (c : Nat) : Bool := c = 32 || (9 ≤ c && c ≤ 13)

/-- The libc `isdigit`. -/
def isdigit (c : Nat) : Bool := 48 ≤ c && c ≤ 57

/-- The digit loop of `strtol` in base 10: the magnitude read so far and the
text from the first byte that is not a digit. -/
def strtol_digitos : List Nat → Nat → Nat × List Nat
  | [], acc => (acc, [])
  | c :: cs, acc => if isdigit c then strtol_digitos cs (10 * acc + (c - 48)) else (acc, c :: cs)

/-- A value brought into the range of a `long` of `long_bits` bits, the way
`strtol` does on overflow (`LONG_MAX` or `LONG_MIN`). -/
def long_clamp (long_bits : Nat) (v : Int) : Int :=
  if v > 2 ^ (long_bits - 1) - 1 then 2 ^ (long_bits - 1) - 1
  else if v < -(2 ^ (long_bits - 1)) then -(2 ^ (long_bits - 1))
  else v

/-- The libc `strtol(nptr, &endptr, 10)` on a C string, for a `long` of
`long_bits` bits: the value returned and the text `endptr` points to. Leading
white space is skipped, one sign is accepted, then digits are read; without
any digit the value is `0` and `endptr` is `nptr`. -/
def strtol (long_bits : Nat) (nptr : List Nat) : Int × List Nat :=
  let s1 := nptr.dropWhile isspace
  let neg : Bool := s1.head? = some 45
  let s2 := if s1.head? = some 45 ∨ s1.head? = some 43 then s1.tail else s1
  match s2 with
  | [] => (0, nptr)
  | c :: _ =>
    if isdigit c then
      let r := strtol_digitos s2 0
      (long_clamp long_bits (if neg then -(r.1 : Int) else (r.1 : Int)), r.2)
    else (0, nptr)

/-- The libc `fgets` reading at most `n` bytes: it stops after a newline. The
bytes stored and the rest of the input. -/
def fgets_aux : Nat → List Nat → List Nat × List Nat
  | 0, entrada => ([], entrada)
  | _ + 1, [] => ([], [])
  | n + 1, c :: cs =>
    if c = 10 then ([10], cs) else (c :: (fgets_aux n cs).1, (fgets_aux n cs).2)

/-- The function `ler_linha_stdin(buf, tam)` of `client_leilao.c`: the C
string left in `buf` and the rest of the standard input. At end of input
`fgets` returns `NULL` and the string is empty. -/
def ler_linha_stdin (tam : Nat) (entrada : List Nat) : List Nat × List Nat :=
  match entrada with
  | [] => ([], [])
  | _ :: _ =>
    let lido := c_str (fgets_aux (tam - 1) entrada).1
    (if lido.getLast? = some 10 then lido.dropLast else lido, (fgets_aux (tam - 1) entrada).2)

/-- What one iteration of the bid loop of the client does. -/
inductive AcaoCliente where
  | repetir
  | sair
  | enviar (quadro : List Nat)
  deriving DecidableEq, Repr

/-- One iteration of the bid loop of `main` in `client_leilao.c`, up to the
`send` of the frame, reading the standard input `entrada`; `long_bits` is the
width of `long` on the platform (64 on LP64 systems such as Linux x86-64). -/
def cliente_iteracao (host_le : Bool) (long_bits : Nat) (id_cliente : Int)
    (entrada : List Nat) : AcaoCliente :=
  let linha := (ler_linha_stdin 64 entrada).1
  if linha = [] then .repetir
  else
    let valor := (strtol long_bits linha).1
    let endptr := (strtol long_bits linha).2
    if endptr ≠ [] then .repetir
    else if valor < 0 then .sair
    else .enviar (empacotar_lance host_le
      { id_cliente := id_cliente, valor_lance := toI32 (toU32 valor) })

/-- One iteration of the bid loop of `main` in `client_leilao_bk.c`, up to
the `send` of the frame; `lido` is what `scanf("%d", &valor_lance)` stored,
`none` when it did not convert one item. -/
def cliente_bk_iteracao (host_le : Bool) (id_cliente : Int) (lido : Option Int) :
    AcaoCliente :=
  match lido with
  | none => .sair
  | some valor_lance =>
    if valor_lance < 0 then .sair
    else .enviar (empacotar_lance host_le
      { id_cliente := id_cliente, valor_lance := valor_lance })

/-! ## `server_leilao.c`: a handler reading its whole connection from one stream -/

/-- The larger of `0` and the largest amount of a sequence of bids. -/
def maior_ou_zero (lances : List MensagemLance) : Int :=
  lances.foldl (fun a m => max a m.valor_lance) 0

/-- The libc `recv(fd, buf, len, 0)` on a stream: with data available it
delivers between 1 and `len` bytes, as many as the transport hands over
(`corte`, brought into that range); at the end of the stream it returns `0`
or `-1`. The value returned, the bytes stored in `buf`, and the stream left. -/
def recv (fluxo : Fluxo) (len corte : Nat) : Int × List Nat × Fluxo :=
  match fluxo.dados with
  | [] => (codigo_fim fluxo.fim, [], fluxo)
  | _ :: _ =>
    ((min (max corte 1) (min len fluxo.dados.length) : Nat),
      fluxo.dados.take (min (max corte 1) (min len fluxo.dados.length)),
      ⟨fluxo.dados.drop (min (max corte 1) (min len fluxo.dados.length)), fluxo.fim⟩)

/-- The events of the bid loop when it reads the stream `fluxo`: one `recv` of
up to 8 bytes per iteration; each iteration comes with the size the transport
hands over and the value `send` returns. -/
def eventos_fluxo : Fluxo → List (Nat × Int) → List Evento
  | _, [] => []
  | fluxo, (corte, send_ret) :: cs =>
    .recv (recv fluxo 8 corte).1 (recv fluxo 8 corte).2.1 send_ret ::
      eventos_fluxo (recv fluxo 8 corte).2.2 cs

/-- A handler on one connection: the identity phase reads the stream with
`ler_linha_socket`, the bid loop goes on with what that call left unread. -/
def thread_cliente_conexao (host_le : Bool) (s : EstadoLeilao) (fluxo : Fluxo)
    (cs : List (Nat × Int)) : EstadoLeilao × Fase :=
  thread_cliente_execucao host_le s .AWAIT_IDENTITY
    (.identidade fluxo :: eventos_fluxo (ler_linha_socket 128 fluxo).resto cs)

/-! ## `server_leilao.c`: handlers running concurrently -/

/-- Where a handler stands in the processing of one bid frame, with the
locals it holds: before `pthread_mutex_lock`, before the comparison, before
each of the two assignments, before `pthread_mutex_unlock`, then the two reads
of the globals made by the `snprintf` of the response, and the `send`. -/
inductive PC where
  | ocioso
  | quer_lock (lance : MensagemLance)
  | comparar (lance : MensagemLance)
  | escrever_lance (lance : MensagemLance)
  | escrever_vencedor (lance : MensagemLance)
  | liberar (lance : MensagemLance) (lance_aprovado : Bool)
  | ler_lance (lance : MensagemLance) (lance_aprovado : Bool)
  | ler_vencedor (lance : MensagemLance) (lance_aprovado : Bool) (lido_lance : Int)
  | enviar (lance : MensagemLance) (lance_aprovado : Bool) (lido_lance lido_vencedor : Int)
  deriving DecidableEq, Repr

/-- One handler thread: its position, the bids of the complete frames it has
still to receive, and the responses it has sent. -/
structure Tarefa where
  pc : PC
  pendentes : List MensagemLance
  respostas : List Resposta
  deriving DecidableEq, Repr

/-- The server with concurrent handlers: the globals `lance_atual` and
`cliente_vencedor`, the holder of `mutex_lance`, the threads, and a record of
the bids whose critical section is complete, in the order of the unlocks. -/
structure Concorrente where
  estado : EstadoLeilao
  mutex : Option Nat
  tarefas : Nat → Tarefa
  log : List (Nat × MensagemLance)

/-- The threads with thread `t` replaced. -/
def atualizar (tarefas : Nat → Tarefa) (t : Nat) (x : Tarefa) : Nat → Tarefa :=
  fun u => if u = t then x else tarefas u

/-- One atomic step of thread `t`, following the statements of the bid loop of
`thread_cliente`. A thread that asks for the lock while it is held does not
move. The response is built from two separate reads of the globals, made
after the unlock. -/
def passo_conc (σ : Concorrente) (t : Nat) : Concorrente :=
  match (σ.tarefas t).pc with
  | .ocioso =>
    match (σ.tarefas t).pendentes with
    | [] => σ
    | m :: ms =>
      ⟨σ.estado, σ.mutex,
        atualizar σ.tarefas t ⟨.quer_lock m, ms, (σ.tarefas t).respostas⟩, σ.log⟩
  | .quer_lock m =>
    match σ.mutex with
    | none =>
      ⟨σ.estado, some t,
        atualizar σ.tarefas t ⟨.comparar m, (σ.tarefas t).pendentes, (σ.tarefas t).respostas⟩,
        σ.log⟩
    | some _ => σ
  | .comparar m =>
    if m.valor_lance > σ.estado.lance_atual then
      ⟨σ.estado, σ.mutex,
        atualizar σ.tarefas t
          ⟨.escrever_lance m, (σ.tarefas t).pendentes, (σ.tarefas t).respostas⟩, σ.log⟩
    else
      ⟨σ.estado, σ.mutex,
        atualizar σ.tarefas t
          ⟨.liberar m false, (σ.tarefas t).pendentes, (σ.tarefas t).respostas⟩, σ.log⟩
  | .escrever_lance m =>
    ⟨⟨m.valor_lance, σ.estado.cliente_vencedor⟩, σ.mutex,
      atualizar σ.tarefas t
        ⟨.escrever_vencedor m, (σ.tarefas t).pendentes, (σ.tarefas t).respostas⟩, σ.log⟩
  | .escrever_vencedor m =>
    ⟨⟨σ.estado.lance_atual, m.id_cliente⟩, σ.mutex,
      atualizar σ.tarefas t
        ⟨.liberar m true, (σ.tarefas t).pendentes, (σ.tarefas t).respostas⟩, σ.log⟩
  | .liberar m ap =>
    ⟨σ.estado, none,
      atualizar σ.tarefas t
        ⟨.ler_lance m ap, (σ.tarefas t).pendentes, (σ.tarefas t).respostas⟩,
      σ.log ++ [(t, m)]⟩
  | .ler_lance m ap =>
    ⟨σ.estado, σ.mutex,
      atualizar σ.tarefas t
        ⟨.ler_vencedor m ap σ.estado.lance_atual, (σ.tarefas t).pendentes,
          (σ.tarefas t).respostas⟩, σ.log⟩
  | .ler_vencedor m ap la =>
    ⟨σ.estado, σ.mutex,
      atualizar σ.tarefas t
        ⟨.enviar m ap la σ.estado.cliente_vencedor, (σ.tarefas t).pendentes,
          (σ.tarefas t).respostas⟩, σ.log⟩
  | .enviar _ ap la cv =>
    ⟨σ.estado, σ.mutex,
      atualizar σ.tarefas t
        ⟨.ocioso, (σ.tarefas t).pendentes,
          (σ.tarefas t).respostas ++
            [if ap then Resposta.aceito la cv else Resposta.rejeitado la cv]⟩, σ.log⟩

/-- The run of the server under a schedule: the list of the threads that
take the successive steps. -/
def executar (σ : Concorrente) (agenda : List Nat) : Concorrente :=
  agenda.foldl passo_conc σ

/-- The auction states the server goes through under a schedule, the
starting one included. -/
def estados_visitados : Concorrente → List Nat → List EstadoLeilao
  | σ, [] => [σ.estado]
  | σ, t :: ts => σ.estado :: estados_visitados (passo_conc σ t) ts

/-- The server at start: the initial globals, the lock free, and thread `t`
about to receive the bids `lances t`. -/
def conc_inicial (lances : Nat → List MensagemLance) : Concorrente :=
  { estado := estado_inicial, mutex := none,
    tarefas := fun t => { pc := .ocioso, pendentes := lances t, respostas := [] },
    log := [] }

/-- The server after the schedule `agenda`, started with the bids `lances`. -/
def conc_executar (lances : Nat → List MensagemLance) (agenda : List Nat) : Concorrente :=
  executar (conc_inicial lances) agenda

/-- Two handlers that receive one bid each. -/
def dois_lances (a b : MensagemLance) : Nat → List MensagemLance
  | 0 => [a]
  | 1 => [b]
  | _ => []

/-- Whether a position is inside the critical section (the lock is held). -/
def na_secao : PC → Bool
  | .comparar _ => true
  | .escrever_lance _ => true
  | .escrever_vencedor _ => true
  | .liberar _ _ => true
  | _ => false

/-- The bid a thread has received and not yet completed the critical section for. -/
def em_curso : PC → List MensagemLance
  | .quer_lock m => [m]
  | .comparar m => [m]
  | .escrever_lance m => [m]
  | .escrever_vencedor m => [m]
  | .liberar m _ => [m]
  | _ => []

/-- The bids of thread `t` in the record, in order. -/
def do_log (log : List (Nat × MensagemLance)) (t : Nat) : List MensagemLance :=
  (log.filter (fun p => p.1 = t)).map (fun p => p.2)

/-- The globals agree with the record: with the lock free they are the result
of applying the recorded bids in order; with the lock held, they are that
result as far as the holder has carried out the update of its bid. -/
def estado_coerente (σ : Concorrente) : Prop :=
  match σ.mutex with
  | none => σ.estado = aplicar_lances estado_inicial (σ.log.map (fun p => p.2))
  | some t =>
    match (σ.tarefas t).pc with
    | .comparar _ => σ.estado = aplicar_lances estado_inicial (σ.log.map (fun p => p.2))
    | .escrever_lance m =>
      σ.estado = aplicar_lances estado_inicial (σ.log.map (fun p => p.2)) ∧
      m.valor_lance > (aplicar_lances estado_inicial (σ.log.map (fun p => p.2))).lance_atual
    | .escrever_vencedor m =>
      σ.estado = ⟨m.valor_lance,
        (aplicar_lances estado_inicial (σ.log.map (fun p => p.2))).cliente_vencedor⟩ ∧
      m.valor_lance > (aplicar_lances estado_inicial (σ.log.map (fun p => p.2))).lance_atual
    | .liberar m ap =>
      σ.estado = (secao_critica (aplicar_lances estado_inicial (σ.log.map (fun p => p.2))) m).1 ∧
      ap = (secao_critica (aplicar_lances estado_inicial (σ.log.map (fun p => p.2))) m).2
    | _ => True

/-- The invariant of the concurrent server started with the bids `lances`:
the lock is held exactly by the thread inside the critical section, the
globals agree with the record, and every bid of every thread is either in the
record, in progress, or still to come, in the order of arrival. -/
def invariante (lances : Nat → List MensagemLance) (σ : Concorrente) : Prop :=
  (∀ t, na_secao (σ.tarefas t).pc = true ↔ σ.mutex = some t) ∧
  estado_coerente σ ∧
  (∀ t, do_log σ.log t ++ em_curso (σ.tarefas t).pc ++ (σ.tarefas t).pendentes = lances t)

end Leilao

/-!
Prime counting (`naiara_yan/naiaraprimemoderno.cpp`).

An `int` is an `Int` in the 32-bit range; the result of an addition or a
multiplication on `int` is brought back into that range by `wrap_int`
(two's-complement wrap-around), so that an overflow shows in the model.
-/

namespace Primos

/-- The value an `int` expression takes in 32 bits (wrap-around on overflow). -/
def wrap_int (x : Int) : Int := Leilao.toI32 (Leilao.toU32 x)

/-- The `for` loop of `is_prime`: trial division of `n` by `d`, `d + 2`, ...
up to `limit`. -/
def is_prime_loop (n limit d : Nat) : Bool :=
  if d ≤ limit then
    if n % d = 0 then false else is_prime_loop n limit (d + 2)
  else true
termination_by limit + 1 - d

/-- The function `is_prime` of `naiaraprimemoderno.cpp`. The bound
`static_cast<int>(std::sqrt(static_cast<double>(n)))` is taken as the integer
square root: for `0 <= n < 2^31` the `double` holds `n` exactly and a
correctly rounded square root truncates to `floor(sqrt(n))`. -/
def is_prime (n : Int) : Bool :=
  if n < 2 then false
  else if n = 2 then true
  else if n % 2 = 0 then false
  else is_prime_loop n.toNat (Nat.sqrt n.toNat) 3

/-- The `for` loop of `count_primes_local`, from the current `value` and
`local_count`; `none` when `fuel` iterations do not end it. -/
def count_primes_local_loop (n step : Int) : Nat → Int → Int → Option Int
  | 0, _, _ => none
  | fuel + 1, value, local_count =>
    if value ≤ n then
      count_primes_local_loop n step fuel (wrap_int (value + step))
        (if is_prime value then local_count + 1 else local_count)
    else some local_count

/-- The function `count_primes_local(n, rank, size)`, run for at most `fuel`
iterations of its loop. -/
def count_primes_local (fuel : Nat) (n rank size : Int) : Option Int :=
  count_primes_local_loop n (wrap_int (2 * size)) fuel (wrap_int (3 + 2 * rank)) 0

/-- The values of `value` for which the loop of `count_primes_local` calls
`is_prime`, in order. -/
def valores_testados_loop (n step : Int) : Nat → Int → Option (List Int)
  | 0, _ => none
  | fuel + 1, value =>
    if value ≤ n then
      (valores_testados_loop n step fuel (wrap_int (value + step))).map (fun vs => value :: vs)
    else some []

/-- The values rank `rank` tests. -/
def valores_testados (fuel : Nat) (n rank size : Int) : Option (List Int) :=
  valores_testados_loop n (wrap_int (2 * size)) fuel (wrap_int (3 + 2 * rank))

/-- The sum (`MPI_Reduce` with `MPI_SUM`) of the local counts of the ranks
`0 .. k-1`. -/
def global_count (fuel : Nat) (n : Int) (size : Nat) : Nat → Option Int
  | 0 => some 0
  | k + 1 =>
    match global_count fuel n size k, count_primes_local fuel n k size with
    | some a, some c => some (a + c)
    | _, _ => none

/-- The total printed by rank 0 in `main`: the sum of the local counts of all
the ranks plus `base_primes` (`1` when `n >= 2`, for the prime 2). -/
def total_primes (fuel : Nat) (n : Int) (size : Nat) : Option Int :=
  (global_count fuel n size size).map (fun g => g + (if n ≥ 2 then 1 else 0))

/-- Whether `3 + 2 * j` is a prime of `[3, n]`, as a number. -/
def primo_impar_ate (n j : Nat) : Nat := if 3 + 2 * j ≤ n ∧ Nat.Prime (3 + 2 * j) then 1 else 0

/-- The number of primes in `[2, n]`. -/
def primos_ate (n : Nat) : Nat := ((List.range (n + 1)).filter (fun k => decide (Nat.Prime k))).length

end Primos

/-!
Row distribution of the matrix multiplications
(`naiara_yan/naiaramultimatrizotimizado_mpi.c`,
`naiara_yan/naiaramultimatriz_mpi_original.c`, `matrizteste_mpi.c`).

The counts involved (number of workers, rows, offsets) are far below the
`int` range, so they are natural numbers here; the master runs the
distribution only with at least one worker.
-/

namespace Matriz

/-- One message of the master to a worker: the destination rank, the first
row (`offset`) and the number of rows. -/
structure Bloco where
  dest : Nat
  offset : Nat
  rows : Nat
  deriving DecidableEq, Repr

/-- The send loop of `main` in `naiaramultimatrizotimizado_mpi.c` and
`naiaramultimatriz_mpi_original.c`, over the destinations still to serve,
from the current `offset`: the blocks sent and the final `offset`. -/
def enviar_blocos (rows remaining_rows : Nat) : List Nat → Nat → List Bloco × Nat
  | [], offset => ([], offset)
  | dest :: ds, offset =>
    (⟨dest, offset, rows + (if dest ≤ remaining_rows then 1 else 0)⟩ ::
        (enviar_blocos rows remaining_rows ds
          (offset + (rows + (if dest ≤ remaining_rows then 1 else 0)))).1,
      (enviar_blocos rows remaining_rows ds
          (offset + (rows + (if dest ≤ remaining_rows then 1 else 0)))).2)

/-- The work distribution of the master for an `N x N` matrix and
`numworkers` workers: `rows = N / numworkers`, `remaining_rows = N % numworkers`,
`offset = 0`, then the loop `for (dest = 1; dest <= numworkers; dest++)`. -/
def distribuir (N numworkers : Nat) : List Bloco × Nat :=
  enviar_blocos (N / numworkers) (N % numworkers) (List.range' 1 numworkers) 0

/-- The send loop of `main` in `matrizteste_mpi.c`: every worker gets `rows`
rows, and `offset` advances by `rows`. -/
def enviar_blocos_teste (rows : Nat) : List Nat → Nat → List Bloco × Nat
  | [], offset => ([], offset)
  | dest :: ds, offset =>
    (⟨dest, offset, rows⟩ :: (enviar_blocos_teste rows ds (offset + rows)).1,
      (enviar_blocos_teste rows ds (offset + rows)).2)

/-- The work distribution of `matrizteste_mpi.c` (`N = 10`):
`rows = N / numworkers`, `offset = 0`, then the loop over the workers. -/
def distribuir_teste (numworkers : Nat) : List Bloco × Nat :=
  enviar_blocos_teste (10 / numworkers) (List.range' 1 numworkers) 0

/-- Row `i` belongs to the block: `offset <= i < offset + rows`. -/
def Bloco.contem (b : Bloco) (i : Nat) : Bool := decide (b.offset ≤ i) && decide (i < b.offset + b.rows)

/-- The blocks follow one another without gap or overlap, from row `a` up to
row `e` (excluded). -/
def encadeados : Nat → List Bloco → Nat → Prop
  | a, [], e => a = e
  | a, b :: bs, e => b.offset = a ∧ encadeados (a + b.rows) bs e

/-- The rows of the result matrix `c` that the receive loop of the master
stores: for each worker, in rank order, the `rows` rows from `offset` on
(the worker returns the `offset` and `rows` it was sent). -/
def linhas_recebidas : List Bloco → List Nat
  | [] => []
  | b :: bs => List.range' b.offset b.rows ++ linhas_recebidas bs

end Matriz

/-!
The argument parser of the Monte Carlo estimate of pi (`mpi_pi_montecarlo.cpp`).

The command line is a list of C strings (lists of bytes). `uint64_t` values are
natural numbers below `2 ^ 64`; a conversion that throws is `none`.
-/

namespace MonteCarlo

/-- The `struct Args` of `mpi_pi_montecarlo.cpp`. -/
structure Args where
  samples_total : Nat
  batch : Nat
  report_every : Int
  deriving DecidableEq, Repr

/-- The call `std::stoull(str)` in base 10: leading white space is skipped,
one sign is accepted, then digits are read up to the first byte that is not a
digit. Without any digit the call throws `std::invalid_argument`, with a
magnitude above `ULLONG_MAX` it throws `std::out_of_range` (both `none`); a
minus sign negates the value in `unsigned long long`. -/
def stoull (str : List Nat) : Option Nat :=
  let s1 := str.dropWhile Leilao.isspace
  let neg : Bool := s1.head? = some 45
  let s2 := if s1.head? = some 45 ∨ s1.head? = some 43 then s1.tail else s1
  match s2 with
  | [] => none
  | c :: _ =>
    if Leilao.isdigit c then
      let r := Leilao.strtol_digitos s2 0
      if r.1 < 2 ^ 64 then some (if neg then (2 ^ 64 - r.1) % 2 ^ 64 else r.1) else none
    else none

/-- The call `std::stoi(str)` in base 10: as `strtol`, and the call throws
(`none`) without any digit or when the value is outside the range of `int`. -/
def stoi (str : List Nat) : Option Int :=
  let s1 := str.dropWhile Leilao.isspace
  let neg : Bool := s1.head? = some 45
  let s2 := if s1.head? = some 45 ∨ s1.head? = some 43 then s1.tail else s1
  match s2 with
  | [] => none
  | c :: _ =>
    if Leilao.isdigit c then
      let r := Leilao.strtol_digitos s2 0
      let v : Int := if neg then -(r.1 : Int) else (r.1 : Int)
      if -2147483648 ≤ v ∧ v ≤ 2147483647 then some v else none
    else none

/-- The `for` loop of `parse_args` over the arguments not yet read
(`argv[i]`, `argv[i+1]`, ...): an option that has a following argument
converts it and skips it; anything else is skipped. -/
def parse_args_loop : List (List Nat) → Args → Option Args
  | [], a => some a
  | [_], a => some a
  | s :: v :: rest, a =>
    if s = Leilao.bytes "-samples" then
      (stoull v).bind (fun n => parse_args_loop rest ⟨n, a.batch, a.report_every⟩)
    else if s = Leilao.bytes "-batch" then
      (stoull v).bind (fun n => parse_args_loop rest ⟨a.samples_total, n, a.report_every⟩)
    else if s = Leilao.bytes "-report" then
      (stoi v).bind (fun r => parse_args_loop rest ⟨a.samples_total, a.batch, max 1 r⟩)
    else parse_args_loop (v :: rest) a

/-- The two statements after the loop of `parse_args`:
`if (a.batch == 0) a.batch = 1000000ULL;` and
`if (a.batch > a.samples_total) a.batch = a.samples_total;`. -/
def parse_args_guarda (a : Args) : Args :=
  let a1 : Args := if a.batch = 0 then ⟨a.samples_total, 1000000, a.report_every⟩ else a
  if a1.batch > a1.samples_total then ⟨a1.samples_total, a1.samples_total, a1.report_every⟩
  else a1

/-- The function `parse_args(argc, argv)`: the defaults of `struct Args`, the
loop from `argv[1]` on, then the two guards; `none` when a conversion throws. -/
def parse_args (argv : List (List Nat)) : Option Args :=
  (parse_args_loop argv.tail ⟨1000000, 1000000, 10⟩).map parse_args_guarda

/-- The task count of the master in `main`:
`tasks = samples_total / batch`, `remainder = samples_total % batch`,
`if (remainder > 0) ++tasks`. The pair `(tasks, remainder)`, or `none` when the
divisor `batch` is zero. -/
def tarefas (a : Args) : Option (Nat × Nat) :=
  if a.batch = 0 then none
  else some (a.samples_total / a.batch + (if a.samples_total % a.batch > 0 then 1 else 0),
    a.samples_total % a.batch)

end MonteCarlo

/-!
The tile list of the Mandelbrot renderer (`mandelbrot_mpi.cpp`,
`mandelbrot_mpi_partial.cpp`).

The coordinates are `int`: an arithmetic result is brought back into 32 bits
with `Primos.wrap_int`. A loop that does not end within `fuel` iterations gives
`none`.
-/

namespace Mandelbrot

/-- The local `struct Tile { int x0,y0,w,h; }` of `main`. -/
structure Tile where
  x0 : Int
  y0 : Int
  w : Int
  h : Int
  deriving DecidableEq, Repr

/-- The inner loop `for (int x = 0; x < image_w; x += tile)` of the master for
the row of tiles at `y`, from the current `x` and tile list. -/
def tiles_linha (image_w image_h tile y : Int) : Nat → Int → List Tile → Option (List Tile)
  | 0, _, _ => none
  | fuel + 1, x, tiles =>
    if x < image_w then
      tiles_linha image_w image_h tile y fuel (Primos.wrap_int (x + tile))
        (tiles ++ [⟨x, y, min tile (Primos.wrap_int (image_w - x)),
          min tile (Primos.wrap_int (image_h - y))⟩])
    else some tiles

/-- The outer loop `for (int y = 0; y < image_h; y += tile)` of the master,
from the current `y` and tile list; each inner loop may take `fuel_x`
iterations. -/
def tiles_imagem (image_w image_h tile : Int) (fuel_x : Nat) :
    Nat → Int → List Tile → Option (List Tile)
  | 0, _, _ => none
  | fuel + 1, y, tiles =>
    if y < image_h then
      (tiles_linha image_w image_h tile y fuel_x 0 tiles).bind
        (fun tiles1 => tiles_imagem image_w image_h tile fuel_x fuel
          (Primos.wrap_int (y + tile)) tiles1)
    else some tiles

/-- The tile list the master builds for an image `image_w x image_h` with
tiles of side `tile`. -/
def lista_tiles (fuel : Nat) (image_w image_h tile : Int) : Option (List Tile) :=
  tiles_imagem image_w image_h tile fuel fuel 0 []

/-- The test `px >= image_w || py >= image_h` of `compute_tile` at the loop
indices `i`, `j` of a tile with origin `(x0, y0)`: `true` when the
out-of-image branch is taken. -/
def compute_tile_fora (image_w image_h x0 y0 i j : Int) : Bool :=
  decide (Primos.wrap_int (x0 + i) ≥ image_w) || decide (Primos.wrap_int (y0 + j) ≥ image_h)

/-- Pixel `(px, py)` lies in the tile: `x0 <= px < x0 + w` and
`y0 <= py < y0 + h`. -/
def Tile.contem (t : Tile) (px py : Int) : Bool :=
  decide (t.x0 ≤ px) && decide (px < t.x0 + t.w) &&
    (decide (t.y0 ≤ py) && decide (py < t.y0 + t.h))

/-- The quotient rounded up, `ceil(a / b)`. -/
def teto_div (a b : Nat) : Nat := (a + b - 1) / b

/-- The tile in column `i` and row `j` of the grid with step `tile` over the
image, clipped at the right and bottom borders. -/
def tile_da_grade (image_w image_h tile : Int) (i j : Nat) : Tile :=
  ⟨i * tile, j * tile, min tile (image_w - i * tile), min tile (image_h - j * tile)⟩

/-- The grid of `nx` columns and `ny` rows of tiles, row by row. -/
def tiles_da_grade (image_w image_h tile : Int) (nx ny : Nat) : List Tile :=
  (List.range ny).flatMap
    (fun j => (List.range nx).map (fun i => tile_da_grade image_w image_h tile i j))

end Mandelbrot

namespace Leilao

/-! ## Machine-integer lemmas -/

theorem word_b0 (a b c d : Nat) (hd : d < 256) :
    (d + 256 * (c + 256 * (b + 256 * a))) % 256 = d := by omega

theorem word_b1 (a b c d : Nat) (hc : c < 256) (hd : d < 256) :
    (d + 256 * (c + 256 * (b + 256 * a))) / 256 % 256 = c := by omega

theorem word_b2 (a b c d : Nat) (hb : b < 256) (hc : c < 256) (hd : d < 256) :
    (d + 256 * (c + 256 * (b + 256 * a))) / 65536 % 256 = b := by omega

theorem word_b3 (a b c d : Nat) (ha : a < 256) (hb : b < 256) (hc : c < 256) (hd : d < 256) :
    (d + 256 * (c + 256 * (b + 256 * a))) / 16777216 % 256 = a := by omega

theorem word_lt (a b c d : Nat) (ha : a < 256) (hb : b < 256) (hc : c < 256) (hd : d < 256) :
    d + 256 * (c + 256 * (b + 256 * a)) < 4294967296 := by omega

theorem word_of_u32 (u : Nat) (h : u < 4294967296) :
    ∃ a b c d : Nat, a < 256 ∧ b < 256 ∧ c < 256 ∧ d < 256 ∧
      u = d + 256 * (c + 256 * (b + 256 * a)) :=
  ⟨u / 16777216 % 256, u / 65536 % 256, u / 256 % 256, u % 256,
    by omega, by omega, by omega, by omega, by omega⟩

theorem bswap32_word (a b c d : Nat) (ha : a < 256) (hb : b < 256) (hc : c < 256)
    (hd : d < 256) :
    bswap32 (d + 256 * (c + 256 * (b + 256 * a))) = a + 256 * (b + 256 * (c + 256 * d)) := by
  unfold bswap32
  rw [word_b0 a b c d hd, word_b1 a b c d hc hd, word_b2 a b c d hb hc hd,
    word_b3 a b c d ha hb hc hd]
  omega

theorem toU32_lt (x : Int) : toU32 x < 4294967296 := by
  unfold toU32; omega

theorem toI32_toU32 (x : Int) (h : isInt32 x) : toI32 (toU32 x) = x := by
  unfold isInt32 at h
  unfold toI32 toU32
  split <;> omega

theorem toU32_toI32 (u : Nat) : toU32 (toI32 u) = u % 4294967296 := by
  unfold toI32 toU32
  split <;> omega

theorem toU32_toI32_of_lt (u : Nat) (h : u < 4294967296) : toU32 (toI32 u) = u := by
  rw [toU32_toI32]; omega

theorem isInt32_toI32 (u : Nat) : isInt32 (toI32 u) := by
  unfold isInt32 toI32
  split <;> omega

/-- The network-order conversion followed by a host-order store writes the
big-endian digits, whatever the byte order of the host. -/
theorem store_htonl_word (host_le : Bool) (a b c d : Nat) (ha : a < 256) (hb : b < 256)
    (hc : c < 256) (hd : d < 256) :
    memcpy_from_int32 host_le (toI32 (htonl host_le (d + 256 * (c + 256 * (b + 256 * a)))))
      = [a, b, c, d] := by
  have hw := word_lt a b c d ha hb hc hd
  cases host_le
  · simp only [memcpy_from_int32, htonl, Bool.false_eq_true, if_false]
    rw [Nat.mod_eq_of_lt hw, toU32_toI32_of_lt _ hw, word_b0 a b c d hd, word_b1 a b c d hc hd,
      word_b2 a b c d hb hc hd, word_b3 a b c d ha hb hc hd]
  · simp only [memcpy_from_int32, htonl, if_true]
    rw [bswap32_word a b c d ha hb hc hd, toU32_toI32_of_lt _ (word_lt d c b a hd hc hb ha),
      word_b0 d c b a ha, word_b1 d c b a hb ha, word_b2 d c b a hc hb ha,
      word_b3 d c b a hd hc hb ha]

/-- A host-order load followed by the host-order conversion reads four bytes
as big-endian digits, whatever the byte order of the host. -/
theorem load_ntohl_word (host_le : Bool) (a b c d : Nat) (ha : a < 256) (hb : b < 256)
    (hc : c < 256) (hd : d < 256) :
    toI32 (ntohl host_le (toU32 (memcpy_to_int32 host_le a b c d)))
      = toI32 (d + 256 * (c + 256 * (b + 256 * a))) := by
  have hw := word_lt a b c d ha hb hc hd
  cases host_le
  · simp only [memcpy_to_int32, ntohl, Bool.false_eq_true, if_false]
    have e : 16777216 * a + 65536 * b + 256 * c + d = d + 256 * (c + 256 * (b + 256 * a)) := by
      omega
    rw [e, toU32_toI32_of_lt _ hw, Nat.mod_eq_of_lt hw]
  · simp only [memcpy_to_int32, ntohl, if_true]
    have e : a + 256 * b + 65536 * c + 16777216 * d = a + 256 * (b + 256 * (c + 256 * d)) := by
      omega
    rw [e, toU32_toI32_of_lt _ (word_lt d c b a hd hc hb ha), bswap32_word d c b a hd hc hb ha]

/-- One field of the frame: the bytes written are the big-endian encoding. -/
theorem campo_bytes (host_le : Bool) (x : Int) :
    memcpy_from_int32 host_le (toI32 (htonl host_le (toU32 x))) = big_endian_32 x := by
  obtain ⟨a, b, c, d, ha, hb, hc, hd, hu⟩ := word_of_u32 (toU32 x) (toU32_lt x)
  have hu2 : twos_complement_32 x = d + 256 * (c + 256 * (b + 256 * a)) := hu
  simp only [big_endian_32]
  rw [hu, hu2, store_htonl_word host_le a b c d ha hb hc hd, word_b0 a b c d hd,
    word_b1 a b c d hc hd, word_b2 a b c d hb hc hd, word_b3 a b c d ha hb hc hd]

theorem empacotar_lance_eq (host_le : Bool) (m : MensagemLance) :
    empacotar_lance host_le m = big_endian_32 m.id_cliente ++ big_endian_32 m.valor_lance := by
  simp only [empacotar_lance, campo_bytes]

/-- Decoding the big-endian encoding of an `int32_t` value gives the value back. -/
theorem campo_roundtrip (host_le : Bool) (x : Int) (h : isInt32 x) (a b c d : Nat)
    (hx : big_endian_32 x = [a, b, c, d]) :
    toI32 (ntohl host_le (toU32 (memcpy_to_int32 host_le a b c d))) = x := by
  obtain ⟨a', b', c', d', ha, hb, hc, hd, hu⟩ := word_of_u32 (toU32 x) (toU32_lt x)
  have hu2 : twos_complement_32 x = d' + 256 * (c' + 256 * (b' + 256 * a')) := hu
  simp only [big_endian_32] at hx
  rw [hu2, word_b0 a' b' c' d' hd, word_b1 a' b' c' d' hc hd, word_b2 a' b' c' d' hb hc hd,
    word_b3 a' b' c' d' ha hb hc hd] at hx
  simp only [List.cons.injEq, and_true] at hx
  obtain ⟨rfl, rfl, rfl, rfl⟩ := hx
  rw [load_ntohl_word host_le _ _ _ _ ha hb hc hd, ← hu, toI32_toU32 x h]

theorem list_length_eight (buf : List Nat) (h : buf.length = 8) :
    ∃ b0 b1 b2 b3 b4 b5 b6 b7, buf = [b0, b1, b2, b3, b4, b5, b6, b7] := by
  match buf, h with
  | [b0, b1, b2, b3, b4, b5, b6, b7], _ => exact ⟨b0, b1, b2, b3, b4, b5, b6, b7, rfl⟩

theorem big_endian_32_value (x : Int) (h : isInt32 x) (a b c d : Nat)
    (hx : big_endian_32 x = [a, b, c, d]) :
    a < 256 ∧ b < 256 ∧ c < 256 ∧ d < 256 ∧
      (16777216 * (a : Int) + 65536 * b + 256 * c + d = if 0 ≤ x then x else x + 4294967296) := by
  obtain ⟨a2, b2, c2, d2, ha, hb, hc, hd, hu⟩ :=
    word_of_u32 (twos_complement_32 x) (toU32_lt x)
  simp only [big_endian_32] at hx
  rw [hu, word_b0 a2 b2 c2 d2 hd, word_b1 a2 b2 c2 d2 hc hd, word_b2 a2 b2 c2 d2 hb hc hd,
    word_b3 a2 b2 c2 d2 ha hb hc hd] at hx
  simp only [List.cons.injEq, and_true] at hx
  obtain ⟨rfl, rfl, rfl, rfl⟩ := hx
  refine ⟨ha, hb, hc, hd, ?_⟩
  unfold twos_complement_32 at hu
  unfold isInt32 at h
  split <;> omega

theorem desempacotar_empacotar (host_le : Bool) (id valor : Int) (hid : isInt32 id)
    (hv : isInt32 valor) :
    desempacotar_lance host_le (empacotar_lance host_le ⟨id, valor⟩) = ⟨id, valor⟩ := by
  rw [empacotar_lance_eq]
  have e1 : big_endian_32 id = [(big_endian_32 id).getD 0 0, (big_endian_32 id).getD 1 0,
      (big_endian_32 id).getD 2 0, (big_endian_32 id).getD 3 0] := rfl
  have e2 : big_endian_32 valor = [(big_endian_32 valor).getD 0 0,
      (big_endian_32 valor).getD 1 0, (big_endian_32 valor).getD 2 0,
      (big_endian_32 valor).getD 3 0] := rfl
  have r1 := campo_roundtrip host_le id hid _ _ _ _ e1
  have r2 := campo_roundtrip host_le valor hv _ _ _ _ e2
  simp only [desempacotar_lance]
  rw [MensagemLance.mk.injEq]
  exact ⟨r1, r2⟩

theorem empacotar_desempacotar (host_le : Bool) (buf : List Nat) (h : isQuadro buf) :
    empacotar_lance host_le (desempacotar_lance host_le buf) = buf := by
  obtain ⟨hlen, hb⟩ := h
  obtain ⟨b0, b1, b2, b3, b4, b5, b6, b7, rfl⟩ := list_length_eight buf hlen
  simp only [List.mem_cons, List.mem_singleton, forall_eq_or_imp, forall_eq, isByte,
    List.not_mem_nil, false_imp_iff, implies_true, and_true] at hb
  obtain ⟨h0, h1, h2, h3, h4, h5, h6, h7⟩ := hb
  simp only [empacotar_lance, desempacotar_lance, List.getD_cons_zero, List.getD_cons_succ]
  rw [load_ntohl_word host_le b0 b1 b2 b3 h0 h1 h2 h3,
    load_ntohl_word host_le b4 b5 b6 b7 h4 h5 h6 h7,
    toU32_toI32_of_lt _ (word_lt b0 b1 b2 b3 h0 h1 h2 h3),
    toU32_toI32_of_lt _ (word_lt b4 b5 b6 b7 h4 h5 h6 h7),
    store_htonl_word host_le b0 b1 b2 b3 h0 h1 h2 h3,
    store_htonl_word host_le b4 b5 b6 b7 h4 h5 h6 h7]
  rfl

/-! ## Auction state lemmas -/

theorem aplicar_lances_nil (s : EstadoLeilao) : aplicar_lances s [] = s := rfl

theorem aplicar_lances_cons (s : EstadoLeilao) (m : MensagemLance) (ms : List MensagemLance) :
    aplicar_lances s (m :: ms) = aplicar_lances (secao_critica s m).1 ms := rfl

theorem secao_critica_aceito (s : EstadoLeilao) (m : MensagemLance)
    (h : m.valor_lance > s.lance_atual) :
    secao_critica s m = (⟨m.valor_lance, m.id_cliente⟩, true) := by
  unfold secao_critica; rw [if_pos h]

theorem secao_critica_rejeitado (s : EstadoLeilao) (m : MensagemLance)
    (h : ¬ m.valor_lance > s.lance_atual) : secao_critica s m = (s, false) := by
  unfold secao_critica; rw [if_neg h]

theorem secao_critica_mono (s : EstadoLeilao) (m : MensagemLance) :
    s.lance_atual ≤ (secao_critica s m).1.lance_atual := by
  by_cases h : m.valor_lance > s.lance_atual
  · rw [secao_critica_aceito s m h]; exact le_of_lt h
  · rw [secao_critica_rejeitado s m h]

/-- Shape of a run: either no bid exceeded the starting amount and the state
is untouched, or the sequence splits around the first bid that carries the
largest amount, and the final state is that bid. -/
theorem aplicar_lances_forma (lances : List MensagemLance) (s : EstadoLeilao) :
    ((∀ m ∈ lances, m.valor_lance ≤ s.lance_atual) ∧ aplicar_lances s lances = s) ∨
    (∃ pre b pos, lances = pre ++ b :: pos ∧ s.lance_atual < b.valor_lance ∧
      (∀ m ∈ pre, m.valor_lance < b.valor_lance) ∧
      (∀ m ∈ pos, m.valor_lance ≤ b.valor_lance) ∧
      aplicar_lances s lances = ⟨b.valor_lance, b.id_cliente⟩) := by
  induction lances generalizing s with
  | nil => left; exact ⟨by simp, rfl⟩
  | cons x xs ih =>
    rw [aplicar_lances_cons]
    by_cases h : x.valor_lance > s.lance_atual
    · rw [secao_critica_aceito s x h]
      right
      rcases ih ⟨x.valor_lance, x.id_cliente⟩ with ⟨hall, hfin⟩ | ⟨pre, b, pos, hl, hlt, hpre, hpos, hfin⟩
      · exact ⟨[], x, xs, rfl, h, by simp, hall, hfin⟩
      · refine ⟨x :: pre, b, pos, by rw [hl]; rfl, lt_trans h hlt, ?_, hpos, hfin⟩
        intro m hm
        rcases List.mem_cons.mp hm with rfl | hm
        · exact hlt
        · exact hpre m hm
    · rw [secao_critica_rejeitado s x h]
      rcases ih s with ⟨hall, hfin⟩ | ⟨pre, b, pos, hl, hlt, hpre, hpos, hfin⟩
      · left
        refine ⟨?_, hfin⟩
        intro m hm
        rcases List.mem_cons.mp hm with rfl | hm
        · exact not_lt.mp h
        · exact hall m hm
      · right
        refine ⟨x :: pre, b, pos, by rw [hl]; rfl, hlt, ?_, hpos, hfin⟩
        intro m hm
        rcases List.mem_cons.mp hm with rfl | hm
        · exact lt_of_le_of_lt (not_lt.mp h) hlt
        · exact hpre m hm

theorem primeiro_com_valor_append (v : Int) (pre pos : List MensagemLance) (b : MensagemLance)
    (hb : b.valor_lance = v) (hpre : ∀ m ∈ pre, m.valor_lance < v) :
    primeiro_com_valor v (pre ++ b :: pos) = some b := by
  induction pre with
  | nil => simp [primeiro_com_valor, hb]
  | cons x xs ih =>
    have hx : x.valor_lance ≠ v := ne_of_lt (hpre x (List.mem_cons_self _ _))
    have := ih (fun m hm => hpre m (List.mem_cons_of_mem _ hm))
    simp only [primeiro_com_valor] at this ⊢
    simp [List.find?, hx, this]

theorem ultimo_aceito_aux (lances : List MensagemLance) (s : EstadoLeilao) :
    (aplicar_lances s lances).cliente_vencedor =
      match ultimo_aceito s lances with
      | some m => m.id_cliente
      | none => s.cliente_vencedor := by
  induction lances generalizing s with
  | nil => rfl
  | cons x xs ih =>
    rw [aplicar_lances_cons, ih]
    by_cases h : x.valor_lance > s.lance_atual
    · simp only [ultimo_aceito, historico, secao_critica_aceito s x h, List.filter_cons_of_pos]
      cases hf : (historico ⟨x.valor_lance, x.id_cliente⟩ xs).filter (fun p => p.2) with
      | nil => simp
      | cons y ys =>
        simp only [List.getLast?_cons_cons]
        rw [List.getLast?_eq_getLast _ (List.cons_ne_nil y ys)]
        rfl
    · simp only [ultimo_aceito, historico, secao_critica_rejeitado s x h]
      simp


theorem historico_get (pre : List MensagemLance) (m : MensagemLance) (pos : List MensagemLance)
    (s : EstadoLeilao) :
    (historico s (pre ++ m :: pos))[pre.length]? =
      some (m, decide (m.valor_lance > (aplicar_lances s pre).lance_atual)) := by
  induction pre generalizing s with
  | nil =>
    by_cases h : m.valor_lance > s.lance_atual
    · simp [historico, secao_critica_aceito s m h, aplicar_lances_nil, h]
    · simp [historico, secao_critica_rejeitado s m h, aplicar_lances_nil, h]
  | cons x xs ih =>
    simp only [List.cons_append, historico, List.length_cons, List.getElem?_cons_succ,
      aplicar_lances_cons]
    exact ih _

theorem thread_cliente_passo_mono (host_le : Bool) (s : EstadoLeilao) (f : Fase) (e : Evento) :
    s.lance_atual ≤ (thread_cliente_passo host_le s f e).1.lance_atual := by
  unfold thread_cliente_passo
  split
  · dsimp only
    split <;> exact le_refl _
  · dsimp only
    split
    · exact le_refl _
    · split
      · exact le_refl _
      · split
        · exact le_refl _
        · exact secao_critica_mono s _
  · exact le_refl _

theorem thread_cliente_execucao_mono (host_le : Bool) (es : List Evento) (s : EstadoLeilao)
    (f : Fase) : s.lance_atual ≤ (thread_cliente_execucao host_le s f es).1.lance_atual := by
  induction es generalizing s f with
  | nil => exact le_refl _
  | cons e es ih =>
    exact le_trans (thread_cliente_passo_mono host_le s f e) (ih _ _)

theorem c_str_of_not_mem (l : List Nat) (h : 0 ∉ l) : c_str l = l := by
  unfold c_str
  rw [List.takeWhile_eq_self_iff]
  intro x hx
  have : x ≠ 0 := fun e => h (e ▸ hx)
  simpa using this

theorem c_str_append_nul (pre pos : List Nat) (h : 0 ∉ pre) : c_str (pre ++ 0 :: pos) = pre := by
  induction pre with
  | nil => simp [c_str]
  | cons x xs ih =>
    have hx : x ≠ 0 := fun e => h (e ▸ List.mem_cons_self _ _)
    have hxs : 0 ∉ xs := fun hm => h (List.mem_cons_of_mem _ hm)
    have := ih hxs
    unfold c_str at this ⊢
    simp [List.takeWhile_cons, hx, this]

theorem strchr_append (c : Nat) (pre pos : List Nat) (h0 : 0 ∉ pre) (hc : c ∉ pre) :
    strchr (pre ++ c :: pos) c = some pre.length := by
  induction pre with
  | nil => simp [strchr]
  | cons x xs ih =>
    have hx0 : x ≠ 0 := fun e => h0 (e ▸ List.mem_cons_self _ _)
    have hxc : x ≠ c := fun e => hc (e ▸ List.mem_cons_self _ _)
    have := ih (fun hm => h0 (List.mem_cons_of_mem _ hm)) (fun hm => hc (List.mem_cons_of_mem _ hm))
    simp [strchr, hx0, hxc, this]

theorem set_append_length (pre pos : List Nat) (c v : Nat) :
    (pre ++ c :: pos).set pre.length v = pre ++ v :: pos := by
  induction pre with
  | nil => rfl
  | cons x xs ih => simp [List.set, ih]

/-- The identity parse at a line whose first separator has no NUL before it. -/
theorem thread_cliente_identidade_sep (pre pos : List Nat) (h0 : 0 ∉ pre) (hc : 124 ∉ pre) :
    thread_cliente_identidade (pre ++ 124 :: pos) = (pre.take 63, (c_str pos).take 63) := by
  unfold thread_cliente_identidade
  rw [strchr_append 124 pre pos h0 hc]
  simp only [set_append_length, strncpy_term, c_str_append_nul pre pos h0]
  have : (pre ++ 0 :: pos).drop (pre.length + 1) = pos := by
    rw [show pre ++ 0 :: pos = (pre ++ [0]) ++ pos by simp]
    rw [List.drop_left' (by simp)]
  rw [this]

theorem first_sep (c : Nat) (line : List Nat) (h : c ∈ line) :
    ∃ pre pos, line = pre ++ c :: pos ∧ c ∉ pre := by
  induction line with
  | nil => cases h
  | cons x xs ih =>
    by_cases hx : x = c
    · exact ⟨[], xs, by rw [hx]; rfl, by simp⟩
    · rcases List.mem_cons.mp h with e | hm
      · exact absurd e.symm hx
      · obtain ⟨pre, pos, hl, hp⟩ := ih hm
        refine ⟨x :: pre, pos, by rw [hl]; rfl, ?_⟩
        intro hm2
        rcases List.mem_cons.mp hm2 with e | hm3
        · exact hx e.symm
        · exact hp hm3

/-! ## The wire codec (claims C1 to C3) -/

/-- C1: for every bidder id and every amount in the `int32_t` range,
`empacotar_lance` writes 8 bytes and `desempacotar_lance` applied to them
returns exactly `(id, amount)`, on a host of either byte order. -/
theorem desempacotar_empacotar_lance (host_le : Bool) (id valor : Int)
    (hid : isInt32 id) (hv : isInt32 valor) :
    (empacotar_lance host_le ⟨id, valor⟩).length = 8 ∧
      desempacotar_lance host_le (empacotar_lance host_le ⟨id, valor⟩) = ⟨id, valor⟩ :=
  ⟨by rw [empacotar_lance_eq]; rfl, desempacotar_empacotar host_le id valor hid hv⟩

/-- Witness of C1 at the two ends of the `int32_t` range. -/
theorem desempacotar_empacotar_lance_witness :
    isInt32 (-2147483648) ∧ isInt32 2147483647 ∧
      (empacotar_lance true ⟨-2147483648, 2147483647⟩).length = 8 ∧
      desempacotar_lance true (empacotar_lance true ⟨-2147483648, 2147483647⟩)
        = ⟨-2147483648, 2147483647⟩ :=
  ⟨by decide, by decide,
    desempacotar_empacotar_lance true (-2147483648) 2147483647 (by decide) (by decide)⟩

/-- C2: the frame written by `empacotar_lance` for `(id, amount)` is exactly 8
bytes: bytes 0..3 are the big-endian two's-complement encoding of `id` and
bytes 4..7 that of `amount` (read most significant byte first, each group of
four bytes is the field itself when it is non-negative and the field plus
`2^32` when it is negative); `(1, 50)` encodes to `00 00 00 01 00 00 00 32`. -/
theorem empacotar_lance_big_endian (host_le : Bool) (id valor : Int)
    (hid : isInt32 id) (hv : isInt32 valor) :
    empacotar_lance host_le ⟨id, valor⟩ = big_endian_32 id ++ big_endian_32 valor ∧
    (∃ a0 a1 a2 a3 b0 b1 b2 b3 : Nat,
      empacotar_lance host_le ⟨id, valor⟩ = [a0, a1, a2, a3, b0, b1, b2, b3] ∧
      (a0 < 256 ∧ a1 < 256 ∧ a2 < 256 ∧ a3 < 256 ∧
        (16777216 * (a0 : Int) + 65536 * a1 + 256 * a2 + a3
          = if 0 ≤ id then id else id + 4294967296)) ∧
      (b0 < 256 ∧ b1 < 256 ∧ b2 < 256 ∧ b3 < 256 ∧
        (16777216 * (b0 : Int) + 65536 * b1 + 256 * b2 + b3
          = if 0 ≤ valor then valor else valor + 4294967296))) ∧
    empacotar_lance host_le ⟨1, 50⟩ = [0x00, 0x00, 0x00, 0x01, 0x00, 0x00, 0x00, 0x32] := by
  refine ⟨empacotar_lance_eq host_le _, ?_, ?_⟩
  · refine ⟨(big_endian_32 id).getD 0 0, (big_endian_32 id).getD 1 0,
      (big_endian_32 id).getD 2 0, (big_endian_32 id).getD 3 0,
      (big_endian_32 valor).getD 0 0, (big_endian_32 valor).getD 1 0,
      (big_endian_32 valor).getD 2 0, (big_endian_32 valor).getD 3 0, ?_, ?_, ?_⟩
    · rw [empacotar_lance_eq]; rfl
    · exact big_endian_32_value id hid _ _ _ _ rfl
    · exact big_endian_32_value valor hv _ _ _ _ rfl
  · cases host_le <;> decide

/-- Witness of C2 at a negative id and the largest amount. -/
theorem empacotar_lance_big_endian_witness :
    empacotar_lance true ⟨-2, 2147483647⟩ = [255, 255, 255, 254, 127, 255, 255, 255] :=
  (empacotar_lance_big_endian true (-2) 2147483647 (by decide) (by decide)).1.trans
    (by decide)

/-- C3: for every 8-byte buffer `buf`, `empacotar_lance (desempacotar_lance buf)`
reproduces `buf` byte for byte; the decoded fields are `int32_t` values (no
frame is rejected) and two different 8-byte buffers decode to different
`(id, amount)` pairs. -/
theorem empacotar_desempacotar_lance (host_le : Bool) (buf : List Nat) (h : isQuadro buf) :
    empacotar_lance host_le (desempacotar_lance host_le buf) = buf ∧
    isInt32 (desempacotar_lance host_le buf).id_cliente ∧
    isInt32 (desempacotar_lance host_le buf).valor_lance ∧
    ∀ buf2 : List Nat, isQuadro buf2 →
      desempacotar_lance host_le buf2 = desempacotar_lance host_le buf → buf2 = buf := by
  refine ⟨empacotar_desempacotar host_le buf h, isInt32_toI32 _, isInt32_toI32 _, ?_⟩
  intro buf2 h2 heq
  rw [← empacotar_desempacotar host_le buf2 h2, heq, empacotar_desempacotar host_le buf h]

/-- Witness of C3 at a frame whose two fields are negative. -/
theorem empacotar_desempacotar_lance_witness :
    isQuadro [255, 254, 3, 4, 128, 0, 7, 255] ∧
    empacotar_lance true (desempacotar_lance true [255, 254, 3, 4, 128, 0, 7, 255])
      = [255, 254, 3, 4, 128, 0, 7, 255] :=
  ⟨by decide, (empacotar_desempacotar_lance true [255, 254, 3, 4, 128, 0, 7, 255] (by decide)).1⟩

/-! ## The auction state (claims C4 to C9) -/

/-- C4: the update rule. For every state and every bid, the bid is accepted
if and only if its amount is greater than `lance_atual`; when accepted the new
state is exactly `(amount, id)`; when rejected the state is unchanged. A bid of
exactly `lance_atual + 1` (for `lance_atual` below `INT32_MAX`) is accepted and
a bid equal to `lance_atual` is rejected. -/
theorem secao_critica_regra (s : EstadoLeilao) (m : MensagemLance) :
    ((secao_critica s m).2 = true ↔ m.valor_lance > s.lance_atual) ∧
    ((secao_critica s m).2 = true →
      (secao_critica s m).1 = ⟨m.valor_lance, m.id_cliente⟩) ∧
    ((secao_critica s m).2 = false → (secao_critica s m).1 = s) ∧
    (s.lance_atual < 2147483647 →
      secao_critica s ⟨m.id_cliente, s.lance_atual + 1⟩
        = (⟨s.lance_atual + 1, m.id_cliente⟩, true)) ∧
    secao_critica s ⟨m.id_cliente, s.lance_atual⟩ = (s, false) := by
  refine ⟨?_, ?_, ?_, ?_, ?_⟩
  · by_cases h : m.valor_lance > s.lance_atual
    · simp [secao_critica_aceito s m h, h]
    · simp [secao_critica_rejeitado s m h, h]
  · by_cases h : m.valor_lance > s.lance_atual
    · simp [secao_critica_aceito s m h]
    · simp [secao_critica_rejeitado s m h]
  · by_cases h : m.valor_lance > s.lance_atual
    · simp [secao_critica_aceito s m h]
    · simp [secao_critica_rejeitado s m h]
  · intro _
    exact secao_critica_aceito s ⟨m.id_cliente, s.lance_atual + 1⟩ (by simp)
  · exact secao_critica_rejeitado s ⟨m.id_cliente, s.lance_atual⟩ (by simp)

/-- C5, as stated, fails: from the initial state the single bid `(1, -5)`
leaves `lance_atual` at `0`, while the maximum amount submitted is `-5`. -/
theorem aplicar_lances_maior_valor_counterexample :
    (aplicar_lances estado_inicial [⟨1, -5⟩]).lance_atual = 0 ∧
    eh_maior_valor (-5) [⟨1, -5⟩] ∧
    ¬ eh_maior_valor (aplicar_lances estado_inicial [⟨1, -5⟩]).lance_atual [⟨1, -5⟩] := by
  decide

/-- C5, amended: for every sequence of bids submitted from the initial state
that holds at least one bid with a non-negative amount, the final
`lance_atual` is the maximum amount submitted in the sequence. -/
theorem aplicar_lances_maior_valor (lances : List MensagemLance)
    (h : ∃ m ∈ lances, 0 ≤ m.valor_lance) :
    eh_maior_valor (aplicar_lances estado_inicial lances).lance_atual lances := by
  obtain ⟨m0, hm0, hpos⟩ := h
  rcases aplicar_lances_forma lances estado_inicial with
    ⟨hall, hfin⟩ | ⟨pre, b, pos, hl, _, hpre, hpos2, hfin⟩
  · rw [hfin]
    have h0 : m0.valor_lance = 0 := le_antisymm (hall m0 hm0) hpos
    exact ⟨⟨m0, hm0, h0⟩, hall⟩
  · rw [hfin]
    refine ⟨⟨b, by rw [hl]; simp, rfl⟩, ?_⟩
    intro m hm
    rw [hl] at hm
    rcases List.mem_append.mp hm with hm | hm
    · exact le_of_lt (hpre m hm)
    · rcases List.mem_cons.mp hm with rfl | hm
      · exact le_refl _
      · exact hpos2 m hm

/-- Witness of C5 (amended): three bids, the largest amount twice. -/
theorem aplicar_lances_maior_valor_witness :
    eh_maior_valor (aplicar_lances estado_inicial [⟨1, 100⟩, ⟨2, 150⟩, ⟨3, 150⟩]).lance_atual
      [⟨1, 100⟩, ⟨2, 150⟩, ⟨3, 150⟩] :=
  aplicar_lances_maior_valor [⟨1, 100⟩, ⟨2, 150⟩, ⟨3, 150⟩] ⟨⟨1, 100⟩, by decide, by decide⟩

/-- C6, as stated, fails: from the initial state the single bid `(7, 0)` is
the first bid that carries the maximum amount submitted (`0`), yet
`cliente_vencedor` stays `-1`. -/
theorem aplicar_lances_vencedor_counterexample :
    eh_maior_valor 0 [⟨7, 0⟩] ∧
    primeiro_com_valor 0 [⟨7, 0⟩] = some ⟨7, 0⟩ ∧
    (aplicar_lances estado_inicial [⟨7, 0⟩]).cliente_vencedor = -1 ∧
    (aplicar_lances estado_inicial [⟨7, 0⟩]).cliente_vencedor ≠ 7 := by
  decide

/-- C6, amended: for every sequence of bids submitted from the initial state
that holds at least one bid with a positive amount, the final
`cliente_vencedor` is the id of the first bid of the sequence whose amount is
the maximum amount submitted (a later bid of the same amount does not replace
it). -/
theorem aplicar_lances_vencedor (lances : List MensagemLance)
    (h : ∃ m ∈ lances, 0 < m.valor_lance) (v : Int) (hv : eh_maior_valor v lances) :
    ∃ b, primeiro_com_valor v lances = some b ∧
      (aplicar_lances estado_inicial lances).cliente_vencedor = b.id_cliente := by
  obtain ⟨m0, hm0, hpos⟩ := h
  rcases aplicar_lances_forma lances estado_inicial with
    ⟨hall, _⟩ | ⟨pre, b, pos, hl, _, hpre, hpos2, hfin⟩
  · exact absurd (hall m0 hm0) (not_le.mpr hpos)
  · obtain ⟨⟨mv, hmv, hmveq⟩, hub⟩ := hv
    have hbmem : b ∈ lances := by rw [hl]; simp
    have hle : mv.valor_lance ≤ b.valor_lance := by
      rw [hl] at hmv
      rcases List.mem_append.mp hmv with hm | hm
      · exact le_of_lt (hpre mv hm)
      · rcases List.mem_cons.mp hm with rfl | hm
        · exact le_refl _
        · exact hpos2 mv hm
    have hbv : b.valor_lance = v := le_antisymm (hub b hbmem) (hmveq ▸ hle)
    refine ⟨b, ?_, by rw [hfin]⟩
    rw [hl]
    exact primeiro_com_valor_append v pre pos b hbv (fun m hm => hbv ▸ hpre m hm)

/-- Witness of C6 (amended): the second and third bids tie at the maximum;
the winner is the second. -/
theorem aplicar_lances_vencedor_witness :
    ∃ b, primeiro_com_valor 150 [⟨1, 100⟩, ⟨2, 150⟩, ⟨3, 150⟩] = some b ∧
      (aplicar_lances estado_inicial [⟨1, 100⟩, ⟨2, 150⟩, ⟨3, 150⟩]).cliente_vencedor
        = b.id_cliente :=
  aplicar_lances_vencedor [⟨1, 100⟩, ⟨2, 150⟩, ⟨3, 150⟩] ⟨⟨1, 100⟩, by decide, by decide⟩
    150 (by decide)

/-- C7: `lance_atual` never decreases. For every state, every phase of a
handler and every event (the identity line; a `recv` that returns a complete
frame, accepted or rejected; a short read; end of stream; a `recv` error; a
failed `send`), its value after the step is at least its value before, and so
it is after any sequence of events. -/
theorem lance_atual_monotono (host_le : Bool) (s : EstadoLeilao) (f : Fase) :
    (∀ e : Evento, s.lance_atual ≤ (thread_cliente_passo host_le s f e).1.lance_atual) ∧
    (∀ es : List Evento, s.lance_atual ≤ (thread_cliente_execucao host_le s f es).1.lance_atual) :=
  ⟨fun e => thread_cliente_passo_mono host_le s f e,
    fun es => thread_cliente_execucao_mono host_le es s f⟩

/-- C8: ties never displace the incumbent. For every state and every bidder
id, a bid whose amount equals `lance_atual` is rejected and leaves
`lance_atual` and `cliente_vencedor` as they were; a handler that receives such
a frame keeps the state and answers with the rejection line. -/
theorem empate_rejeitado (s : EstadoLeilao) (id : Int) :
    secao_critica s ⟨id, s.lance_atual⟩ = (s, false) ∧
    ∀ (host_le : Bool) (nome cidade buf : List Nat) (send_ret : Int),
      (desempacotar_lance host_le buf).valor_lance = s.lance_atual →
      (thread_cliente_passo host_le s (.ACTIVE nome cidade) (.recv 8 buf send_ret)).1 = s ∧
      (thread_cliente_passo host_le s (.ACTIVE nome cidade) (.recv 8 buf send_ret)).2.2
        = ⟨some (.rejeitado s.lance_atual s.cliente_vencedor), none⟩ := by
  refine ⟨secao_critica_rejeitado s ⟨id, s.lance_atual⟩ (by simp), ?_⟩
  intro host_le nome cidade buf send_ret hv
  have hr : secao_critica s (desempacotar_lance host_le buf) = (s, false) :=
    secao_critica_rejeitado s _ (by rw [hv]; simp)
  simp [thread_cliente_passo, hr]

/-- C9: after every sequence of bids applied from the initial state,
`cliente_vencedor` is the id of the most recent accepted bid, and `-1` when no
bid was accepted; a bid counts as accepted exactly when its amount was greater
than `lance_atual` at the moment it was submitted. -/
theorem vencedor_ultimo_aceito (lances : List MensagemLance) :
    ((aplicar_lances estado_inicial lances).cliente_vencedor =
      match ultimo_aceito estado_inicial lances with
      | some m => m.id_cliente
      | none => -1) ∧
    ∀ (pre : List MensagemLance) (m : MensagemLance) (pos : List MensagemLance),
      lances = pre ++ m :: pos →
      (historico estado_inicial lances)[pre.length]? =
        some (m, decide (m.valor_lance > (aplicar_lances estado_inicial pre).lance_atual)) := by
  refine ⟨ultimo_aceito_aux lances estado_inicial, ?_⟩
  intro pre m pos hl
  rw [hl]
  exact historico_get pre m pos estado_inicial

/-! ## Lemmas on the identity reader and on the steps of a handler -/

theorem ler_linha_socket_loop_buf (tam : Nat) (fim : FimFluxo) (dados buf : List Nat) :
    (ler_linha_socket_loop tam fim dados buf).buf =
      buf ++ (dados.takeWhile (fun c => c != 10)).take (tam - 1 - buf.length) := by
  induction dados generalizing buf with
  | nil =>
    unfold ler_linha_socket_loop
    split
    · cases fim <;> simp
    · simp
  | cons c ds ih =>
    unfold ler_linha_socket_loop
    by_cases h : buf.length < tam - 1
    · rw [if_pos h]
      by_cases hc : c = 10
      · rw [if_pos hc]; simp [hc]
      · rw [if_neg hc, ih]
        have e : tam - 1 - buf.length = (tam - 1 - (buf ++ [c]).length) + 1 := by
          simp only [List.length_append, List.length_singleton]; omega
        rw [e]
        simp [List.takeWhile_cons, hc]
    · rw [if_neg h]
      have e : tam - 1 - buf.length = 0 := by omega
      simp [e]

theorem ler_linha_socket_buf (tam : Nat) (fluxo : Fluxo) :
    (ler_linha_socket tam fluxo).buf = (fluxo.dados.takeWhile (fun c => c != 10)).take (tam - 1) := by
  unfold ler_linha_socket
  rw [ler_linha_socket_loop_buf]
  simp

theorem ler_linha_socket_loop_ret (tam : Nat) (fim : FimFluxo) (dados buf : List Nat) :
    ((ler_linha_socket_loop tam fim dados buf).ret = 1 ∧
      (10 ∈ dados.take (tam - 1 - buf.length) ∨ tam - 1 - buf.length ≤ dados.length)) ∨
    ((ler_linha_socket_loop tam fim dados buf).ret = codigo_fim fim ∧
      ¬ (10 ∈ dados.take (tam - 1 - buf.length) ∨ tam - 1 - buf.length ≤ dados.length)) := by
  induction dados generalizing buf with
  | nil =>
    unfold ler_linha_socket_loop
    by_cases h : buf.length < tam - 1
    · rw [if_pos h]
      right
      refine ⟨by cases fim <;> rfl, ?_⟩
      simp; omega
    · rw [if_neg h]
      left
      exact ⟨rfl, Or.inr (by simp; omega)⟩
  | cons c ds ih =>
    unfold ler_linha_socket_loop
    by_cases h : buf.length < tam - 1
    · rw [if_pos h]
      have e : tam - 1 - buf.length = (tam - 1 - (buf ++ [c]).length) + 1 := by
        simp only [List.length_append, List.length_singleton]; omega
      by_cases hc : c = 10
      · rw [if_pos hc]
        left
        refine ⟨rfl, Or.inl ?_⟩
        rw [e, hc]; simp
      · rw [if_neg hc]
        have hc2 : ¬ (10 = c) := fun x => hc x.symm
        rcases ih (buf ++ [c]) with ⟨h1, h2⟩ | ⟨h1, h2⟩
        · left
          refine ⟨h1, ?_⟩
          rw [e]
          simp only [List.take_succ_cons, List.mem_cons, hc2, false_or, List.length_cons,
            Nat.add_le_add_iff_right]
          exact h2
        · right
          refine ⟨h1, ?_⟩
          rw [e]
          simp only [List.take_succ_cons, List.mem_cons, hc2, false_or, List.length_cons,
            Nat.add_le_add_iff_right]
          exact h2
    · rw [if_neg h]
      left
      exact ⟨rfl, Or.inr (by omega)⟩

theorem codigo_fim_le (fim : FimFluxo) : codigo_fim fim ≤ 0 := by
  cases fim <;> decide

theorem ler_linha_socket_ret (fluxo : Fluxo) :
    ((ler_linha_socket 128 fluxo).ret = 1 ∧
      (10 ∈ fluxo.dados.take 127 ∨ 127 ≤ fluxo.dados.length)) ∨
    ((ler_linha_socket 128 fluxo).ret = codigo_fim fluxo.fim ∧
      ¬ (10 ∈ fluxo.dados.take 127 ∨ 127 ≤ fluxo.dados.length)) := by
  have := ler_linha_socket_loop_ret 128 fluxo.fim fluxo.dados []
  simpa [ler_linha_socket] using this

theorem strchr_none (c : Nat) (l : List Nat) (h : c ∉ l) : strchr l c = none := by
  induction l with
  | nil => rfl
  | cons x xs ih =>
    have hx : x ≠ c := fun e => h (e ▸ List.mem_cons_self _ _)
    have := ih (fun hm => h (List.mem_cons_of_mem _ hm))
    simp [strchr, hx, this]

theorem thread_cliente_identidade_sem_sep (linha : List Nat) (hsep : 124 ∉ linha)
    (hnul : 0 ∉ linha) : thread_cliente_identidade linha = (linha.take 63, cidade_padrao) := by
  unfold thread_cliente_identidade
  rw [strchr_none 124 linha hsep]
  simp [strncpy_term, c_str_of_not_mem linha hnul]

theorem secao_critica_flag (s : EstadoLeilao) (m : MensagemLance) :
    (secao_critica s m).2 = decide (m.valor_lance > s.lance_atual) := by
  by_cases h : m.valor_lance > s.lance_atual
  · simp [secao_critica_aceito s m h, h]
  · simp [secao_critica_rejeitado s m h, h]

theorem thread_cliente_passo_quadro (host_le : Bool) (s : EstadoLeilao) (nome cidade : List Nat)
    (buf : List Nat) (send_ret : Int) :
    thread_cliente_passo host_le s (.ACTIVE nome cidade) (.recv 8 buf send_ret) =
      ((secao_critica s (desempacotar_lance host_le buf)).1,
        (if send_ret < 0 then Fase.CLOSED else Fase.ACTIVE nome cidade),
        (if (secao_critica s (desempacotar_lance host_le buf)).2 = true then
          (⟨some (.aceito (secao_critica s (desempacotar_lance host_le buf)).1.lance_atual
              (secao_critica s (desempacotar_lance host_le buf)).1.cliente_vencedor),
            some (desempacotar_lance host_le buf, nome, cidade)⟩ : Saida)
        else
          ⟨some (.rejeitado (secao_critica s (desempacotar_lance host_le buf)).1.lance_atual
              (secao_critica s (desempacotar_lance host_le buf)).1.cliente_vencedor), none⟩)) := by
  simp [thread_cliente_passo]

theorem thread_cliente_passo_curto (host_le : Bool) (s : EstadoLeilao) (nome cidade : List Nat)
    (lidos : Int) (buf : List Nat) (send_ret : Int) (h0 : 0 < lidos) (h8 : lidos ≠ 8) :
    thread_cliente_passo host_le s (.ACTIVE nome cidade) (.recv lidos buf send_ret) =
      (s, .ACTIVE nome cidade, ⟨none, none⟩) := by
  have h1 : lidos ≠ 0 := by omega
  have h2 : ¬ lidos < 0 := by omega
  simp [thread_cliente_passo, h1, h2, h8]

theorem thread_cliente_passo_fim (host_le : Bool) (s : EstadoLeilao) (nome cidade : List Nat)
    (lidos : Int) (buf : List Nat) (send_ret : Int) (h0 : lidos ≤ 0) :
    thread_cliente_passo host_le s (.ACTIVE nome cidade) (.recv lidos buf send_ret) =
      (s, .CLOSED, ⟨none, none⟩) := by
  by_cases h1 : lidos = 0
  · simp [thread_cliente_passo, h1]
  · have h2 : lidos < 0 := by omega
    simp [thread_cliente_passo, h1, h2]

theorem thread_cliente_passo_closed (host_le : Bool) (s : EstadoLeilao) (e : Evento) :
    thread_cliente_passo host_le s .CLOSED e = (s, .CLOSED, ⟨none, none⟩) := by
  cases e <;> rfl

theorem thread_cliente_passo_multicast (host_le : Bool) (s : EstadoLeilao) (f : Fase)
    (e : Evento) :
    (if (thread_cliente_passo host_le s f e).2.2.multicast.isSome = true then 1 else 0) =
      (match f, e with
        | .ACTIVE _ _, .recv lidos buf _ =>
          if lidos = 8 ∧ (secao_critica s (desempacotar_lance host_le buf)).2 = true then 1 else 0
        | _, _ => 0) := by
  cases f with
  | AWAIT_IDENTITY =>
    cases e with
    | identidade fluxo =>
      simp only [thread_cliente_passo]
      split <;> rfl
    | recv lidos buf send_ret => rfl
  | CLOSED => cases e <;> rfl
  | ACTIVE nome cidade =>
    cases e with
    | identidade fluxo => rfl
    | recv lidos buf send_ret =>
      by_cases h8 : lidos = 8
      · subst h8
        rw [thread_cliente_passo_quadro]
        by_cases hf : (secao_critica s (desempacotar_lance host_le buf)).2 = true
        · simp [hf]
        · simp [hf]
      · by_cases h0 : 0 < lidos
        · rw [thread_cliente_passo_curto host_le s nome cidade lidos buf send_ret h0 h8]
          simp [h8]
        · rw [thread_cliente_passo_fim host_le s nome cidade lidos buf send_ret (by omega)]
          simp [h8]

theorem multicasts_cons (o : Saida) (os : List Saida) :
    multicasts (o :: os) = (if o.multicast.isSome = true then 1 else 0) + multicasts os := by
  unfold multicasts
  by_cases h : o.multicast.isSome = true
  · simp [List.filter_cons, h]; omega
  · simp [List.filter_cons, h]

theorem multicasts_eq_aprovados (host_le : Bool) (es : List Evento) (s : EstadoLeilao) (f : Fase) :
    multicasts (thread_cliente_saidas host_le s f es) = lances_aprovados host_le s f es := by
  induction es generalizing s f with
  | nil => rfl
  | cons e es ih =>
    have e1 : lances_aprovados host_le s f (e :: es) =
        (match f, e with
          | .ACTIVE _ _, .recv lidos buf _ =>
            if lidos = 8 ∧ (secao_critica s (desempacotar_lance host_le buf)).2 = true then 1
            else 0
          | _, _ => 0)
        + lances_aprovados host_le (thread_cliente_passo host_le s f e).1
            (thread_cliente_passo host_le s f e).2.1 es := rfl
    have e2 : thread_cliente_saidas host_le s f (e :: es) =
        (thread_cliente_passo host_le s f e).2.2 ::
          thread_cliente_saidas host_le (thread_cliente_passo host_le s f e).1
            (thread_cliente_passo host_le s f e).2.1 es := rfl
    rw [e1, e2, multicasts_cons, ih, thread_cliente_passo_multicast]


theorem thread_cliente_execucao_closed (host_le : Bool) (es : List Evento) (s : EstadoLeilao) :
    thread_cliente_execucao host_le s .CLOSED es = (s, .CLOSED) := by
  induction es with
  | nil => rfl
  | cons e es ih =>
    rw [thread_cliente_execucao, thread_cliente_passo_closed]
    exact ih

theorem thread_cliente_saidas_closed (host_le : Bool) (es : List Evento) (s : EstadoLeilao) :
    ∀ o ∈ thread_cliente_saidas host_le s .CLOSED es, o = ⟨none, none⟩ := by
  induction es with
  | nil => intro o ho; cases ho
  | cons e es ih =>
    intro o ho
    rw [thread_cliente_saidas, thread_cliente_passo_closed] at ho
    rcases List.mem_cons.mp ho with h | h
    · exact h
    · exact ih o h

theorem thread_cliente_passo_identidade (host_le : Bool) (s : EstadoLeilao) (fluxo : Fluxo) :
    thread_cliente_passo host_le s .AWAIT_IDENTITY (.identidade fluxo) =
      if (ler_linha_socket 128 fluxo).ret ≤ 0 then (s, .CLOSED, ⟨none, none⟩)
      else (s, .ACTIVE (thread_cliente_identidade (ler_linha_socket 128 fluxo).buf).1
        (thread_cliente_identidade (ler_linha_socket 128 fluxo).buf).2, ⟨none, none⟩) := rfl

/-! ## The identity line (claim C10) -/

theorem ler_linha_socket_linha (linha resto : List Nat) (fim : FimFluxo) (hnl : 10 ∉ linha) :
    (ler_linha_socket 128 ⟨linha ++ 10 :: resto, fim⟩).buf = linha.take 127 ∧
    (ler_linha_socket 128 ⟨linha ++ 10 :: resto, fim⟩).ret = 1 := by
  have htw : (linha ++ 10 :: resto).takeWhile (fun c => c != 10) = linha := by
    have h1 : ∀ x ∈ linha, (fun c => c != 10) x = true := by
      intro x hx
      have : x ≠ 10 := fun e => hnl (e ▸ hx)
      simpa using this
    rw [List.takeWhile_append_of_pos h1]
    simp
  constructor
  · rw [ler_linha_socket_buf]
    simp only [htw]
  · rcases ler_linha_socket_ret ⟨linha ++ 10 :: resto, fim⟩ with ⟨h1, _⟩ | ⟨_, h2⟩
    · exact h1
    · exfalso
      apply h2
      by_cases hl : linha.length < 127
      · left
        simp only [List.take_append_eq_append_take]
        apply List.mem_append_right
        have : 127 - linha.length = (126 - linha.length) + 1 := by omega
        rw [this]
        simp
      · right
        simp only [List.length_append, List.length_cons]
        omega

/-- The identity the handler keeps for a line whose first separator is among
its first 127 bytes: the city is taken from the first 127 bytes of the line. -/
theorem thread_cliente_passo_linha_sep (host_le : Bool) (s : EstadoLeilao)
    (pre pos resto : List Nat) (fim : FimFluxo) (hpre : 124 ∉ pre)
    (hnul : 0 ∉ pre ++ 124 :: pos) (hnl : 10 ∉ pre ++ 124 :: pos) (hlen : pre.length ≤ 126) :
    thread_cliente_passo host_le s .AWAIT_IDENTITY
        (.identidade ⟨(pre ++ 124 :: pos) ++ 10 :: resto, fim⟩)
      = (s, .ACTIVE (pre.take 63) ((pos.take (126 - pre.length)).take 63), ⟨none, none⟩) := by
  obtain ⟨hbuf, hret⟩ := ler_linha_socket_linha (pre ++ 124 :: pos) resto fim hnl
  have h0pre : 0 ∉ pre := fun hm => hnul (by simp [hm])
  have h0pos : 0 ∉ pos := fun hm => hnul (by simp [hm])
  have htake : (pre ++ 124 :: pos).take 127 = pre ++ 124 :: pos.take (126 - pre.length) := by
    rw [List.take_append_eq_append_take, List.take_of_length_le (by omega)]
    have : 127 - pre.length = (126 - pre.length) + 1 := by omega
    rw [this, List.take_succ_cons]
  have h0pos2 : 0 ∉ pos.take (126 - pre.length) := fun hm => h0pos (List.mem_of_mem_take hm)
  rw [thread_cliente_passo_identidade, hbuf, hret, htake,
    thread_cliente_identidade_sep pre _ h0pre hpre, c_str_of_not_mem _ h0pos2]
  rfl

set_option maxRecDepth 20000 in
theorem identidade_linha_longa :
    thread_cliente_passo true estado_inicial .AWAIT_IDENTITY
        (.identidade ⟨List.replicate 100 65 ++ 124 :: List.replicate 50 66 ++ [10], .fechado⟩)
      = (estado_inicial, .ACTIVE (List.replicate 63 65) (List.replicate 26 66),
          ⟨none, none⟩) := by
  decide

/-- C10, as stated, fails in two ways. The received line `a\0|b` contains a
separator, yet `strchr` stops at the NUL byte: no split happens, the name is
`a` and the city is the default. And the line of 100 letters `A`, a separator
and 50 letters `B` (no NUL byte) is read into the 128-byte buffer only up to
its byte 127: the city the handler keeps has 26 bytes, not the 50 bytes after
the separator. -/
theorem thread_cliente_identidade_counterexample :
    (124 ∈ [97, 0, 124, 98]) ∧
    thread_cliente_passo true estado_inicial .AWAIT_IDENTITY
        (.identidade ⟨[97, 0, 124, 98, 10], .fechado⟩)
      = (estado_inicial, .ACTIVE [97] cidade_padrao, ⟨none, none⟩) ∧
    ([97], cidade_padrao) ≠ (([97, 0] : List Nat).take 63, ([98] : List Nat).take 63) ∧
    thread_cliente_passo true estado_inicial .AWAIT_IDENTITY
        (.identidade ⟨List.replicate 100 65 ++ 124 :: List.replicate 50 66 ++ [10], .fechado⟩)
      = (estado_inicial, .ACTIVE (List.replicate 63 65) (List.replicate 26 66),
          ⟨none, none⟩) ∧
    List.replicate 26 66 ≠ (List.replicate 50 66).take 63 :=
  ⟨by decide, by decide, by decide, identidade_linha_longa, by decide⟩

/-- C10, amended: for every received identity line (the bytes before the first
newline of the stream) that contains at least one separator and no NUL byte,
and that is at most 127 bytes long or has its first separator among its first
64 bytes, the handler enters the bid loop with the name equal to the bytes
before the first separator and the city equal to all the bytes after it (later
separators included), each cut to at most 63 bytes; `Ana|Recife` gives `Ana`
and `Recife`, and `a|b|c` gives `a` and `b|c`. -/
theorem thread_cliente_identidade_primeiro_sep (linha pre pos : List Nat)
    (hl : linha = pre ++ 124 :: pos) (hpre : 124 ∉ pre) (hnul : 0 ∉ linha) (hnl : 10 ∉ linha)
    (hlen : linha.length ≤ 127 ∨ pre.length ≤ 63) :
    (∀ (host_le : Bool) (s : EstadoLeilao) (resto : List Nat) (fim : FimFluxo),
      thread_cliente_passo host_le s .AWAIT_IDENTITY (.identidade ⟨linha ++ 10 :: resto, fim⟩)
        = (s, .ACTIVE (pre.take 63) (pos.take 63), ⟨none, none⟩)) ∧
    (pre.take 63).length ≤ 63 ∧ (pos.take 63).length ≤ 63 ∧
    thread_cliente_passo true estado_inicial .AWAIT_IDENTITY
        (.identidade ⟨bytes "Ana|Recife" ++ [10], .fechado⟩)
      = (estado_inicial, .ACTIVE (bytes "Ana") (bytes "Recife"), ⟨none, none⟩) ∧
    thread_cliente_passo true estado_inicial .AWAIT_IDENTITY
        (.identidade ⟨bytes "a|b|c" ++ [10], .fechado⟩)
      = (estado_inicial, .ACTIVE (bytes "a") (bytes "b|c"), ⟨none, none⟩) := by
  subst hl
  have hlen_tot : (pre ++ 124 :: pos).length = pre.length + pos.length + 1 := by
    simp only [List.length_append, List.length_cons]; omega
  refine ⟨?_, ?_, ?_, by decide, by decide⟩
  · intro host_le s resto fim
    rw [thread_cliente_passo_linha_sep host_le s pre pos resto fim hpre hnul hnl (by omega),
      List.take_take]
    have hmin : (pos.take (min 63 (126 - pre.length))) = pos.take 63 := by
      by_cases h63 : 63 ≤ 126 - pre.length
      · rw [Nat.min_eq_left h63]
      · have hp : pos.length ≤ 126 - pre.length := by omega
        rw [Nat.min_eq_right (by omega), List.take_of_length_le hp,
          List.take_of_length_le (by omega)]
    rw [hmin]
  · rw [List.length_take]; omega
  · rw [List.length_take]; omega

/-- Witness of C10 (amended): a line with two separators, followed by a
newline and the first bid frame. -/
theorem thread_cliente_identidade_primeiro_sep_witness :
    thread_cliente_passo false ⟨50, 1⟩ .AWAIT_IDENTITY
        (.identidade ⟨bytes "a|b|c" ++ 10 :: [0, 0, 0, 1, 0, 0, 0, 60], .erro⟩)
      = (⟨50, 1⟩, .ACTIVE ((bytes "a").take 63) ((bytes "b|c").take 63), ⟨none, none⟩) :=
  (thread_cliente_identidade_primeiro_sep (bytes "a|b|c") (bytes "a") (bytes "b|c")
    (by decide) (by decide) (by decide) (by decide) (Or.inl (by decide))).1
      false ⟨50, 1⟩ [0, 0, 0, 1, 0, 0, 0, 60] .erro

/-! ## The identity line without separator (claim C11) -/

/-- C11, as stated, fails: the received line `a\0b` contains no separator,
yet the name is `a`, not the whole line, because the copy stops at the NUL
byte. -/
theorem identidade_sem_separador_counterexample :
    (124 ∉ [97, 0, 98]) ∧
    thread_cliente_identidade [97, 0, 98] = ([97], cidade_padrao) ∧
    thread_cliente_identidade [97, 0, 98] ≠ ([97, 0, 98].take 63, cidade_padrao) := by
  decide

/-- C11, amended: for every received identity line that contains no separator
and no NUL byte (the empty line included), the connection is not failed (the
handler enters the bid loop), the name is the whole line cut to at most 63
bytes and the city is the default `Nao informada`. -/
theorem identidade_sem_separador (linha : List Nat) (hsep : 124 ∉ linha) (hnul : 0 ∉ linha) :
    thread_cliente_identidade linha = (linha.take 63, cidade_padrao) ∧
    cidade_padrao = bytes "Nao informada" ∧
    thread_cliente_identidade [] = ([], cidade_padrao) ∧
    ∀ (host_le : Bool) (s : EstadoLeilao) (resto : List Nat) (fim : FimFluxo), 10 ∉ linha →
      thread_cliente_passo host_le s .AWAIT_IDENTITY (.identidade ⟨linha ++ 10 :: resto, fim⟩)
        = (s, .ACTIVE (linha.take 63) cidade_padrao, ⟨none, none⟩) := by
  refine ⟨thread_cliente_identidade_sem_sep linha hsep hnul, by decide, by decide, ?_⟩
  intro host_le s resto fim hnl
  have htw : (linha ++ 10 :: resto).takeWhile (fun c => c != 10) = linha := by
    have h1 : ∀ x ∈ linha, (fun c => c != 10) x = true := by
      intro x hx
      have : x ≠ 10 := fun e => hnl (e ▸ hx)
      simpa using this
    rw [List.takeWhile_append_of_pos h1]
    simp
  have hbuf : (ler_linha_socket 128 ⟨linha ++ 10 :: resto, fim⟩).buf = linha.take 127 := by
    rw [ler_linha_socket_buf]
    simp only [htw]
  have hret : (ler_linha_socket 128 ⟨linha ++ 10 :: resto, fim⟩).ret = 1 := by
    rcases ler_linha_socket_ret ⟨linha ++ 10 :: resto, fim⟩ with ⟨h1, _⟩ | ⟨_, h2⟩
    · exact h1
    · exfalso
      apply h2
      by_cases hl : linha.length < 127
      · left
        simp only [List.take_append_eq_append_take]
        apply List.mem_append_right
        have : 127 - linha.length = (126 - linha.length) + 1 := by omega
        rw [this]
        simp
      · right
        simp only [List.length_append, List.length_cons]
        omega
  rw [thread_cliente_passo_identidade, hbuf, hret]
  have hs2 : 124 ∉ linha.take 127 := fun h => hsep (List.mem_of_mem_take h)
  have hn2 : 0 ∉ linha.take 127 := fun h => hnul (List.mem_of_mem_take h)
  rw [thread_cliente_identidade_sem_sep _ hs2 hn2]
  simp [List.take_take]

/-- Witness of C11 (amended): the line `Ana` without separator. -/
theorem identidade_sem_separador_witness :
    thread_cliente_identidade (bytes "Ana") = ((bytes "Ana").take 63, cidade_padrao) :=
  (identidade_sem_separador (bytes "Ana") (by decide) (by decide)).1

/-! ## Notifications and malformed frames (claims C12, C16) -/

/-- C12: a notification is published if and only if the bid was accepted. For
every complete 8-byte frame, `enviar_multicast_novo_lance` is called once (with
the decoded bid and the identity of the handler) when `lance_aprovado` is set
and not at all otherwise; a read of another length publishes nothing; and over
any sequence of events the number of calls equals the number of accepted
bids. -/
theorem multicast_sse_aceito (host_le : Bool) (s : EstadoLeilao) (nome cidade : List Nat) :
    (∀ (buf : List Nat) (send_ret : Int),
      (thread_cliente_passo host_le s (.ACTIVE nome cidade) (.recv 8 buf send_ret)).2.2.multicast
        = if (secao_critica s (desempacotar_lance host_le buf)).2 = true then
            some (desempacotar_lance host_le buf, nome, cidade)
          else none) ∧
    (∀ (lidos : Int) (buf : List Nat) (send_ret : Int), lidos ≠ 8 →
      (thread_cliente_passo host_le s (.ACTIVE nome cidade) (.recv lidos buf send_ret)).2.2
        = ⟨none, none⟩) ∧
    (∀ (f : Fase) (es : List Evento),
      multicasts (thread_cliente_saidas host_le s f es) = lances_aprovados host_le s f es) := by
  refine ⟨?_, ?_, fun f es => multicasts_eq_aprovados host_le es s f⟩
  · intro buf send_ret
    rw [thread_cliente_passo_quadro]
    by_cases hf : (secao_critica s (desempacotar_lance host_le buf)).2 = true
    · simp [hf]
    · simp [hf]
  · intro lidos buf send_ret h8
    by_cases h0 : 0 < lidos
    · rw [thread_cliente_passo_curto host_le s nome cidade lidos buf send_ret h0 h8]
    · rw [thread_cliente_passo_fim host_le s nome cidade lidos buf send_ret (by omega)]

/-- C16: malformed bid frames are tolerated. When a read in the bid loop
returns `n` bytes with `0 < n < 8`, the handler stays in the bid loop, sends no
response, publishes no notification and leaves the auction state unchanged;
the bytes are discarded: the rest of the run is the one that would follow
without that read. -/
theorem quadro_curto_tolerado (host_le : Bool) (s : EstadoLeilao) (nome cidade : List Nat)
    (lidos : Int) (buf : List Nat) (send_ret : Int) (h0 : 0 < lidos) (h8 : lidos < 8) :
    thread_cliente_passo host_le s (.ACTIVE nome cidade) (.recv lidos buf send_ret)
      = (s, .ACTIVE nome cidade, ⟨none, none⟩) ∧
    (∀ es : List Evento,
      thread_cliente_execucao host_le s (.ACTIVE nome cidade) (.recv lidos buf send_ret :: es)
        = thread_cliente_execucao host_le s (.ACTIVE nome cidade) es ∧
      thread_cliente_saidas host_le s (.ACTIVE nome cidade) (.recv lidos buf send_ret :: es)
        = ⟨none, none⟩ :: thread_cliente_saidas host_le s (.ACTIVE nome cidade) es) := by
  have hp := thread_cliente_passo_curto host_le s nome cidade lidos buf send_ret h0 (by omega)
  refine ⟨hp, fun es => ⟨?_, ?_⟩⟩
  · rw [thread_cliente_execucao, hp]
  · rw [thread_cliente_saidas, hp]

/-- Witness of C16: a read of 3 bytes before a complete frame. -/
theorem quadro_curto_tolerado_witness :
    thread_cliente_passo true estado_inicial (.ACTIVE (bytes "Ana") (bytes "Recife"))
      (.recv 3 [0, 0, 0, 0, 0, 0, 0, 0] 0)
      = (estado_inicial, .ACTIVE (bytes "Ana") (bytes "Recife"), ⟨none, none⟩) :=
  (quadro_curto_tolerado true estado_inicial (bytes "Ana") (bytes "Recife") 3
    [0, 0, 0, 0, 0, 0, 0, 0] 0 (by decide) (by decide)).1


/-! ## Order independence, disconnection, identity outcome (claims C15, C17, C18) -/

/-- C15: order independence for distinct amounts. For every auction state and
every two bids with different amounts, applying them in either order yields
the same final state; from the initial state, bids of 100 and 150 give
`lance_atual = 150` and the bidder of 150 as winner in both orders. -/
theorem ordem_independente (s : EstadoLeilao) (m1 m2 : MensagemLance)
    (h : m1.valor_lance ≠ m2.valor_lance) :
    aplicar_lances s [m1, m2] = aplicar_lances s [m2, m1] ∧
    aplicar_lances estado_inicial [⟨1, 100⟩, ⟨2, 150⟩] = ⟨150, 2⟩ ∧
    aplicar_lances estado_inicial [⟨2, 150⟩, ⟨1, 100⟩] = ⟨150, 2⟩ := by
  refine ⟨?_, by decide, by decide⟩
  simp only [aplicar_lances, List.foldl_cons, List.foldl_nil, secao_critica]
  by_cases h1 : m1.valor_lance > s.lance_atual <;>
  by_cases h2 : m2.valor_lance > s.lance_atual <;>
  by_cases h3 : m2.valor_lance > m1.valor_lance <;>
  by_cases h4 : m1.valor_lance > m2.valor_lance <;>
  simp [h1, h2, h3, h4] <;> omega

/-- Witness of C15: two bids with amounts 100 and 150 on a state that already
holds 120. -/
theorem ordem_independente_witness :
    aplicar_lances ⟨120, 9⟩ [⟨1, 100⟩, ⟨2, 150⟩] = aplicar_lances ⟨120, 9⟩ [⟨2, 150⟩, ⟨1, 100⟩] :=
  (ordem_independente ⟨120, 9⟩ ⟨1, 100⟩ ⟨2, 150⟩ (by decide)).1


theorem sistema_passo_encerrado (host_le : Bool) (σ : Sistema) (i : Nat) (e : Evento)
    (epipe : Bool) (h : σ.em_execucao = false) : sistema_passo host_le σ i e epipe = σ := by
  unfold sistema_passo
  rw [if_pos h]

theorem sistema_passo_sigpipe (host_le : Bool) (σ : Sistema) (i : Nat) (f : Fase) (e : Evento)
    (epipe : Bool) (hv : σ.em_execucao = true) (hi : σ.threads[i]? = some f)
    (hs : send_sigpipe f e epipe = true) :
    sistema_passo host_le σ i e epipe
      = ⟨(thread_cliente_passo host_le σ.estado f e).1, σ.threads, false⟩ := by
  unfold sistema_passo
  rw [if_neg (by rw [hv]; decide), hi]
  simp only [hs, if_true]

theorem sistema_passo_normal (host_le : Bool) (σ : Sistema) (i : Nat) (f : Fase) (e : Evento)
    (epipe : Bool) (hv : σ.em_execucao = true) (hi : σ.threads[i]? = some f)
    (hs : send_sigpipe f e epipe = false) :
    sistema_passo host_le σ i e epipe
      = ⟨(thread_cliente_passo host_le σ.estado f e).1,
          σ.threads.set i (thread_cliente_passo host_le σ.estado f e).2.1, true⟩ := by
  unfold sistema_passo
  rw [if_neg (by rw [hv]; decide), hi]
  simp only [hs, Bool.false_eq_true, if_false]

theorem fechamento_estado (host_le : Bool) (s : EstadoLeilao) (f : Fase) (e : Evento)
    (hf : f ≠ .CLOSED) (hc : (thread_cliente_passo host_le s f e).2.1 = .CLOSED) :
    (thread_cliente_passo host_le s f e).1 = s ∨
      ∃ (nome cidade buf : List Nat) (send_ret : Int),
        f = .ACTIVE nome cidade ∧ e = .recv 8 buf send_ret ∧ send_ret < 0 ∧
        (thread_cliente_passo host_le s f e).1
          = (secao_critica s (desempacotar_lance host_le buf)).1 ∧
        (thread_cliente_passo host_le s f e).1
          = (thread_cliente_passo host_le s f (.recv 8 buf 0)).1 := by
  cases f with
  | CLOSED => exact absurd rfl hf
  | AWAIT_IDENTITY =>
    left
    cases e with
    | identidade fluxo =>
      rw [thread_cliente_passo_identidade]
      split <;> rfl
    | recv lidos buf send_ret => rfl
  | ACTIVE nome cidade =>
    cases e with
    | identidade fluxo => left; rfl
    | recv lidos buf send_ret =>
      by_cases h8 : lidos = 8
      · subst h8
        right
        rw [thread_cliente_passo_quadro] at hc
        have hs : send_ret < 0 := by
          by_contra hn
          simp [hn] at hc
        refine ⟨nome, cidade, buf, send_ret, rfl, rfl, hs, ?_, ?_⟩
        · rw [thread_cliente_passo_quadro]
        · rw [thread_cliente_passo_quadro, thread_cliente_passo_quadro]
      · left
        by_cases h0 : 0 < lidos
        · rw [thread_cliente_passo_curto host_le s nome cidade lidos buf send_ret h0 h8]
        · rw [thread_cliente_passo_fim host_le s nome cidade lidos buf send_ret (by omega)]

/-- C17 fails on the code for a failed `send`: the call passes the flags `0`
and the server leaves `SIGPIPE` at its default action, so a `send` that fails
with `EPIPE` ends the whole process. Two handlers are in the bid loop; handler
0 processes the frames `(1, 100)` and `(1, 200)`, and the response to the
second cannot be sent because the client has closed its socket: the process
ends, handler 1 is gone with it, and its bid `(2, 500)` is never processed.
Had the same `send` failed without the signal, only handler 0 would close and
the bid of handler 1 would give `(500, 2)`. In general a step that raises
`SIGPIPE` ends the process, which then takes no step for any handler. For
every other step the claim holds: the process goes on, the other handlers keep
their phase, a zero-length read or a read error closes the handler with the
auction state unchanged, and a step into `CLOSED` leaves the state as it was
or as the bid just processed made it. -/
theorem sigpipe_encerra_processo :
    sistema_execucao true
        ⟨estado_inicial, [.ACTIVE (bytes "Ana") (bytes "Recife"),
          .ACTIVE (bytes "Bia") (bytes "Natal")], true⟩
        [(0, .recv 8 [0, 0, 0, 1, 0, 0, 0, 100] 48, false),
          (0, .recv 8 [0, 0, 0, 1, 0, 0, 0, 200] (-1), true),
          (1, .recv 8 [0, 0, 0, 2, 0, 0, 1, 244] 48, false)]
      = ⟨⟨200, 1⟩, [.ACTIVE (bytes "Ana") (bytes "Recife"),
          .ACTIVE (bytes "Bia") (bytes "Natal")], false⟩ ∧
    sistema_execucao true
        ⟨estado_inicial, [.ACTIVE (bytes "Ana") (bytes "Recife"),
          .ACTIVE (bytes "Bia") (bytes "Natal")], true⟩
        [(0, .recv 8 [0, 0, 0, 1, 0, 0, 0, 100] 48, false),
          (0, .recv 8 [0, 0, 0, 1, 0, 0, 0, 200] (-1), false),
          (1, .recv 8 [0, 0, 0, 2, 0, 0, 1, 244] 48, false)]
      = ⟨⟨500, 2⟩, [.CLOSED, .ACTIVE (bytes "Bia") (bytes "Natal")], true⟩ ∧
    (∀ (host_le : Bool) (σ : Sistema) (i : Nat) (f : Fase) (e : Evento) (epipe : Bool),
      σ.em_execucao = true → σ.threads[i]? = some f → send_sigpipe f e epipe = true →
      (sistema_passo host_le σ i e epipe).em_execucao = false ∧
      ∀ (ps : List (Nat × Evento × Bool)),
        sistema_execucao host_le (sistema_passo host_le σ i e epipe) ps
          = sistema_passo host_le σ i e epipe) ∧
    (∀ (host_le : Bool) (σ : Sistema) (i : Nat) (f : Fase) (e : Evento) (epipe : Bool),
      σ.em_execucao = true → σ.threads[i]? = some f → send_sigpipe f e epipe = false →
      (sistema_passo host_le σ i e epipe).em_execucao = true ∧
      (∀ j : Nat, j ≠ i → (sistema_passo host_le σ i e epipe).threads[j]? = σ.threads[j]?) ∧
      (sistema_passo host_le σ i e epipe).threads[i]?
        = some (thread_cliente_passo host_le σ.estado f e).2.1 ∧
      (f ≠ .CLOSED → (thread_cliente_passo host_le σ.estado f e).2.1 = .CLOSED →
        ((sistema_passo host_le σ i e epipe).estado = σ.estado ∨
          ∃ (nome cidade buf : List Nat) (send_ret : Int),
            f = .ACTIVE nome cidade ∧ e = .recv 8 buf send_ret ∧ send_ret < 0 ∧
            (sistema_passo host_le σ i e epipe).estado
              = (secao_critica σ.estado (desempacotar_lance host_le buf)).1))) ∧
    (∀ (host_le : Bool) (σ : Sistema) (i : Nat) (nome cidade buf : List Nat)
        (lidos send_ret : Int) (epipe : Bool),
      σ.em_execucao = true → σ.threads[i]? = some (.ACTIVE nome cidade) → lidos ≤ 0 →
      sistema_passo host_le σ i (.recv lidos buf send_ret) epipe
        = ⟨σ.estado, σ.threads.set i .CLOSED, true⟩) ∧
    (∀ (host_le : Bool) (s2 : EstadoLeilao) (es : List Evento),
      thread_cliente_execucao host_le s2 .CLOSED es = (s2, .CLOSED)) := by
  refine ⟨by decide, by decide, ?_, ?_, ?_,
    fun host_le s2 es => thread_cliente_execucao_closed host_le es s2⟩
  · intro host_le σ i f e epipe hv hi hs
    rw [sistema_passo_sigpipe host_le σ i f e epipe hv hi hs]
    refine ⟨rfl, ?_⟩
    intro ps
    induction ps with
    | nil => rfl
    | cons p ps ih =>
      rw [sistema_execucao, sistema_passo_encerrado _ _ _ _ _ rfl]
      exact ih
  · intro host_le σ i f e epipe hv hi hs
    rw [sistema_passo_normal host_le σ i f e epipe hv hi hs]
    have hlt : i < σ.threads.length := by
      rcases Nat.lt_or_ge i σ.threads.length with h | h
      · exact h
      · rw [List.getElem?_eq_none h] at hi
        cases hi
    refine ⟨rfl, ?_, ?_, ?_⟩
    · intro j hij
      simp only
      rw [List.getElem?_set_ne (fun h => hij h.symm)]
    · simp only
      rw [List.getElem?_set_self hlt]
    · intro hf hc
      rcases fechamento_estado host_le σ.estado f e hf hc with h | h
      · exact Or.inl h
      · obtain ⟨nome, cidade, buf, send_ret, h1, h2, h3, h4, _⟩ := h
        exact Or.inr ⟨nome, cidade, buf, send_ret, h1, h2, h3, h4⟩
  · intro host_le σ i nome cidade buf lidos send_ret epipe hv hi hl
    have hs : send_sigpipe (.ACTIVE nome cidade) (.recv lidos buf send_ret) epipe = false := by
      have h8 : lidos ≠ 8 := by omega
      simp [send_sigpipe, h8]
    rw [sistema_passo_normal host_le σ i _ _ epipe hv hi hs,
      thread_cliente_passo_fim host_le σ.estado nome cidade lidos buf send_ret hl]

/-- C18: the outcome of the identity phase. The handler moves from
`AWAIT_IDENTITY` to the bid loop if and only if `ler_linha_socket` returns `1`,
that is, a newline is among the first 127 bytes of the stream or 127 bytes
arrive before the stream ends; otherwise the return is `0` (closed) or `-1`
(error), also after some identity bytes, and the handler goes to `CLOSED` with
the auction state unchanged, nothing sent, and no further socket call but the
`close`. -/
theorem identidade_desfecho (host_le : Bool) (s : EstadoLeilao) (fluxo : Fluxo) :
    ((∃ nome cidade, (thread_cliente_passo host_le s .AWAIT_IDENTITY (.identidade fluxo)).2.1
        = .ACTIVE nome cidade) ↔ (ler_linha_socket 128 fluxo).ret = 1) ∧
    ((ler_linha_socket 128 fluxo).ret = 1 ↔
      (10 ∈ fluxo.dados.take 127 ∨ 127 ≤ fluxo.dados.length)) ∧
    ((ler_linha_socket 128 fluxo).ret ≠ 1 →
      (ler_linha_socket 128 fluxo).ret = codigo_fim fluxo.fim ∧
      thread_cliente_passo host_le s .AWAIT_IDENTITY (.identidade fluxo)
        = (s, .CLOSED, ⟨none, none⟩) ∧
      (∀ es : List Evento, thread_cliente_execucao host_le s .AWAIT_IDENTITY
          (.identidade fluxo :: es) = (s, .CLOSED)) ∧
      (∀ es : List Evento, ∀ o ∈ thread_cliente_saidas host_le s .AWAIT_IDENTITY
          (.identidade fluxo :: es), o = ⟨none, none⟩) ∧
      (∀ (s2 : EstadoLeilao) (e : Evento), thread_cliente_acoes host_le s2 .CLOSED e = [])) := by
  have hcases := ler_linha_socket_ret fluxo
  have hcod := codigo_fim_le fluxo.fim
  refine ⟨?_, ?_, ?_⟩
  · rw [thread_cliente_passo_identidade]
    constructor
    · rintro ⟨nome, cidade, h⟩
      rcases hcases with ⟨h1, _⟩ | ⟨h1, _⟩
      · exact h1
      · rw [if_pos (by rw [h1]; exact hcod)] at h
        cases h
    · intro h1
      rw [if_neg (by rw [h1]; decide)]
      exact ⟨_, _, rfl⟩
  · constructor
    · intro h1
      rcases hcases with ⟨_, h2⟩ | ⟨h3, _⟩
      · exact h2
      · rw [h3] at h1
        rw [h1] at hcod
        exact absurd hcod (by decide)
    · intro h2
      rcases hcases with ⟨h1, _⟩ | ⟨_, h3⟩
      · exact h1
      · exact absurd h2 h3
  · intro hne
    have h3 : (ler_linha_socket 128 fluxo).ret = codigo_fim fluxo.fim := by
      rcases hcases with ⟨h1, _⟩ | ⟨h3, _⟩
      · exact absurd h1 hne
      · exact h3
    have hp : thread_cliente_passo host_le s .AWAIT_IDENTITY (.identidade fluxo)
        = (s, .CLOSED, ⟨none, none⟩) := by
      rw [thread_cliente_passo_identidade, if_pos (by rw [h3]; exact hcod)]
    refine ⟨h3, hp, ?_, ?_, ?_⟩
    · intro es
      rw [thread_cliente_execucao, hp]
      exact thread_cliente_execucao_closed host_le es s
    · intro es o ho
      rw [thread_cliente_saidas, hp] at ho
      rcases List.mem_cons.mp ho with h | h
      · exact h
      · exact thread_cliente_saidas_closed host_le es s o h
    · intro s2 e
      cases e <;> rfl


/-! ## Lemmas on the formatted texts -/

theorem digitos_aux_length (fuel : Nat) : ∀ (n k : Nat), 1 ≤ k → n < 10 ^ k →
    (digitos_aux fuel n).length ≤ k := by
  induction fuel with
  | zero => intro n k _ _; simp [digitos_aux]
  | succ fuel ih =>
    intro n k hk hn
    unfold digitos_aux
    by_cases h : n < 10
    · rw [if_pos h]; simpa using hk
    · rw [if_neg h]
      have hk2 : 2 ≤ k := by
        by_contra hlt
        have : k = 1 := by omega
        subst this
        simp at hn
        omega
      obtain ⟨j, rfl⟩ : ∃ j, k = j + 1 := ⟨k - 1, by omega⟩
      have hdiv : n / 10 < 10 ^ j := by
        rw [Nat.div_lt_iff_lt_mul (by decide)]
        rw [pow_succ] at hn
        exact hn
      have := ih (n / 10) j (by omega) hdiv
      simp only [List.length_append, List.length_singleton]
      omega

theorem digitos_aux_mem (fuel : Nat) : ∀ (n d : Nat), d ∈ digitos_aux fuel n →
    48 ≤ d ∧ d ≤ 57 := by
  induction fuel with
  | zero => intro n d h; simp [digitos_aux] at h
  | succ fuel ih =>
    intro n d h
    unfold digitos_aux at h
    by_cases hn : n < 10
    · rw [if_pos hn] at h
      simp at h
      omega
    · rw [if_neg hn] at h
      rcases List.mem_append.mp h with h | h
      · exact ih _ _ h
      · simp at h
        omega

/-- The digits printed for a number are its decimal digits: read back in base
ten they give the number. -/
theorem digitos_aux_valor (fuel : Nat) : ∀ n : Nat, n < fuel →
    (digitos_aux fuel n).foldl (fun a d => 10 * a + (d - 48)) 0 = n := by
  induction fuel with
  | zero => intro n h; omega
  | succ fuel ih =>
    intro n h
    unfold digitos_aux
    by_cases hn : n < 10
    · rw [if_pos hn]; simp
    · rw [if_neg hn, List.foldl_append, ih (n / 10) (by omega)]
      simp only [List.foldl_cons, List.foldl_nil]
      omega

theorem fmt_d_length (x : Int) (h : isInt32 x) : (fmt_d x).length ≤ 11 := by
  unfold isInt32 at h
  have hn : x.natAbs < 10 ^ 10 := by omega
  have := digitos_aux_length (x.natAbs + 1) x.natAbs 10 (by decide) hn
  unfold fmt_d fmt_u
  split
  · simp only [List.length_cons]; omega
  · omega

theorem fmt_d_mem (x : Int) (d : Nat) (h : d ∈ fmt_d x) : d = 45 ∨ (48 ≤ d ∧ d ≤ 57) := by
  unfold fmt_d fmt_u at h
  split at h
  · rcases List.mem_cons.mp h with h | h
    · exact Or.inl h
    · exact Or.inr (digitos_aux_mem _ _ _ h)
  · exact Or.inr (digitos_aux_mem _ _ _ h)

theorem fmt_d_not_mem (x : Int) (d : Nat) (h45 : d ≠ 45) (hd : d < 48) : d ∉ fmt_d x := by
  intro h
  rcases fmt_d_mem x d h with h | h
  · exact h45 h
  · omega

theorem snprintf_eq (tam : Nat) (texto : List Nat) (hlen : texto.length ≤ tam - 1)
    (hnul : 0 ∉ texto) : snprintf tam texto = texto := by
  unfold snprintf
  rw [List.take_of_length_le hlen, c_str_of_not_mem texto hnul]

theorem c_str_not_mem_nul (l : List Nat) : 0 ∉ c_str l := by
  intro h
  have := List.mem_takeWhile_imp h
  simp at this

theorem c_str_mem (l : List Nat) (x : Nat) (h : x ∈ c_str l) : x ∈ l :=
  (List.takeWhile_sublist _).subset h

theorem strncpy_term_props (src : List Nat) :
    (strncpy_term src 64).length ≤ 63 ∧ 0 ∉ strncpy_term src 64 ∧
      ∀ x, x ∈ strncpy_term src 64 → x ∈ src := by
  unfold strncpy_term
  refine ⟨List.length_take_le _ _, ?_, ?_⟩
  · intro h
    exact c_str_not_mem_nul src (List.mem_of_mem_take h)
  · intro x h
    exact c_str_mem src x (List.mem_of_mem_take h)

/-- The name and the city the identity parse produces: C strings of at most
63 bytes, made of bytes of the line (or the default city). -/
theorem thread_cliente_identidade_props (intro : List Nat) :
    (thread_cliente_identidade intro).1.length ≤ 63 ∧
    (thread_cliente_identidade intro).2.length ≤ 63 ∧
    0 ∉ (thread_cliente_identidade intro).1 ∧
    0 ∉ (thread_cliente_identidade intro).2 ∧
    (10 ∉ intro → 10 ∉ (thread_cliente_identidade intro).1 ∧
      10 ∉ (thread_cliente_identidade intro).2) := by
  unfold thread_cliente_identidade
  cases hs : strchr intro 124 with
  | none =>
    dsimp only
    obtain ⟨h1, h2, h3⟩ := strncpy_term_props intro
    refine ⟨h1, by decide, h2, by decide, fun h10 => ⟨fun h => h10 (h3 10 h), by decide⟩⟩
  | some sep =>
    dsimp only
    obtain ⟨h1, h2, h3⟩ := strncpy_term_props (intro.set sep 0)
    obtain ⟨g1, g2, g3⟩ := strncpy_term_props ((intro.set sep 0).drop (sep + 1))
    refine ⟨h1, g1, h2, g2, fun h10 => ⟨fun h => ?_, fun h => ?_⟩⟩
    · rcases List.mem_or_eq_of_mem_set (h3 10 h) with h | h
      · exact h10 h
      · exact absurd h (by decide)
    · rcases List.mem_or_eq_of_mem_set (List.mem_of_mem_drop (g3 10 h)) with h | h
      · exact h10 h
      · exact absurd h (by decide)


theorem resposta_texto_ok (pre : List Nat) (a b : Int) (ha : isInt32 a) (hb : isInt32 b)
    (hlen : pre.length ≤ 37) (hnul : 0 ∉ pre) (hnl : 10 ∉ pre) :
    snprintf 256 (pre ++ fmt_d a ++ bytes " (cliente " ++ fmt_d b ++ bytes ")\n")
      = pre ++ fmt_d a ++ bytes " (cliente " ++ fmt_d b ++ bytes ")\n" ∧
    (pre ++ fmt_d a ++ bytes " (cliente " ++ fmt_d b ++ bytes ")\n").length ≤ 71 ∧
    List.count 10 (pre ++ fmt_d a ++ bytes " (cliente " ++ fmt_d b ++ bytes ")\n") = 1 := by
  have la := fmt_d_length a ha
  have lb := fmt_d_length b hb
  have l1 : (bytes " (cliente ").length = 10 := by decide
  have l2 : (bytes ")\n").length = 2 := by decide
  have hlen2 : (pre ++ fmt_d a ++ bytes " (cliente " ++ fmt_d b ++ bytes ")\n").length ≤ 71 := by
    simp only [List.length_append, l1, l2]; omega
  refine ⟨snprintf_eq _ _ (by omega) ?_, hlen2, ?_⟩
  · simp only [List.mem_append, not_or]
    exact ⟨⟨⟨⟨hnul, fmt_d_not_mem a 0 (by decide) (by decide)⟩, by decide⟩,
      fmt_d_not_mem b 0 (by decide) (by decide)⟩, by decide⟩
  · simp only [List.count_append]
    rw [List.count_eq_zero.2 hnl, List.count_eq_zero.2 (fmt_d_not_mem a 10 (by decide) (by decide)),
      List.count_eq_zero.2 (fmt_d_not_mem b 10 (by decide) (by decide))]
    decide

/-! ## The response and the notification texts (claims C13, C14) -/

/-- C13: with a single handler running, every complete 8-byte frame that
decodes to `(id, amount)` in state `(h, w)` produces exactly one response, a
single line that the 256-byte buffer does not truncate: the accepted line with
`amount` and `id` when `amount > h`, otherwise the rejected line with `h` and
`w`. After the identity `Ana|Recife`, the bid `(1, 50)` at highest `0` gives
the accepted line with 50 and winner 1, and a following bid of 50 by another
client gives the rejected line with 50 and winner 1. -/
theorem resposta_linha (host_le : Bool) (s : EstadoLeilao) (hs1 : isInt32 s.lance_atual)
    (hs2 : isInt32 s.cliente_vencedor) (nome cidade buf : List Nat) (send_ret : Int) :
    (∃ r : Resposta,
      (thread_cliente_passo host_le s (.ACTIVE nome cidade) (.recv 8 buf send_ret)).2.2.resposta
        = some r ∧
      resposta_texto r =
        (if (desempacotar_lance host_le buf).valor_lance > s.lance_atual then
          bytes "Lance aceito. Novo lance atual = "
            ++ fmt_d (desempacotar_lance host_le buf).valor_lance ++ bytes " (cliente "
            ++ fmt_d (desempacotar_lance host_le buf).id_cliente ++ bytes ")\n"
        else
          bytes "Lance rejeitado. Lance atual ainda = " ++ fmt_d s.lance_atual
            ++ bytes " (cliente " ++ fmt_d s.cliente_vencedor ++ bytes ")\n") ∧
      (resposta_texto r).length ≤ 71 ∧
      List.count 10 (resposta_texto r) = 1) ∧
    (thread_cliente_saidas true estado_inicial .AWAIT_IDENTITY
        [.identidade ⟨bytes "Ana|Recife\n", .fechado⟩,
          .recv 8 (empacotar_lance true ⟨1, 50⟩) 48]).map
        (fun o => o.resposta.map resposta_texto)
      = [none, some (bytes "Lance aceito. Novo lance atual = 50 (cliente 1)\n")] ∧
    (thread_cliente_saidas true ⟨50, 1⟩ .AWAIT_IDENTITY
        [.identidade ⟨bytes "Bia|Olinda\n", .fechado⟩,
          .recv 8 (empacotar_lance true ⟨2, 50⟩) 52]).map
        (fun o => o.resposta.map resposta_texto)
      = [none, some (bytes "Lance rejeitado. Lance atual ainda = 50 (cliente 1)\n")] := by
  refine ⟨?_, by decide, by decide⟩
  rw [thread_cliente_passo_quadro]
  have hv : isInt32 (desempacotar_lance host_le buf).valor_lance := isInt32_toI32 _
  have hi : isInt32 (desempacotar_lance host_le buf).id_cliente := isInt32_toI32 _
  by_cases h : (desempacotar_lance host_le buf).valor_lance > s.lance_atual
  · rw [secao_critica_aceito s _ h, if_pos h]
    obtain ⟨e1, e2, e3⟩ := resposta_texto_ok (bytes "Lance aceito. Novo lance atual = ")
      _ _ hv hi (by decide) (by decide) (by decide)
    refine ⟨_, rfl, ?_, ?_, ?_⟩
    · exact e1
    · exact le_of_eq_of_le (congrArg List.length e1) e2
    · exact (congrArg (List.count 10) e1).trans e3
  · rw [secao_critica_rejeitado s _ h, if_neg h]
    obtain ⟨e1, e2, e3⟩ := resposta_texto_ok (bytes "Lance rejeitado. Lance atual ainda = ")
      _ _ hs1 hs2 (by decide) (by decide) (by decide)
    refine ⟨_, rfl, ?_, ?_, ?_⟩
    · exact e1
    · exact le_of_eq_of_le (congrArg List.length e1) e2
    · exact (congrArg (List.count 10) e1).trans e3

/-- Witness of C13: the frame `(1, 50)` on the initial state. -/
theorem resposta_linha_witness :
    ∃ r : Resposta,
      (thread_cliente_passo true estado_inicial (.ACTIVE (bytes "Ana") (bytes "Recife"))
        (.recv 8 [0, 0, 0, 1, 0, 0, 0, 50] 48)).2.2.resposta = some r ∧
      resposta_texto r = bytes "Lance aceito. Novo lance atual = 50 (cliente 1)\n" := by
  obtain ⟨r, h1, h2, _, _⟩ := (resposta_linha true estado_inicial (by decide) (by decide)
    (bytes "Ana") (bytes "Recife") [0, 0, 0, 1, 0, 0, 0, 50] 48).1
  exact ⟨r, h1, h2.trans (by decide)⟩


/-- C14: the notification for an accepted bid `(id, amount)` of a client
identified as `(name, city)` is the text
`NOVO_LANCE ClienteID=<id> Nome=<name> Cidade=<city> Valor=<amount>`, handed to
one `sendto`; for every `int32_t` id and amount and every name and city the
identity parse produces, it has at most 190 bytes, so the 256-byte buffer does
not truncate it, and it is a single line when the identity line has no
newline. -/
theorem multicast_texto (id valor : Int) (hid : isInt32 id) (hv : isInt32 valor)
    (intro : List Nat) :
    enviar_multicast_novo_lance ⟨id, valor⟩ (thread_cliente_identidade intro).1
        (thread_cliente_identidade intro).2
      = bytes "NOVO_LANCE ClienteID=" ++ fmt_d id ++ bytes " Nome="
          ++ (thread_cliente_identidade intro).1 ++ bytes " Cidade="
          ++ (thread_cliente_identidade intro).2 ++ bytes " Valor=" ++ fmt_d valor ∧
    (enviar_multicast_novo_lance ⟨id, valor⟩ (thread_cliente_identidade intro).1
        (thread_cliente_identidade intro).2).length ≤ 190 ∧
    (10 ∉ intro →
      10 ∉ enviar_multicast_novo_lance ⟨id, valor⟩ (thread_cliente_identidade intro).1
        (thread_cliente_identidade intro).2) ∧
    enviar_multicast_novo_lance ⟨1, 50⟩ (thread_cliente_identidade (bytes "Ana|Recife")).1
        (thread_cliente_identidade (bytes "Ana|Recife")).2
      = bytes "NOVO_LANCE ClienteID=1 Nome=Ana Cidade=Recife Valor=50" := by
  obtain ⟨n1, n2, n3, n4, n5⟩ := thread_cliente_identidade_props intro
  have la := fmt_d_length id hid
  have lb := fmt_d_length valor hv
  have l1 : (bytes "NOVO_LANCE ClienteID=").length = 21 := by decide
  have l2 : (bytes " Nome=").length = 6 := by decide
  have l3 : (bytes " Cidade=").length = 8 := by decide
  have l4 : (bytes " Valor=").length = 7 := by decide
  have hlen : (bytes "NOVO_LANCE ClienteID=" ++ fmt_d id ++ bytes " Nome="
      ++ (thread_cliente_identidade intro).1 ++ bytes " Cidade="
      ++ (thread_cliente_identidade intro).2 ++ bytes " Valor=" ++ fmt_d valor).length ≤ 190 := by
    simp only [List.length_append, l1, l2, l3, l4]; omega
  have hnul : 0 ∉ (bytes "NOVO_LANCE ClienteID=" ++ fmt_d id ++ bytes " Nome="
      ++ (thread_cliente_identidade intro).1 ++ bytes " Cidade="
      ++ (thread_cliente_identidade intro).2 ++ bytes " Valor=" ++ fmt_d valor) := by
    simp only [List.mem_append, not_or]
    exact ⟨⟨⟨⟨⟨⟨⟨by decide, fmt_d_not_mem id 0 (by decide) (by decide)⟩, by decide⟩, n3⟩,
      by decide⟩, n4⟩, by decide⟩, fmt_d_not_mem valor 0 (by decide) (by decide)⟩
  have heq : enviar_multicast_novo_lance ⟨id, valor⟩ (thread_cliente_identidade intro).1
        (thread_cliente_identidade intro).2
      = bytes "NOVO_LANCE ClienteID=" ++ fmt_d id ++ bytes " Nome="
          ++ (thread_cliente_identidade intro).1 ++ bytes " Cidade="
          ++ (thread_cliente_identidade intro).2 ++ bytes " Valor=" ++ fmt_d valor := by
    unfold enviar_multicast_novo_lance fmt_s
    rw [c_str_of_not_mem _ n3, c_str_of_not_mem _ n4]
    exact snprintf_eq _ _ (le_trans hlen (by decide)) hnul
  refine ⟨heq, by rw [heq]; exact hlen, ?_, by decide⟩
  intro h10
  rw [heq]
  simp only [List.mem_append, not_or]
  exact ⟨⟨⟨⟨⟨⟨⟨by decide, fmt_d_not_mem id 10 (by decide) (by decide)⟩, by decide⟩, (n5 h10).1⟩,
    by decide⟩, (n5 h10).2⟩, by decide⟩, fmt_d_not_mem valor 10 (by decide) (by decide)⟩

/-- Witness of C14: the most negative id and amount, and a line of 127 bytes
without newline, give a text of at most 190 bytes. -/
theorem multicast_texto_witness :
    (enviar_multicast_novo_lance ⟨-2147483648, -2147483648⟩
        (thread_cliente_identidade (List.replicate 63 65 ++ 124 :: List.replicate 63 66)).1
        (thread_cliente_identidade (List.replicate 63 65 ++ 124 :: List.replicate 63 66)).2).length
      ≤ 190 :=
  (multicast_texto (-2147483648) (-2147483648) (by decide) (by decide)
    (List.replicate 63 65 ++ 124 :: List.replicate 63 66)).2.1

/-! ## The client (claim C19) -/

/-- C19 fails on the code of `client_leilao.c`: on a platform with a 64-bit
`long`, the typed line `4294967295` is parsed by `strtol` as a non-negative
`long`, passes the test `valor < 0`, and the cast to `int` makes it `-1`: the
frame sent carries the amount `-1`. Typing `-1` itself ends the loop with no
frame sent, and the loop of `client_leilao_bk.c`, which tests the `int` it
sends, never sends a negative amount. -/
theorem cliente_envia_sentinela :
    cliente_iteracao true 64 7 (bytes "4294967295\n")
      = .enviar [0, 0, 0, 7, 255, 255, 255, 255] ∧
    (desempacotar_lance true [0, 0, 0, 7, 255, 255, 255, 255]).valor_lance = -1 ∧
    cliente_iteracao true 64 7 (bytes "-1\n") = .sair ∧
    (∀ (host_le : Bool) (id v : Int) (quadro : List Nat), isInt32 id → isInt32 v →
      cliente_bk_iteracao host_le id (some v) = .enviar quadro →
      0 ≤ v ∧ desempacotar_lance host_le quadro = ⟨id, v⟩) := by
  refine ⟨by decide, by decide, by decide, ?_⟩
  intro host_le id v quadro hid hv h
  unfold cliente_bk_iteracao at h
  by_cases hneg : v < 0
  · simp [hneg] at h
  · simp only [hneg, if_false, AcaoCliente.enviar.injEq] at h
    refine ⟨by omega, ?_⟩
    rw [← h]
    exact desempacotar_empacotar host_le id v hid hv


/-! ## The lock discipline (claim C20) -/

theorem sem_rede_sob_lock_append (as bs : List Acao) (preso : Bool) :
    sem_rede_sob_lock preso (as ++ bs) =
      (sem_rede_sob_lock preso as && sem_rede_sob_lock (lock_preso preso as) bs) := by
  induction as generalizing preso with
  | nil => simp [sem_rede_sob_lock, lock_preso]
  | cons a as ih =>
    cases a <;> simp [sem_rede_sob_lock, lock_preso, ih, Bool.and_assoc]

theorem lock_preso_append (as bs : List Acao) (preso : Bool) :
    lock_preso preso (as ++ bs) = lock_preso (lock_preso preso as) bs := by
  induction as generalizing preso with
  | nil => rfl
  | cons a as ih =>
    cases a <;> simp [lock_preso, ih]

theorem ler_linha_socket_acoes_ok (tam : Nat) (dados : List Nat) (pos : Nat) :
    sem_rede_sob_lock false (ler_linha_socket_acoes tam dados pos) = true ∧
    lock_preso false (ler_linha_socket_acoes tam dados pos) = false := by
  induction dados generalizing pos with
  | nil =>
    unfold ler_linha_socket_acoes
    split <;> exact ⟨rfl, rfl⟩
  | cons c ds ih =>
    unfold ler_linha_socket_acoes
    split
    · split
      · exact ⟨rfl, rfl⟩
      · have := ih (pos + 1)
        simpa [sem_rede_sob_lock, lock_preso, Acao.rede] using this
    · exact ⟨rfl, rfl⟩

theorem thread_cliente_acoes_ok (host_le : Bool) (s : EstadoLeilao) (f : Fase) (e : Evento) :
    sem_rede_sob_lock false (thread_cliente_acoes host_le s f e) = true ∧
    lock_preso false (thread_cliente_acoes host_le s f e) = false := by
  cases f with
  | CLOSED => cases e <;> exact ⟨rfl, rfl⟩
  | AWAIT_IDENTITY =>
    cases e with
    | recv lidos buf send_ret => exact ⟨rfl, rfl⟩
    | identidade fluxo =>
      obtain ⟨h1, h2⟩ := ler_linha_socket_acoes_ok 128 fluxo.dados 0
      simp only [thread_cliente_acoes, sem_rede_sob_lock_append, lock_preso_append, h1, h2]
      split <;> exact ⟨rfl, rfl⟩
  | ACTIVE nome cidade =>
    cases e with
    | identidade fluxo => exact ⟨rfl, rfl⟩
    | recv lidos buf send_ret =>
      simp only [thread_cliente_acoes]
      split
      · exact ⟨rfl, rfl⟩
      · split
        · exact ⟨rfl, rfl⟩
        · split
          · exact ⟨rfl, rfl⟩
          · cases (secao_critica s (desempacotar_lance host_le buf)).2 <;>
              by_cases hs : send_ret < 0 <;> simp [hs, sem_rede_sob_lock, lock_preso, Acao.rede]

theorem thread_cliente_acoes_execucao_ok (host_le : Bool) (es : List Evento) (s : EstadoLeilao)
    (f : Fase) :
    sem_rede_sob_lock false (thread_cliente_acoes_execucao host_le s f es) = true ∧
    lock_preso false (thread_cliente_acoes_execucao host_le s f es) = false := by
  induction es generalizing s f with
  | nil => exact ⟨rfl, rfl⟩
  | cons e es ih =>
    obtain ⟨h1, h2⟩ := thread_cliente_acoes_ok host_le s f e
    obtain ⟨h3, h4⟩ := ih (thread_cliente_passo host_le s f e).1
      (thread_cliente_passo host_le s f e).2.1
    rw [thread_cliente_acoes_execucao, sem_rede_sob_lock_append, lock_preso_append, h1, h2, h3, h4]
    exact ⟨rfl, rfl⟩

/-- C20: the auction lock is never held across network I/O. In every step of
a handler, and over every sequence of steps, no `recv`, `send` or `sendto`
happens between `pthread_mutex_lock` and `pthread_mutex_unlock`, and the lock
is free at the end of the step; for a complete frame the calls are `recv`,
lock, unlock, then the multicast `sendto` (for an accepted bid) and the `send`
of the response. The same holds for the bid loop of `server_leilao_bk.c`. -/
theorem lock_sem_rede (host_le : Bool) (s : EstadoLeilao) (f : Fase) :
    (∀ e : Evento,
      sem_rede_sob_lock false (thread_cliente_acoes host_le s f e) = true ∧
      lock_preso false (thread_cliente_acoes host_le s f e) = false) ∧
    (∀ es : List Evento,
      sem_rede_sob_lock false (thread_cliente_acoes_execucao host_le s f es) = true ∧
      lock_preso false (thread_cliente_acoes_execucao host_le s f es) = false) ∧
    (∀ (nome cidade buf : List Nat) (send_ret : Int),
      thread_cliente_acoes host_le s (.ACTIVE nome cidade) (.recv 8 buf send_ret) =
        [.recv, .mutex_lock, .mutex_unlock] ++
          (if (secao_critica s (desempacotar_lance host_le buf)).2 then [.sendto] else []) ++
          [.send] ++ (if send_ret < 0 then [.close] else [])) ∧
    (∀ (lidos : Int) (aprovado : Bool) (send_ret : Int),
      sem_rede_sob_lock false (thread_cliente_bk_acoes lidos aprovado send_ret) = true ∧
      lock_preso false (thread_cliente_bk_acoes lidos aprovado send_ret) = false) := by
  refine ⟨fun e => thread_cliente_acoes_ok host_le s f e,
    fun es => thread_cliente_acoes_execucao_ok host_le es s f, ?_, ?_⟩
  · intro nome cidade buf send_ret
    simp [thread_cliente_acoes]
  · intro lidos aprovado send_ret
    unfold thread_cliente_bk_acoes
    split
    · exact ⟨rfl, rfl⟩
    · split
      · exact ⟨rfl, rfl⟩
      · split
        · exact ⟨rfl, rfl⟩
        · cases aprovado <;>
            by_cases hs : send_ret < 0 <;> simp [hs, sem_rede_sob_lock, lock_preso, Acao.rede]


/-! ## The exact final state (claim C25) -/

theorem aplicar_lances_lance_atual (lances : List MensagemLance) (s : EstadoLeilao) :
    (aplicar_lances s lances).lance_atual
      = lances.foldl (fun a m => max a m.valor_lance) s.lance_atual := by
  induction lances generalizing s with
  | nil => rfl
  | cons x xs ih =>
    rw [aplicar_lances_cons, ih, List.foldl_cons]
    by_cases h : x.valor_lance > s.lance_atual
    · rw [secao_critica_aceito s x h, max_eq_right (le_of_lt h)]
    · rw [secao_critica_rejeitado s x h, max_eq_left (not_lt.mp h)]

theorem aplicar_lances_nao_negativo (lances : List MensagemLance) :
    0 ≤ (aplicar_lances estado_inicial lances).lance_atual := by
  rcases aplicar_lances_forma lances estado_inicial with ⟨_, hfin⟩ | ⟨_, b, _, _, hlt, _, _, hfin⟩
  · rw [hfin]; decide
  · rw [hfin]; exact le_of_lt hlt

/-- C25: the exact final state. For every finite sequence of bids applied
from the initial state `(0, -1)`, the final `lance_atual` is the larger of `0`
and the largest amount of the sequence; `lance_atual` is non-negative in every
reachable state; a bid with an amount of `0` or less is never accepted; and
when no bid has a positive amount the final state is still `(0, -1)`. -/
theorem estado_final_exato (lances : List MensagemLance) :
    (aplicar_lances estado_inicial lances).lance_atual = maior_ou_zero lances ∧
    0 ≤ (aplicar_lances estado_inicial lances).lance_atual ∧
    (∀ m : MensagemLance, m.valor_lance ≤ 0 →
      secao_critica (aplicar_lances estado_inicial lances) m
        = (aplicar_lances estado_inicial lances, false)) ∧
    ((∀ m ∈ lances, m.valor_lance ≤ 0) → aplicar_lances estado_inicial lances = ⟨0, -1⟩) := by
  refine ⟨aplicar_lances_lance_atual lances estado_inicial,
    aplicar_lances_nao_negativo lances, ?_, ?_⟩
  · intro m hm
    exact secao_critica_rejeitado _ m
      (not_lt.mpr (le_trans hm (aplicar_lances_nao_negativo lances)))
  · intro hall
    rcases aplicar_lances_forma lances estado_inicial with ⟨_, hfin⟩ | ⟨pre, b, pos, hl, hlt, _, _, _⟩
    · exact hfin
    · exfalso
      have hb : b ∈ lances := by rw [hl]; simp
      have h0 : (0 : Int) < b.valor_lance := hlt
      exact absurd (hall b hb) (not_le.mpr h0)

/-! ## Bytes consumed by the identity reader (claim C26) -/

theorem ler_linha_socket_loop_newline (tam : Nat) (fim : FimFluxo) (pre resto buf : List Nat)
    (hnl : 10 ∉ pre) (hlen : buf.length + pre.length < tam - 1) :
    ler_linha_socket_loop tam fim (pre ++ 10 :: resto) buf
      = { ret := 1, buf := buf ++ pre, resto := ⟨resto, fim⟩ } := by
  induction pre generalizing buf with
  | nil =>
    simp only [List.nil_append, List.append_nil]
    unfold ler_linha_socket_loop
    rw [if_pos (by simpa using hlen), if_pos rfl]
  | cons c cs ih =>
    have hc : c ≠ 10 := fun e => hnl (e ▸ List.mem_cons_self _ _)
    have hcs : 10 ∉ cs := fun h => hnl (List.mem_cons_of_mem _ h)
    simp only [List.cons_append]
    unfold ler_linha_socket_loop
    simp only [List.length_cons] at hlen
    rw [if_pos (by omega), if_neg hc, ih (buf ++ [c]) hcs (by simp; omega)]
    simp

theorem ler_linha_socket_loop_cheio (tam : Nat) (fim : FimFluxo) (pre resto buf : List Nat)
    (hnl : 10 ∉ pre) (hlen : buf.length + pre.length = tam - 1) :
    ler_linha_socket_loop tam fim (pre ++ resto) buf
      = { ret := 1, buf := buf ++ pre, resto := ⟨resto, fim⟩ } := by
  induction pre generalizing buf with
  | nil =>
    simp only [List.nil_append, List.append_nil]
    simp only [List.length_nil, Nat.add_zero] at hlen
    cases resto with
    | nil =>
      unfold ler_linha_socket_loop
      rw [if_neg (by omega)]
    | cons r rs =>
      unfold ler_linha_socket_loop
      rw [if_neg (by omega)]
  | cons c cs ih =>
    have hc : c ≠ 10 := fun e => hnl (e ▸ List.mem_cons_self _ _)
    have hcs : 10 ∉ cs := fun h => hnl (List.mem_cons_of_mem _ h)
    simp only [List.cons_append]
    unfold ler_linha_socket_loop
    simp only [List.length_cons] at hlen
    rw [if_pos (by omega), if_neg hc, ih (buf ++ [c]) hcs (by simp; omega)]
    simp

theorem recv_dados (fluxo : Fluxo) (len corte : Nat) (h : fluxo.dados ≠ []) :
    recv fluxo len corte =
      (((min (max corte 1) (min len fluxo.dados.length) : Nat) : Int),
        fluxo.dados.take (min (max corte 1) (min len fluxo.dados.length)),
        (⟨fluxo.dados.drop (min (max corte 1) (min len fluxo.dados.length)), fluxo.fim⟩ :
          Fluxo)) := by
  unfold recv
  cases hd : fluxo.dados with
  | nil => exact absurd hd h
  | cons x xs => rfl

set_option maxRecDepth 20000 in
theorem conexao_linha_longa :
    thread_cliente_conexao true estado_inicial
        ⟨List.replicate 127 65 ++ [0, 0, 0, 9, 0, 0, 1, 10], .fechado⟩ [(8, 1)]
      = (⟨266, 9⟩, .ACTIVE (List.replicate 63 65) cidade_padrao) := by
  decide

/-- C26: the bytes the identity reader consumes. When the first newline of
the stream is at index `k` with `k` at most 126, `ler_linha_socket` with the
128-byte buffer consumes `k + 1` bytes and returns the `k` bytes before the
newline; when the first 127 bytes hold no newline it consumes exactly those
127 bytes and returns them. So the rest of an identity line of 127 bytes or
more, its newline included, stays in the stream and is what the first `recv`
of the bid loop delivers: a line of 127 letters followed by the bytes
`00 00 00 09 00 00 01` and the newline makes the handler process the bid
`(9, 266)`. -/
theorem bytes_consumidos (fluxo : Fluxo) :
    (∀ pre resto : List Nat, fluxo.dados = pre ++ 10 :: resto → 10 ∉ pre → pre.length ≤ 126 →
      ler_linha_socket 128 fluxo = { ret := 1, buf := pre, resto := ⟨resto, fluxo.fim⟩ } ∧
      resto = fluxo.dados.drop (pre.length + 1)) ∧
    (10 ∉ fluxo.dados.take 127 → 127 ≤ fluxo.dados.length →
      ler_linha_socket 128 fluxo
        = { ret := 1, buf := fluxo.dados.take 127, resto := ⟨fluxo.dados.drop 127, fluxo.fim⟩ }) ∧
    (∀ (pre depois : List Nat) (corte : Nat) (send_ret : Int) (cs : List (Nat × Int)),
      fluxo.dados = pre ++ 10 :: depois → 10 ∉ pre → 127 ≤ pre.length →
      (ler_linha_socket 128 fluxo).resto.dados = pre.drop 127 ++ 10 :: depois ∧
      ∃ k : Nat, 1 ≤ k ∧ k ≤ 8 ∧
        eventos_fluxo (ler_linha_socket 128 fluxo).resto ((corte, send_ret) :: cs)
          = .recv k ((pre.drop 127 ++ 10 :: depois).take k) send_ret ::
              eventos_fluxo ⟨(pre.drop 127 ++ 10 :: depois).drop k, fluxo.fim⟩ cs) ∧
    thread_cliente_conexao true estado_inicial
        ⟨List.replicate 127 65 ++ [0, 0, 0, 9, 0, 0, 1, 10], .fechado⟩ [(8, 1)]
      = (⟨266, 9⟩, .ACTIVE (List.replicate 63 65) cidade_padrao) := by
  have hcheio : 10 ∉ fluxo.dados.take 127 → 127 ≤ fluxo.dados.length →
      ler_linha_socket 128 fluxo
        = { ret := 1, buf := fluxo.dados.take 127,
            resto := ⟨fluxo.dados.drop 127, fluxo.fim⟩ } := by
    intro hnl hlen
    have h := ler_linha_socket_loop_cheio 128 fluxo.fim (fluxo.dados.take 127)
      (fluxo.dados.drop 127) [] hnl (by simp; omega)
    rw [List.take_append_drop] at h
    simpa [ler_linha_socket] using h
  refine ⟨?_, hcheio, ?_, conexao_linha_longa⟩
  · intro pre resto hd hnl hlen
    constructor
    · have h := ler_linha_socket_loop_newline 128 fluxo.fim pre resto [] hnl (by simp; omega)
      unfold ler_linha_socket
      rw [hd, h]
      simp
    · rw [hd]
      simp
  · intro pre depois corte send_ret cs hd hnl hlen
    have htake : fluxo.dados.take 127 = pre.take 127 := by
      rw [hd, List.take_append_of_le_length hlen]
    have hdrop : fluxo.dados.drop 127 = pre.drop 127 ++ 10 :: depois := by
      rw [hd, List.drop_append_of_le_length hlen]
    have hr := hcheio (by rw [htake]; exact fun h => hnl (List.mem_of_mem_take h))
      (by rw [hd]; simp; omega)
    rw [hr]
    refine ⟨hdrop, ?_⟩
    simp only [hdrop]
    have hne : (⟨pre.drop 127 ++ 10 :: depois, fluxo.fim⟩ : Fluxo).dados ≠ [] := by simp
    refine ⟨min (max corte 1) (min 8 (pre.drop 127 ++ 10 :: depois).length), ?_, ?_, ?_⟩
    · have : 1 ≤ (pre.drop 127 ++ 10 :: depois).length := by
        simp only [List.length_append, List.length_cons]; omega
      omega
    · omega
    · rw [eventos_fluxo, recv_dados _ 8 corte hne]

/-! ## Lemmas on the concurrent handlers -/

theorem atualizar_mesmo (f : Nat → Tarefa) (t : Nat) (x : Tarefa) : atualizar f t x t = x := by
  simp [atualizar]

theorem atualizar_outro (f : Nat → Tarefa) (t u : Nat) (x : Tarefa) (h : u ≠ t) :
    atualizar f t x u = f u := by
  simp [atualizar, h]

theorem secao_mantida (σ : Concorrente) (t : Nat) (x : Tarefa) (mutex2 : Option Nat)
    (h1 : ∀ u, na_secao (σ.tarefas u).pc = true ↔ σ.mutex = some u)
    (hm : ∀ u, u ≠ t → (mutex2 = some u ↔ σ.mutex = some u))
    (ht : na_secao x.pc = true ↔ mutex2 = some t) :
    ∀ u, na_secao ((atualizar σ.tarefas t x) u).pc = true ↔ mutex2 = some u := by
  intro u
  by_cases hu : u = t
  · subst hu
    rw [atualizar_mesmo]
    exact ht
  · rw [atualizar_outro _ _ _ _ hu, h1 u]
    exact (hm u hu).symm

theorem conservacao_mantida (lances : Nat → List MensagemLance) (σ : Concorrente) (t : Nat)
    (x : Tarefa) (log2 : List (Nat × MensagemLance))
    (h3 : ∀ u, do_log σ.log u ++ em_curso (σ.tarefas u).pc ++ (σ.tarefas u).pendentes = lances u)
    (hlog : ∀ u, u ≠ t → do_log log2 u = do_log σ.log u)
    (ht : do_log log2 t ++ em_curso x.pc ++ x.pendentes = lances t) :
    ∀ u, do_log log2 u ++ em_curso ((atualizar σ.tarefas t x) u).pc
      ++ ((atualizar σ.tarefas t x) u).pendentes = lances u := by
  intro u
  by_cases hu : u = t
  · subst hu
    rw [atualizar_mesmo]
    exact ht
  · rw [atualizar_outro _ _ _ _ hu, hlog u hu]
    exact h3 u

theorem coerente_fora (σ : Concorrente) (t : Nat) (x : Tarefa) (hns : σ.mutex ≠ some t)
    (h2 : estado_coerente σ) :
    estado_coerente ⟨σ.estado, σ.mutex, atualizar σ.tarefas t x, σ.log⟩ := by
  unfold estado_coerente at h2 ⊢
  cases hm : σ.mutex with
  | none => simpa [hm] using h2
  | some h =>
    have hne : h ≠ t := fun e => hns (by rw [hm, e])
    simp only [hm] at h2 ⊢
    rw [atualizar_outro _ _ _ _ hne]
    exact h2

theorem do_log_append_outro (log : List (Nat × MensagemLance)) (t u : Nat) (m : MensagemLance)
    (h : u ≠ t) : do_log (log ++ [(t, m)]) u = do_log log u := by
  have : ¬ (t = u) := fun e => h e.symm
  simp [do_log, List.filter_append, this]

theorem do_log_append_mesmo (log : List (Nat × MensagemLance)) (t : Nat) (m : MensagemLance) :
    do_log (log ++ [(t, m)]) t = do_log log t ++ [m] := by
  simp [do_log, List.filter_append]

theorem aplicar_lances_append (s : EstadoLeilao) (xs : List MensagemLance) (m : MensagemLance) :
    aplicar_lances s (xs ++ [m]) = (secao_critica (aplicar_lances s xs) m).1 := by
  simp [aplicar_lances, List.foldl_append]


theorem invariante_passo (lances : Nat → List MensagemLance) (σ : Concorrente) (t : Nat)
    (h : invariante lances σ) : invariante lances (passo_conc σ t) := by
  obtain ⟨h1, h2, h3⟩ := h
  have h1t := h1 t
  have h3t := h3 t
  unfold passo_conc
  cases hpc : (σ.tarefas t).pc with
  | ocioso =>
    rw [hpc] at h1t h3t
    have hns : σ.mutex ≠ some t := fun e => by
      have := h1t.mpr e
      simp [na_secao] at this
    dsimp only
    cases hp : (σ.tarefas t).pendentes with
    | nil => exact ⟨h1, h2, h3⟩
    | cons m ms =>
      rw [hp] at h3t
      dsimp only
      refine ⟨secao_mantida σ t _ σ.mutex h1 (fun u _ => Iff.rfl) ?_, coerente_fora σ t _ hns h2,
        conservacao_mantida lances σ t _ σ.log h3 (fun u _ => rfl) ?_⟩
      · simp only [na_secao]
        constructor
        · intro hf; cases hf
        · intro e; exact absurd e hns
      · simpa [em_curso] using h3t
  | quer_lock m =>
    rw [hpc] at h1t h3t
    dsimp only
    cases hm : σ.mutex with
    | some h0 => exact ⟨h1, h2, h3⟩
    | none =>
      dsimp only
      refine ⟨secao_mantida σ t _ (some t) h1 ?_ ?_, ?_,
        conservacao_mantida lances σ t _ σ.log h3 (fun u _ => rfl) ?_⟩
      · intro u hu
        rw [hm]
        constructor
        · intro e
          exact absurd (Option.some.inj e).symm hu
        · intro e; cases e
      · simp [na_secao]
      · unfold estado_coerente at h2 ⊢
        simp only [hm] at h2
        simp only [atualizar_mesmo]
        exact h2
      · simpa [em_curso] using h3t
  | comparar m =>
    rw [hpc] at h1t h3t
    have hmx : σ.mutex = some t := h1t.mp rfl
    dsimp only
    have h2c : σ.estado = aplicar_lances estado_inicial (σ.log.map (fun p => p.2)) := by
      unfold estado_coerente at h2
      simp only [hmx, hpc] at h2
      exact h2
    by_cases hgt : m.valor_lance > σ.estado.lance_atual
    · rw [if_pos hgt]
      refine ⟨secao_mantida σ t _ σ.mutex h1 (fun u _ => Iff.rfl) ?_, ?_,
        conservacao_mantida lances σ t _ σ.log h3 (fun u _ => rfl) ?_⟩
      · simp [na_secao, hmx]
      · unfold estado_coerente
        simp only [hmx, atualizar_mesmo]
        exact ⟨h2c, h2c ▸ hgt⟩
      · simpa [em_curso] using h3t
    · rw [if_neg hgt]
      refine ⟨secao_mantida σ t _ σ.mutex h1 (fun u _ => Iff.rfl) ?_, ?_,
        conservacao_mantida lances σ t _ σ.log h3 (fun u _ => rfl) ?_⟩
      · simp [na_secao, hmx]
      · unfold estado_coerente
        simp only [hmx, atualizar_mesmo]
        rw [← h2c, secao_critica_rejeitado σ.estado m hgt]
        exact ⟨rfl, rfl⟩
      · simpa [em_curso] using h3t
  | escrever_lance m =>
    rw [hpc] at h1t h3t
    have hmx : σ.mutex = some t := h1t.mp rfl
    dsimp only
    have h2c : σ.estado = aplicar_lances estado_inicial (σ.log.map (fun p => p.2)) ∧
        m.valor_lance > (aplicar_lances estado_inicial (σ.log.map (fun p => p.2))).lance_atual := by
      unfold estado_coerente at h2
      simp only [hmx, hpc] at h2
      exact h2
    refine ⟨secao_mantida σ t _ σ.mutex h1 (fun u _ => Iff.rfl) ?_, ?_,
      conservacao_mantida lances σ t _ σ.log h3 (fun u _ => rfl) ?_⟩
    · simp [na_secao, hmx]
    · unfold estado_coerente
      simp only [hmx, atualizar_mesmo]
      exact ⟨by rw [h2c.1], h2c.2⟩
    · simpa [em_curso] using h3t
  | escrever_vencedor m =>
    rw [hpc] at h1t h3t
    have hmx : σ.mutex = some t := h1t.mp rfl
    dsimp only
    have h2c : σ.estado = ⟨m.valor_lance,
          (aplicar_lances estado_inicial (σ.log.map (fun p => p.2))).cliente_vencedor⟩ ∧
        m.valor_lance > (aplicar_lances estado_inicial (σ.log.map (fun p => p.2))).lance_atual := by
      unfold estado_coerente at h2
      simp only [hmx, hpc] at h2
      exact h2
    refine ⟨secao_mantida σ t _ σ.mutex h1 (fun u _ => Iff.rfl) ?_, ?_,
      conservacao_mantida lances σ t _ σ.log h3 (fun u _ => rfl) ?_⟩
    · simp [na_secao, hmx]
    · unfold estado_coerente
      simp only [hmx, atualizar_mesmo]
      rw [secao_critica_aceito _ m h2c.2, h2c.1]
      exact ⟨rfl, rfl⟩
    · simpa [em_curso] using h3t
  | liberar m ap =>
    rw [hpc] at h1t h3t
    have hmx : σ.mutex = some t := h1t.mp rfl
    dsimp only
    have h2c : σ.estado
          = (secao_critica (aplicar_lances estado_inicial (σ.log.map (fun p => p.2))) m).1 ∧
        ap = (secao_critica (aplicar_lances estado_inicial (σ.log.map (fun p => p.2))) m).2 := by
      unfold estado_coerente at h2
      simp only [hmx, hpc] at h2
      exact h2
    refine ⟨secao_mantida σ t _ none h1 ?_ ?_, ?_,
      conservacao_mantida lances σ t _ (σ.log ++ [(t, m)]) h3
        (fun u hu => do_log_append_outro σ.log t u m hu) ?_⟩
    · intro u hu
      rw [hmx]
      constructor
      · intro e; cases e
      · intro e
        exact absurd (Option.some.inj e).symm hu
    · simp [na_secao]
    · unfold estado_coerente
      simp only [List.map_append, List.map_cons, List.map_nil]
      rw [aplicar_lances_append]
      exact h2c.1
    · rw [do_log_append_mesmo]
      simpa [em_curso] using h3t
  | ler_lance m ap =>
    rw [hpc] at h1t h3t
    have hns : σ.mutex ≠ some t := fun e => by
      have := h1t.mpr e
      simp [na_secao] at this
    dsimp only
    refine ⟨secao_mantida σ t _ σ.mutex h1 (fun u _ => Iff.rfl) ?_, coerente_fora σ t _ hns h2,
      conservacao_mantida lances σ t _ σ.log h3 (fun u _ => rfl) ?_⟩
    · simp only [na_secao]
      constructor
      · intro hf; cases hf
      · intro e; exact absurd e hns
    · simpa [em_curso] using h3t
  | ler_vencedor m ap la =>
    rw [hpc] at h1t h3t
    have hns : σ.mutex ≠ some t := fun e => by
      have := h1t.mpr e
      simp [na_secao] at this
    dsimp only
    refine ⟨secao_mantida σ t _ σ.mutex h1 (fun u _ => Iff.rfl) ?_, coerente_fora σ t _ hns h2,
      conservacao_mantida lances σ t _ σ.log h3 (fun u _ => rfl) ?_⟩
    · simp only [na_secao]
      constructor
      · intro hf; cases hf
      · intro e; exact absurd e hns
    · simpa [em_curso] using h3t
  | enviar m ap la cv =>
    rw [hpc] at h1t h3t
    have hns : σ.mutex ≠ some t := fun e => by
      have := h1t.mpr e
      simp [na_secao] at this
    dsimp only
    refine ⟨secao_mantida σ t _ σ.mutex h1 (fun u _ => Iff.rfl) ?_, coerente_fora σ t _ hns h2,
      conservacao_mantida lances σ t _ σ.log h3 (fun u _ => rfl) ?_⟩
    · simp only [na_secao]
      constructor
      · intro hf; cases hf
      · intro e; exact absurd e hns
    · simpa [em_curso] using h3t


theorem invariante_inicial (lances : Nat → List MensagemLance) :
    invariante lances (conc_inicial lances) := by
  refine ⟨?_, ?_, ?_⟩
  · intro t
    simp [conc_inicial, na_secao]
  · simp [estado_coerente, conc_inicial, aplicar_lances]
  · intro t
    simp [conc_inicial, do_log, em_curso]

theorem invariante_executar (lances : Nat → List MensagemLance) (agenda : List Nat)
    (σ : Concorrente) (h : invariante lances σ) : invariante lances (executar σ agenda) := by
  induction agenda generalizing σ with
  | nil => exact h
  | cons t ts ih => exact ih (passo_conc σ t) (invariante_passo lances σ t h)

theorem invariante_conc_executar (lances : Nat → List MensagemLance) (agenda : List Nat) :
    invariante lances (conc_executar lances agenda) :=
  invariante_executar lances agenda _ (invariante_inicial lances)

/-- With a positive amount among the bids, the state after the sequence holds
the maximum amount and the id of the first bid that carries it. -/
theorem aplicar_lances_maximo_e_primeiro (lances : List MensagemLance)
    (h : ∃ m ∈ lances, 0 < m.valor_lance) :
    eh_maior_valor (aplicar_lances estado_inicial lances).lance_atual lances ∧
    ∃ b, primeiro_com_valor (aplicar_lances estado_inicial lances).lance_atual lances = some b ∧
      (aplicar_lances estado_inicial lances).cliente_vencedor = b.id_cliente := by
  obtain ⟨m0, hm0, hpos⟩ := h
  rcases aplicar_lances_forma lances estado_inicial with
    ⟨hall, _⟩ | ⟨pre, b, pos, hl, _, hpre, hpos2, hfin⟩
  · exact absurd (hall m0 hm0) (not_le.mpr hpos)
  · rw [hfin]
    refine ⟨⟨⟨b, by rw [hl]; simp, rfl⟩, ?_⟩, b, ?_, rfl⟩
    · intro m hm
      rw [hl] at hm
      rcases List.mem_append.mp hm with hm | hm
      · exact le_of_lt (hpre m hm)
      · rcases List.mem_cons.mp hm with rfl | hm
        · exact le_refl _
        · exact hpos2 m hm
    · rw [hl]
      exact primeiro_com_valor_append _ pre pos b rfl hpre


/-! ## Concurrent handlers (claims C21, C24) -/

/-- C21, as stated, fails in its last part: two handlers submit `(1, -5)` and
`(2, -7)`; after a complete run both bids went through the critical section,
the state is `(0, -1)`, and `0` is not the maximum amount submitted. -/
theorem serializacao_counterexample :
    (conc_executar (dois_lances ⟨1, -5⟩ ⟨2, -7⟩)
        [0, 1, 0, 0, 1, 0, 0, 0, 1, 1, 1, 1, 0, 1]).log = [(0, ⟨1, -5⟩), (1, ⟨2, -7⟩)] ∧
    (conc_executar (dois_lances ⟨1, -5⟩ ⟨2, -7⟩)
        [0, 1, 0, 0, 1, 0, 0, 0, 1, 1, 1, 1, 0, 1]).estado = ⟨0, -1⟩ ∧
    ¬ eh_maior_valor (conc_executar (dois_lances ⟨1, -5⟩ ⟨2, -7⟩)
        [0, 1, 0, 0, 1, 0, 0, 0, 1, 1, 1, 1, 0, 1]).estado.lance_atual [⟨1, -5⟩, ⟨2, -7⟩] := by
  decide

/-- C21, amended: for any number of concurrent handlers and any interleaving
of their steps, the compare-and-update runs under the single lock, so whenever
the lock is free the auction state is the result of applying, one after
another in the order of the unlocks, the bids whose critical section is
complete; these are, for each handler, a prefix of its bids in order of
arrival, and all of them once every handler is done. When one of them has a
positive amount the state holds the maximum amount and the id of the first
bid, in that order, that carries it. -/
theorem serializacao (lances : Nat → List MensagemLance) (agenda : List Nat) :
    ((conc_executar lances agenda).mutex = none →
      (conc_executar lances agenda).estado
        = aplicar_lances estado_inicial ((conc_executar lances agenda).log.map (fun p => p.2))) ∧
    (∀ t, ∃ resto, do_log (conc_executar lances agenda).log t ++ resto = lances t) ∧
    ((∀ t, ((conc_executar lances agenda).tarefas t).pc = .ocioso ∧
        ((conc_executar lances agenda).tarefas t).pendentes = []) →
      (conc_executar lances agenda).mutex = none ∧
      ∀ t, do_log (conc_executar lances agenda).log t = lances t) ∧
    ((conc_executar lances agenda).mutex = none →
      (∃ p ∈ (conc_executar lances agenda).log, 0 < p.2.valor_lance) →
      eh_maior_valor (conc_executar lances agenda).estado.lance_atual
        ((conc_executar lances agenda).log.map (fun p => p.2)) ∧
      ∃ b, primeiro_com_valor (conc_executar lances agenda).estado.lance_atual
          ((conc_executar lances agenda).log.map (fun p => p.2)) = some b ∧
        (conc_executar lances agenda).estado.cliente_vencedor = b.id_cliente) ∧
    (conc_executar (dois_lances ⟨1, 100⟩ ⟨2, 150⟩)
        [1, 0, 1, 0, 1, 1, 1, 1, 0, 0, 0, 1, 0, 0, 1, 0]).estado = ⟨150, 2⟩ := by
  obtain ⟨h1, h2, h3⟩ := invariante_conc_executar lances agenda
  have hlivre : (conc_executar lances agenda).mutex = none →
      (conc_executar lances agenda).estado
        = aplicar_lances estado_inicial
            ((conc_executar lances agenda).log.map (fun p => p.2)) := by
    intro hm
    unfold estado_coerente at h2
    simp only [hm] at h2
    exact h2
  refine ⟨hlivre, ?_, ?_, ?_, by decide⟩
  · intro t
    refine ⟨em_curso ((conc_executar lances agenda).tarefas t).pc
      ++ ((conc_executar lances agenda).tarefas t).pendentes, ?_⟩
    rw [← List.append_assoc]
    exact h3 t
  · intro hfim
    constructor
    · cases hm : (conc_executar lances agenda).mutex with
      | none => rfl
      | some t =>
        have := (h1 t).mpr hm
        rw [(hfim t).1] at this
        simp [na_secao] at this
    · intro t
      have := h3 t
      rw [(hfim t).1, (hfim t).2] at this
      simpa [em_curso] using this
  · intro hm hpos
    rw [hlivre hm]
    apply aplicar_lances_maximo_e_primeiro
    obtain ⟨p, hp, hp0⟩ := hpos
    exact ⟨p.2, List.mem_map.mpr ⟨p, hp, rfl⟩, hp0⟩

/-- C24 fails on the code: the response is built from the globals read after
the unlock. Handler 0 receives `(1, 50)` and handler 1 receives `(2, 60)`. If
handler 1 runs its critical section between the two reads of handler 0, the
response of handler 0 to its accepted bid carries `(50, 2)`, a pair the
auction state never held; if it runs before both reads, the response carries
`(60, 2)`, the result of the other bid. -/
theorem resposta_apos_unlock :
    ((conc_executar (dois_lances ⟨1, 50⟩ ⟨2, 60⟩)
        [0, 0, 0, 0, 0, 0, 0, 1, 1, 1, 1, 1, 1, 0, 0]).tarefas 0).respostas
      = [.aceito 50 2] ∧
    (⟨50, 2⟩ : EstadoLeilao) ∉ estados_visitados (conc_inicial (dois_lances ⟨1, 50⟩ ⟨2, 60⟩))
        [0, 0, 0, 0, 0, 0, 0, 1, 1, 1, 1, 1, 1, 0, 0] ∧
    ((conc_executar (dois_lances ⟨1, 50⟩ ⟨2, 60⟩)
        [0, 0, 0, 0, 0, 0, 1, 1, 1, 1, 1, 1, 0, 0, 0]).tarefas 0).respostas
      = [.aceito 60 2] ∧
    (conc_executar (dois_lances ⟨1, 50⟩ ⟨2, 60⟩)
        [0, 0, 0, 0, 0, 0, 0, 1, 1, 1, 1, 1, 1, 0, 0]).log = [(0, ⟨1, 50⟩), (1, ⟨2, 60⟩)] := by
  decide

end Leilao

namespace Primos

/-! ## Primality test (claim C22) -/

theorem is_prime_loop_spec (n limit : Nat) : ∀ (k d : Nat), limit + 1 - d ≤ k →
    (is_prime_loop n limit d = true ↔
      ∀ j : Nat, d + 2 * j ≤ limit → ¬ (d + 2 * j) ∣ n) := by
  intro k
  induction k with
  | zero =>
    intro d hk
    rw [is_prime_loop, if_neg (by omega)]
    simp only [true_iff]
    intro j hj
    omega
  | succ k ih =>
    intro d hk
    rw [is_prime_loop]
    by_cases hd : d ≤ limit
    · rw [if_pos hd]
      by_cases hdiv : n % d = 0
      · rw [if_pos hdiv]
        simp only [Bool.false_eq_true, false_iff, not_forall]
        exact ⟨0, by simpa using hd, by simpa using Nat.dvd_of_mod_eq_zero hdiv⟩
      · rw [if_neg hdiv, ih (d + 2) (by omega)]
        constructor
        · intro h j hj
          cases j with
          | zero =>
            simp only [Nat.mul_zero, Nat.add_zero]
            exact fun hdvd => hdiv (Nat.mod_eq_zero_of_dvd hdvd)
          | succ j =>
            have := h j (by omega)
            have e : d + 2 + 2 * j = d + 2 * (j + 1) := by omega
            rw [e] at this
            exact this
        · intro h j hj
          have := h (j + 1) (by omega)
          have e : d + 2 + 2 * j = d + 2 * (j + 1) := by omega
          rw [e]
          exact this
    · rw [if_neg hd]
      simp only [true_iff]
      intro j hj
      omega

theorem is_prime_loop_three (n : Nat) :
    is_prime_loop n (Nat.sqrt n) 3 = true ↔
      ∀ d : Nat, 3 ≤ d → d ≤ Nat.sqrt n → d % 2 = 1 → ¬ d ∣ n := by
  rw [is_prime_loop_spec n (Nat.sqrt n) (Nat.sqrt n + 1 - 3) 3 (le_refl _)]
  constructor
  · intro h d h3 hd hodd
    have := h ((d - 3) / 2) (by omega)
    have e : 3 + 2 * ((d - 3) / 2) = d := by omega
    rw [e] at this
    exact this
  · intro h j hj
    exact h (3 + 2 * j) (by omega) hj (by omega)

theorem primo_impar (n : Nat) (h3 : 3 ≤ n) (hodd : n % 2 = 1) :
    Nat.Prime n ↔ ∀ d : Nat, 3 ≤ d → d ≤ Nat.sqrt n → d % 2 = 1 → ¬ d ∣ n := by
  rw [Nat.prime_def_le_sqrt]
  constructor
  · rintro ⟨_, h⟩ d hd3 hd _
    exact h d (by omega) hd
  · intro h
    refine ⟨by omega, ?_⟩
    intro m hm2 hm hdvd
    by_cases hmodd : m % 2 = 1
    · have hm3 : 3 ≤ m := by omega
      exact h m hm3 hm hmodd hdvd
    · have h2m : 2 ∣ m := Nat.dvd_of_mod_eq_zero (by omega)
      have h2n : 2 ∣ n := Nat.dvd_trans h2m hdvd
      have := Nat.mod_eq_zero_of_dvd h2n
      omega

theorem is_prime_iff (n : Int) : is_prime n = true ↔ (2 ≤ n ∧ Nat.Prime n.toNat) := by
  unfold is_prime
  by_cases h2 : n < 2
  · rw [if_pos h2]
    simp only [Bool.false_eq_true, false_iff, not_and]
    intro h; omega
  · rw [if_neg h2]
    by_cases he : n = 2
    · rw [if_pos he]
      subst he
      simp only [true_iff]
      exact ⟨le_refl _, by decide⟩
    · rw [if_neg he]
      by_cases hpar : n % 2 = 0
      · rw [if_pos hpar]
        simp only [Bool.false_eq_true, false_iff, not_and]
        intro _ hp
        have hmod : n.toNat % 2 = 0 := by omega
        have h2n : 2 ∣ n.toNat := Nat.dvd_of_mod_eq_zero hmod
        have := (Nat.prime_dvd_prime_iff_eq Nat.prime_two hp).mp h2n
        omega
      · rw [if_neg hpar]
        have h3 : 3 ≤ n.toNat := by omega
        have hodd : n.toNat % 2 = 1 := by omega
        rw [is_prime_loop_three, ← primo_impar n.toNat h3 hodd]
        constructor
        · intro hp; exact ⟨by omega, hp⟩
        · intro hp; exact hp.2

/-- C22: `is_prime(n)` returns true if and only if `n` is a prime number, for
every `int n`: false for every `n < 2`, true for 2, false for every even
`n > 2`, and for odd `n >= 3` decided by trial division by the odd numbers
from 3 up to `floor(sqrt(n))`. -/
theorem is_prime_correto (n : Int) :
    (is_prime n = true ↔ (2 ≤ n ∧ Nat.Prime n.toNat)) ∧
    (n < 2 → is_prime n = false) ∧
    is_prime 2 = true ∧
    (2 < n → n % 2 = 0 → is_prime n = false) ∧
    (3 ≤ n → n % 2 = 1 →
      (is_prime n = true ↔
        ∀ d : Nat, 3 ≤ d → d ≤ Nat.sqrt n.toNat → d % 2 = 1 → ¬ d ∣ n.toNat)) := by
  refine ⟨is_prime_iff n, ?_, ?_, ?_, ?_⟩
  · intro h
    unfold is_prime
    rw [if_pos h]
  · unfold is_prime
    rw [if_neg (by decide), if_pos rfl]
  · intro h hpar
    unfold is_prime
    rw [if_neg (by omega), if_neg (by omega), if_pos hpar]
  · intro h hodd
    unfold is_prime
    rw [if_neg (by omega), if_neg (by omega), if_neg (by omega)]
    exact is_prime_loop_three n.toNat

/-! ## Distributed prime counting (claim C23) -/

theorem wrap_int_eq (x : Int) (h : Leilao.isInt32 x) : wrap_int x = x :=
  Leilao.toI32_toU32 x h

theorem isInt32_wrap_int (x : Int) : Leilao.isInt32 (wrap_int x) :=
  Leilao.isInt32_toI32 _

theorem wrap_int_le (x : Int) : wrap_int x ≤ 2147483647 := by
  have := isInt32_wrap_int x
  unfold Leilao.isInt32 at this
  omega

/-- With `n = INT_MAX` the test `value <= n` can never fail. -/
theorem count_loop_int_max (step : Int) : ∀ (fuel : Nat) (value c : Int),
    value ≤ 2147483647 → count_primes_local_loop 2147483647 step fuel value c = none := by
  intro fuel
  induction fuel with
  | zero => intro value c _; rfl
  | succ fuel ih =>
    intro value c hv
    rw [count_primes_local_loop, if_pos hv]
    exact ih _ _ (wrap_int_le _)

theorem is_prime_nat (v : Nat) (h : 2 ≤ v) : is_prime (v : Int) = decide (Nat.Prime v) := by
  have := is_prime_iff (v : Int)
  simp only [Int.toNat_ofNat] at this
  by_cases hp : Nat.Prime v
  · simp only [hp, decide_True]
    exact this.mpr ⟨by omega, hp⟩
  · simp only [hp, decide_False]
    cases hb : is_prime (v : Int) with
    | false => rfl
    | true => exact absurd (this.mp hb).2 hp

theorem count_loop_spec (N size : Nat) (hov : N + 2 * size ≤ 2147483647) :
    ∀ (fuel j0 : Nat) (c : Int), 3 + 2 * j0 ≤ N + 2 * size →
      N < 3 + 2 * j0 + 2 * size * fuel →
      count_primes_local_loop (N : Int) ((2 * size : Nat) : Int) (fuel + 1)
          ((3 + 2 * j0 : Nat) : Int) c
        = some (c + ((∑ k in Finset.range fuel, primo_impar_ate N (j0 + size * k) : Nat) : Int)) := by
  intro fuel
  induction fuel with
  | zero =>
    intro j0 c _ hlt
    rw [count_primes_local_loop, if_neg (by omega)]
    simp
  | succ fuel ih =>
    intro j0 c hle hlt
    rw [count_primes_local_loop]
    by_cases hv : ((3 + 2 * j0 : Nat) : Int) ≤ (N : Int)
    · rw [if_pos hv]
      have hvn : 3 + 2 * j0 ≤ N := by omega
      have hw : wrap_int (((3 + 2 * j0 : Nat) : Int) + ((2 * size : Nat) : Int))
          = ((3 + 2 * (j0 + size) : Nat) : Int) := by
        rw [wrap_int_eq]
        · push_cast; ring
        · unfold Leilao.isInt32; omega
      rw [hw, ih (j0 + size) _ (by omega) (by
        have : 2 * size * (fuel + 1) = 2 * size + 2 * size * fuel := by ring
        omega)]
      rw [is_prime_nat _ (by omega), Finset.sum_range_succ']
      have hg : primo_impar_ate N (j0 + size * 0) = if Nat.Prime (3 + 2 * j0) then 1 else 0 := by
        simp [primo_impar_ate, hvn]
      rw [hg]
      have hsum : (∑ k in Finset.range fuel, primo_impar_ate N (j0 + size * (k + 1)))
          = ∑ k in Finset.range fuel, primo_impar_ate N (j0 + size + size * k) := by
        apply Finset.sum_congr rfl
        intro k _
        congr 1
        ring
      rw [hsum]
      by_cases hp : Nat.Prime (3 + 2 * j0)
      · simp only [hp, decide_True, if_true]
        push_cast
        congr 1
        ring
      · simp only [hp, decide_False, if_false]
        push_cast
        simp
    · rw [if_neg hv]
      have hvn : N < 3 + 2 * j0 := by omega
      have hz : (∑ k in Finset.range (fuel + 1), primo_impar_ate N (j0 + size * k)) = 0 := by
        apply Finset.sum_eq_zero
        intro k _
        unfold primo_impar_ate
        rw [if_neg]
        intro h
        have : 3 + 2 * j0 ≤ 3 + 2 * (j0 + size * k) := by omega
        omega
      rw [hz]
      simp


theorem count_primes_local_spec (N size rank : Nat) (hN : 2 ≤ N) (hr : rank < size)
    (hov : N + 2 * size ≤ 2147483647) :
    count_primes_local (N + 1) (N : Int) (rank : Int) (size : Int)
      = some ((∑ k in Finset.range N, primo_impar_ate N (rank + size * k) : Nat) : Int) := by
  unfold count_primes_local
  have h1 : wrap_int (2 * (size : Int)) = ((2 * size : Nat) : Int) := by
    rw [wrap_int_eq]
    · push_cast; ring
    · unfold Leilao.isInt32; omega
  have h2 : wrap_int (3 + 2 * (rank : Int)) = ((3 + 2 * rank : Nat) : Int) := by
    rw [wrap_int_eq]
    · push_cast; ring
    · unfold Leilao.isInt32; omega
  rw [h1, h2, count_loop_spec N size hov N rank 0 (by omega) (by
    have : N ≤ 2 * size * N := by
      calc N = 1 * N := (Nat.one_mul N).symm
        _ ≤ (2 * size) * N := Nat.mul_le_mul_right N (by omega)
    omega)]
  simp

theorem global_count_spec (N size : Nat) (hN : 2 ≤ N) (hov : N + 2 * size ≤ 2147483647) :
    ∀ k : Nat, k ≤ size →
      global_count (N + 1) (N : Int) size k
        = some ((∑ r in Finset.range k, ∑ j in Finset.range N,
            primo_impar_ate N (r + size * j) : Nat) : Int) := by
  intro k
  induction k with
  | zero => intro _; simp [global_count]
  | succ k ih =>
    intro hk
    rw [global_count, ih (by omega), count_primes_local_spec N size k hN (by omega) hov]
    simp only [Finset.sum_range_succ]
    push_cast
    rfl

theorem soma_por_rank (f : Nat → Nat) (size : Nat) : ∀ F : Nat,
    (∑ r in Finset.range size, ∑ k in Finset.range F, f (r + size * k))
      = ∑ j in Finset.range (size * F), f j := by
  intro F
  induction F with
  | zero => simp
  | succ F ih =>
    have e : size * (F + 1) = size * F + size := by ring
    rw [e, Finset.sum_range_add, ← ih, ← Finset.sum_add_distrib]
    apply Finset.sum_congr rfl
    intro r _
    rw [Finset.sum_range_succ]
    congr 2
    ring

theorem primos_ate_succ (N : Nat) :
    primos_ate (N + 1) = primos_ate N + if Nat.Prime (N + 1) then 1 else 0 := by
  unfold primos_ate
  rw [List.range_succ, List.filter_append, List.length_append]
  by_cases hp : Nat.Prime (N + 1)
  · simp [hp]
  · simp [hp]

theorem soma_impares_primos (J : Nat) : ∀ N : Nat, 2 ≤ N → N ≤ 2 * J + 2 →
    (∑ j in Finset.range J, primo_impar_ate N j) + 1 = primos_ate N := by
  intro N hN
  induction N, hN using Nat.le_induction with
  | base =>
    intro _
    have hz : (∑ j in Finset.range J, primo_impar_ate 2 j) = 0 := by
      apply Finset.sum_eq_zero
      intro j _
      unfold primo_impar_ate
      rw [if_neg]
      intro h; omega
    rw [hz]
    decide
  | succ N hN ih =>
    intro hJ
    rw [primos_ate_succ, ← ih (by omega)]
    have hstep : ∀ j, primo_impar_ate (N + 1) j
        = primo_impar_ate N j + (if 3 + 2 * j = N + 1 ∧ Nat.Prime (N + 1) then 1 else 0) := by
      intro j
      unfold primo_impar_ate
      by_cases h1 : 3 + 2 * j ≤ N
      · have hne : ¬ (3 + 2 * j = N + 1) := by omega
        by_cases hp : Nat.Prime (3 + 2 * j)
        · simp [h1, hp, hne, Nat.le_succ_of_le h1]
        · rw [if_neg (fun h => hp h.2), if_neg (fun h => hp h.2), if_neg (fun h => hne h.1)]
      · by_cases h2 : 3 + 2 * j = N + 1
        · rw [h2]
          by_cases hp : Nat.Prime (N + 1)
          · simp [hp]
          · simp [hp]
        · have h3 : ¬ (3 + 2 * j ≤ N + 1) := by omega
          simp [h1, h2, h3]
    have hsum : (∑ j in Finset.range J, primo_impar_ate (N + 1) j)
        = (∑ j in Finset.range J, primo_impar_ate N j)
          + ∑ j in Finset.range J, (if 3 + 2 * j = N + 1 ∧ Nat.Prime (N + 1) then 1 else 0) := by
      rw [← Finset.sum_add_distrib]
      exact Finset.sum_congr rfl (fun j _ => hstep j)
    rw [hsum]
    have hind : (∑ j in Finset.range J, (if 3 + 2 * j = N + 1 ∧ Nat.Prime (N + 1) then 1 else 0))
        = if Nat.Prime (N + 1) then 1 else 0 := by
      by_cases hp : Nat.Prime (N + 1)
      · have hodd : (N + 1) % 2 = 1 := by
          rcases hp.eq_two_or_odd with h | h
          · omega
          · exact h
        have hmem : (N + 1 - 3) / 2 ∈ Finset.range J := by
          rw [Finset.mem_range]; omega
        rw [Finset.sum_eq_single_of_mem ((N + 1 - 3) / 2) hmem]
        · have : 3 + 2 * ((N + 1 - 3) / 2) = N + 1 := by omega
          rw [if_pos ⟨this, hp⟩, if_pos hp]
        · intro j _ hj
          rw [if_neg]
          intro h
          apply hj
          omega
      · simp [hp]
    rw [hind]
    omega


theorem total_primes_spec (N size : Nat) (hN : 2 ≤ N) (hs : 1 ≤ size)
    (hov : N + 2 * size ≤ 2147483647) :
    total_primes (N + 1) (N : Int) size = some (primos_ate N : Int) := by
  unfold total_primes
  rw [global_count_spec N size hN hov size (le_refl _), soma_por_rank]
  have hJ : N ≤ 2 * (size * N) + 2 := by
    have : N ≤ size * N := by
      calc N = 1 * N := (Nat.one_mul N).symm
        _ ≤ size * N := Nat.mul_le_mul_right N hs
    omega
  have h := soma_impares_primos (size * N) N hN hJ
  have h2 : (2 : Int) ≤ (N : Int) := by omega
  simp only [Option.map_some', ge_iff_le, h2, if_true]
  rw [← h]
  push_cast
  rfl

theorem count_loop_valores (n step : Int) : ∀ (fuel : Nat) (value c : Int),
    count_primes_local_loop n step fuel value c
      = (valores_testados_loop n step fuel value).map
          (fun vs => c + ((vs.filter is_prime).length : Int)) := by
  intro fuel
  induction fuel with
  | zero => intro value c; rfl
  | succ fuel ih =>
    intro value c
    rw [count_primes_local_loop, valores_testados_loop]
    by_cases hv : value ≤ n
    · rw [if_pos hv, if_pos hv, ih]
      cases valores_testados_loop n step fuel (wrap_int (value + step)) with
      | none => rfl
      | some vs =>
        simp only [Option.map_some', Option.some.injEq]
        by_cases hp : is_prime value = true
        · simp only [hp, if_true, List.filter_cons_of_pos, List.length_cons]
          push_cast
          ring
        · simp only [hp, if_false, Bool.false_eq_true]
          rw [List.filter_cons_of_neg (by simpa using hp)]
    · rw [if_neg hv, if_neg hv]
      simp

theorem valores_loop_spec (N size : Nat) (hov : N + 2 * size ≤ 2147483647) :
    ∀ (fuel j0 : Nat), 3 + 2 * j0 ≤ N + 2 * size →
      N < 3 + 2 * j0 + 2 * size * fuel →
      valores_testados_loop (N : Int) ((2 * size : Nat) : Int) (fuel + 1)
          ((3 + 2 * j0 : Nat) : Int)
        = some (((List.range fuel).map
            (fun k => ((3 + 2 * (j0 + size * k) : Nat) : Int))).filter
              (fun v => decide (v ≤ (N : Int)))) := by
  intro fuel
  induction fuel with
  | zero =>
    intro j0 _ hlt
    rw [valores_testados_loop, if_neg (by omega)]
    rfl
  | succ fuel ih =>
    intro j0 hle hlt
    rw [valores_testados_loop]
    by_cases hv : ((3 + 2 * j0 : Nat) : Int) ≤ (N : Int)
    · rw [if_pos hv]
      have hvn : 3 + 2 * j0 ≤ N := by omega
      have hw : wrap_int (((3 + 2 * j0 : Nat) : Int) + ((2 * size : Nat) : Int))
          = ((3 + 2 * (j0 + size) : Nat) : Int) := by
        rw [wrap_int_eq]
        · push_cast; ring
        · unfold Leilao.isInt32; omega
      rw [hw, ih (j0 + size) (by omega) (by
        have : 2 * size * (fuel + 1) = 2 * size + 2 * size * fuel := by ring
        omega)]
      simp only [Option.map_some', Option.some.injEq]
      rw [List.range_succ_eq_map, List.map_cons, List.map_map]
      have h0 : ((3 + 2 * (j0 + size * 0) : Nat) : Int) = ((3 + 2 * j0 : Nat) : Int) := by simp
      rw [h0, List.filter_cons_of_pos (by simpa using hv)]
      congr 2
      apply List.map_congr_left
      intro k _
      simp only [Function.comp]
      have e : j0 + size + size * k = j0 + size * (k + 1) := by ring
      rw [e]
    · rw [if_neg hv]
      have hvn : N < 3 + 2 * j0 := by omega
      symm
      simp only [Option.some.injEq]
      rw [List.filter_eq_nil_iff]
      intro v hvmem
      obtain ⟨k, _, rfl⟩ := List.mem_map.mp hvmem
      simp only [decide_eq_true_eq, not_le]
      have : 3 + 2 * j0 ≤ 3 + 2 * (j0 + size * k) := by omega
      omega

theorem valores_testados_spec (N size rank : Nat) (hN : 2 ≤ N) (hr : rank < size)
    (hov : N + 2 * size ≤ 2147483647) :
    ∃ vs : List Int, valores_testados (N + 1) (N : Int) (rank : Int) (size : Int) = some vs ∧
      (∀ x : Int, x ∈ vs ↔ ∃ k : Nat, x = ((3 + 2 * (rank + size * k) : Nat) : Int) ∧ x ≤ N) ∧
      count_primes_local (N + 1) (N : Int) (rank : Int) (size : Int)
        = some ((vs.filter is_prime).length : Int) := by
  have h1 : wrap_int (2 * (size : Int)) = ((2 * size : Nat) : Int) := by
    rw [wrap_int_eq]
    · push_cast; ring
    · unfold Leilao.isInt32; omega
  have h2 : wrap_int (3 + 2 * (rank : Int)) = ((3 + 2 * rank : Nat) : Int) := by
    rw [wrap_int_eq]
    · push_cast; ring
    · unfold Leilao.isInt32; omega
  have hfuel : N < 3 + 2 * rank + 2 * size * N := by
    have : N ≤ 2 * size * N := by
      calc N = 1 * N := (Nat.one_mul N).symm
        _ ≤ (2 * size) * N := Nat.mul_le_mul_right N (by omega)
    omega
  have hvs := valores_loop_spec N size hov N rank (by omega) hfuel
  refine ⟨((List.range N).map (fun k => ((3 + 2 * (rank + size * k) : Nat) : Int))).filter
    (fun v => decide (v ≤ (N : Int))), ?_, ?_, ?_⟩
  · unfold valores_testados
    rw [h1, h2]
    exact hvs
  · intro x
    simp only [List.mem_filter, List.mem_map, List.mem_range, decide_eq_true_eq]
    constructor
    · rintro ⟨⟨k, _, rfl⟩, hx⟩
      exact ⟨k, rfl, hx⟩
    · rintro ⟨k, rfl, hx⟩
      refine ⟨⟨k, ?_, rfl⟩, hx⟩
      have hx2 : 3 + 2 * (rank + size * k) ≤ N := by omega
      have : k ≤ size * k := by
        calc k = 1 * k := (Nat.one_mul k).symm
          _ ≤ size * k := Nat.mul_le_mul_right k (by omega)
      omega
  · unfold count_primes_local
    rw [count_loop_valores, h1, h2, hvs]
    simp


/-- C23 fails on the code at the top of the `int` range: with `n = INT_MAX`
(one process) the test `value <= n` can never fail, `value += step` overflows,
and the loop of `count_primes_local` does not end, so no total is produced.
Where no overflow occurs (`n + 2 * size <= INT_MAX`) the claim holds: for
every `n >= 2` and `size >= 1` the total of `main` is the number of primes in
`[2, n]`; rank `r` tests exactly the values `3 + 2r + 2 * size * k` up to `n`
and counts the primes among them; the values of two ranks are disjoint and
together they are the odd numbers of `[3, n]`. -/
theorem contagem_distribuida :
    (∀ fuel : Nat, count_primes_local fuel 2147483647 0 1 = none) ∧
    (∀ fuel : Nat, total_primes fuel 2147483647 1 = none) ∧
    (∀ N size : Nat, 2 ≤ N → 1 ≤ size → N + 2 * size ≤ 2147483647 →
      total_primes (N + 1) (N : Int) size = some (primos_ate N : Int) ∧
      (∀ rank : Nat, rank < size →
        ∃ vs : List Int,
          valores_testados (N + 1) (N : Int) (rank : Int) (size : Int) = some vs ∧
          (∀ x : Int, x ∈ vs ↔
            ∃ k : Nat, x = ((3 + 2 * (rank + size * k) : Nat) : Int) ∧ x ≤ N) ∧
          count_primes_local (N + 1) (N : Int) (rank : Int) (size : Int)
            = some ((vs.filter is_prime).length : Int)) ∧
      (∀ r1 r2 k1 k2 : Nat, r1 < size → r2 < size →
        3 + 2 * (r1 + size * k1) = 3 + 2 * (r2 + size * k2) → r1 = r2) ∧
      (∀ x : Nat, 3 ≤ x → x ≤ N → x % 2 = 1 →
        ∃ r k : Nat, r < size ∧ x = 3 + 2 * (r + size * k))) := by
  have hloop : ∀ fuel : Nat, count_primes_local fuel 2147483647 0 1 = none := by
    intro fuel
    unfold count_primes_local
    exact count_loop_int_max _ fuel _ 0 (wrap_int_le _)
  refine ⟨hloop, ?_, ?_⟩
  · intro fuel
    unfold total_primes
    have : global_count fuel 2147483647 1 1 = none := by
      rw [global_count, global_count]
      have := hloop fuel
      simp only [Nat.cast_zero, Nat.cast_one] at this ⊢
      rw [this]
    rw [this]
    rfl
  · intro N size hN hs hov
    refine ⟨total_primes_spec N size hN hs hov,
      fun rank hr => valores_testados_spec N size rank hN hr hov, ?_, ?_⟩
    · intro r1 r2 k1 k2 h1 h2 he
      have he2 : r1 + size * k1 = r2 + size * k2 := by omega
      have m1 : (r1 + size * k1) % size = r1 := by
        rw [Nat.add_mul_mod_self_left]; exact Nat.mod_eq_of_lt h1
      have m2 : (r2 + size * k2) % size = r2 := by
        rw [Nat.add_mul_mod_self_left]; exact Nat.mod_eq_of_lt h2
      rw [← m1, ← m2, he2]
    · intro x h3 _ hodd
      refine ⟨((x - 3) / 2) % size, ((x - 3) / 2) / size, Nat.mod_lt _ (by omega), ?_⟩
      rw [Nat.mod_add_div]
      omega

end Primos

namespace Matriz

/-! ## Row distribution (claims C27, C28) -/

theorem encadeados_spec (bs : List Bloco) : ∀ (a e : Nat), encadeados a bs e →
    a ≤ e ∧ a + (bs.map (fun b => b.rows)).sum = e ∧
    (∀ i, a ≤ i → i < e → (bs.filter (fun b => b.contem i)).length = 1) ∧
    (∀ i, (i < a ∨ e ≤ i) → bs.filter (fun b => b.contem i) = []) := by
  induction bs with
  | nil =>
    intro a e h
    simp only [encadeados] at h
    subst h
    refine ⟨le_refl _, by simp, ?_, by simp⟩
    intro i h1 h2
    omega
  | cons b bs ih =>
    intro a e h
    obtain ⟨hb, hrest⟩ := h
    obtain ⟨h1, h2, h3, h4⟩ := ih (a + b.rows) e hrest
    refine ⟨by omega, ?_, ?_, ?_⟩
    · simp only [List.map_cons, List.sum_cons]
      omega
    · intro i hi1 hi2
      by_cases hin : i < a + b.rows
      · have hc : b.contem i = true := by
          simp [Bloco.contem, hb, hi1, hin]
        simp only [List.filter_cons, hc, if_true, h4 i (Or.inl hin), List.length_cons,
          List.length_nil]
      · have hc : ¬ (b.contem i = true) := by
          simp [Bloco.contem, hb, hin]
        simp only [List.filter_cons, hc, if_false]
        exact h3 i (by omega) hi2
    · intro i hi
      have hc : ¬ (b.contem i = true) := by
        simp only [Bloco.contem, hb, Bool.and_eq_true, decide_eq_true_eq, not_and, not_lt]
        intro h; omega
      simp only [List.filter_cons, hc, if_false]
      exact h4 i (by omega)

theorem enviar_blocos_spec (rows rem : Nat) (ds : List Nat) : ∀ offset : Nat,
    encadeados offset (enviar_blocos rows rem ds offset).1 (enviar_blocos rows rem ds offset).2 ∧
    (enviar_blocos rows rem ds offset).1.map (fun b => b.dest) = ds ∧
    (∀ b ∈ (enviar_blocos rows rem ds offset).1,
      b.rows = rows + (if b.dest ≤ rem then 1 else 0)) ∧
    (enviar_blocos rows rem ds offset).2
      = offset + ds.length * rows + (ds.filter (fun d => decide (d ≤ rem))).length := by
  induction ds with
  | nil =>
    intro offset
    simp [enviar_blocos, encadeados]
  | cons d ds ih =>
    intro offset
    obtain ⟨h1, h2, h3, h4⟩ := ih (offset + (rows + (if d ≤ rem then 1 else 0)))
    refine ⟨⟨rfl, h1⟩, ?_, ?_, ?_⟩
    · simp only [enviar_blocos, List.map_cons, h2]
    · intro b hb
      simp only [enviar_blocos, List.mem_cons] at hb
      rcases hb with rfl | hb
      · rfl
      · exact h3 b hb
    · simp only [enviar_blocos]
      rw [h4]
      by_cases hd : d ≤ rem
      · simp only [hd, if_true, List.length_cons, decide_True, List.filter_cons_of_pos]
        ring
      · simp only [hd, if_false, List.length_cons, decide_False, Bool.false_eq_true,
          not_false_eq_true, List.filter_cons_of_neg]
        ring

theorem filtro_range (r : Nat) : ∀ w : Nat,
    ((List.range' 1 w).filter (fun d => decide (d ≤ r))).length = min r w := by
  intro w
  induction w with
  | zero => simp
  | succ w ih =>
    rw [List.range'_1_concat, List.filter_append, List.length_append, ih]
    by_cases h : 1 + w ≤ r
    · simp [h]; omega
    · simp [h]; omega

theorem linhas_recebidas_spec (bs : List Bloco) : ∀ (a e : Nat), encadeados a bs e →
    linhas_recebidas bs = List.range' a (e - a) := by
  induction bs with
  | nil =>
    intro a e h
    simp only [encadeados] at h
    subst h
    simp [linhas_recebidas]
  | cons b bs ih =>
    intro a e h
    obtain ⟨hb, hrest⟩ := h
    have hle := (encadeados_spec bs _ _ hrest).1
    simp only [linhas_recebidas]
    rw [ih _ _ hrest, hb, List.range'_append_1]
    congr 1
    omega

theorem enviar_blocos_teste_spec (rows : Nat) (ds : List Nat) : ∀ offset : Nat,
    encadeados offset (enviar_blocos_teste rows ds offset).1
      (enviar_blocos_teste rows ds offset).2 ∧
    (enviar_blocos_teste rows ds offset).1.map (fun b => b.dest) = ds ∧
    (∀ b ∈ (enviar_blocos_teste rows ds offset).1, b.rows = rows) ∧
    (enviar_blocos_teste rows ds offset).2 = offset + ds.length * rows := by
  induction ds with
  | nil =>
    intro offset
    simp [enviar_blocos_teste, encadeados]
  | cons d ds ih =>
    intro offset
    obtain ⟨h1, h2, h3, h4⟩ := ih (offset + rows)
    refine ⟨⟨rfl, h1⟩, ?_, ?_, ?_⟩
    · simp only [enviar_blocos_teste, List.map_cons, h2]
    · intro b hb
      simp only [enviar_blocos_teste, List.mem_cons] at hb
      rcases hb with rfl | hb
      · rfl
      · exact h3 b hb
    · simp only [enviar_blocos_teste]
      rw [h4, List.length_cons]
      ring

theorem distribuir_final (N numworkers : Nat) (h : 1 ≤ numworkers) :
    (distribuir N numworkers).2 = N := by
  unfold distribuir
  rw [(enviar_blocos_spec _ _ _ 0).2.2.2, filtro_range, List.length_range']
  have hlt : N % numworkers < numworkers := Nat.mod_lt _ h
  rw [Nat.min_eq_left (le_of_lt hlt), Nat.zero_add]
  exact Nat.div_add_mod N numworkers

theorem distribuir_teste_final (numworkers : Nat) :
    (distribuir_teste numworkers).2 = numworkers * (10 / numworkers) := by
  unfold distribuir_teste
  rw [(enviar_blocos_teste_spec _ _ 0).2.2.2, List.length_range', Nat.zero_add]

/-- C27: in the matrix multiply with remainder handling, for every number of
workers `numworkers >= 1` (also `numworkers > N`) the blocks sent to the
workers `1..numworkers`, in this order, have
`current_rows = N / numworkers + (dest <= N % numworkers ? 1 : 0)` rows and the
running sum as `offset`; they follow one another from row `0` to row `N`
without gap or overlap, the row counts sum to `N`, the final `offset` is `N`,
every row `0..N-1` lies in exactly one block and no other row in any, and the
rows stored by the receive loop are `0, 1, ..., N-1`, each once. -/
theorem distribuicao_com_resto (N numworkers : Nat) (h : 1 ≤ numworkers) :
    (distribuir N numworkers).1.map (fun b => b.dest) = List.range' 1 numworkers ∧
    (∀ b ∈ (distribuir N numworkers).1,
      b.rows = N / numworkers + (if b.dest ≤ N % numworkers then 1 else 0)) ∧
    encadeados 0 (distribuir N numworkers).1 N ∧
    ((distribuir N numworkers).1.map (fun b => b.rows)).sum = N ∧
    (distribuir N numworkers).2 = N ∧
    (∀ i, i < N → ((distribuir N numworkers).1.filter (fun b => b.contem i)).length = 1) ∧
    (∀ i, N ≤ i → (distribuir N numworkers).1.filter (fun b => b.contem i) = []) ∧
    linhas_recebidas (distribuir N numworkers).1 = List.range N := by
  have hfin := distribuir_final N numworkers h
  have hspec := enviar_blocos_spec (N / numworkers) (N % numworkers)
    (List.range' 1 numworkers) 0
  have henc : encadeados 0 (distribuir N numworkers).1 (distribuir N numworkers).2 := hspec.1
  rw [hfin] at henc
  obtain ⟨_, h2, h3, h4⟩ := encadeados_spec _ _ _ henc
  refine ⟨hspec.2.1, hspec.2.2.1, henc, ?_, hfin, ?_, ?_, ?_⟩
  · rw [Nat.zero_add] at h2
    exact h2
  · intro i hi
    exact h3 i (Nat.zero_le _) hi
  · intro i hi
    exact h4 i (Or.inr hi)
  · rw [linhas_recebidas_spec _ _ _ henc, Nat.sub_zero, List.range_eq_range']

/-- Witness of C27: ten rows over three workers (blocks of 4, 3 and 3 rows),
and two rows over five workers (`numworkers > N`: three empty blocks). -/
theorem distribuicao_com_resto_witness :
    (1 ≤ 3 ∧ (distribuir 10 3).1 = [⟨1, 0, 4⟩, ⟨2, 4, 3⟩, ⟨3, 7, 3⟩] ∧
      linhas_recebidas (distribuir 10 3).1 = List.range 10) ∧
    (1 ≤ 5 ∧ (distribuir 2 5).1 = [⟨1, 0, 1⟩, ⟨2, 1, 1⟩, ⟨3, 2, 0⟩, ⟨4, 2, 0⟩, ⟨5, 2, 0⟩] ∧
      (distribuir 2 5).2 = 2) :=
  ⟨⟨by decide, by decide, (distribuicao_com_resto 10 3 (by decide)).2.2.2.2.2.2.2⟩,
    ⟨by decide, by decide, (distribuicao_com_resto 2 5 (by decide)).2.2.2.2.1⟩⟩

/-- C28: in the test matrix multiply (`N = 10`) every worker `1..numworkers`
is sent `rows = 10 / numworkers` rows, with no remainder handling; the rows
stored by the receive loop are exactly `0 .. numworkers * (10 / numworkers) - 1`,
each in exactly one block. All ten rows of the printed result are computed if
and only if `numworkers` divides `10`; otherwise the last `10 % numworkers`
rows (at least one, fewer than `numworkers`) are in no block. -/
theorem cobertura_teste (numworkers : Nat) (h : 1 ≤ numworkers) :
    (distribuir_teste numworkers).1.map (fun b => b.dest) = List.range' 1 numworkers ∧
    (∀ b ∈ (distribuir_teste numworkers).1, b.rows = 10 / numworkers) ∧
    linhas_recebidas (distribuir_teste numworkers).1
      = List.range (numworkers * (10 / numworkers)) ∧
    (∀ i, i < numworkers * (10 / numworkers) →
      ((distribuir_teste numworkers).1.filter (fun b => b.contem i)).length = 1) ∧
    (∀ i, numworkers * (10 / numworkers) ≤ i →
      (distribuir_teste numworkers).1.filter (fun b => b.contem i) = []) ∧
    ((∀ i, i < 10 → i ∈ linhas_recebidas (distribuir_teste numworkers).1) ↔
      numworkers ∣ 10) ∧
    numworkers * (10 / numworkers) = 10 - 10 % numworkers ∧
    10 % numworkers < numworkers ∧
    (¬ numworkers ∣ 10 → 1 ≤ 10 % numworkers ∧
      ∀ i, 10 - 10 % numworkers ≤ i → i < 10 →
        i ∉ linhas_recebidas (distribuir_teste numworkers).1 ∧
        (distribuir_teste numworkers).1.filter (fun b => b.contem i) = []) := by
  have hfin := distribuir_teste_final numworkers
  have hspec := enviar_blocos_teste_spec (10 / numworkers) (List.range' 1 numworkers) 0
  have henc : encadeados 0 (distribuir_teste numworkers).1
      (numworkers * (10 / numworkers)) :=
    hfin ▸ hspec.1
  obtain ⟨_, _, h3, h4⟩ := encadeados_spec _ _ _ henc
  have hrec : linhas_recebidas (distribuir_teste numworkers).1
      = List.range (numworkers * (10 / numworkers)) := by
    rw [linhas_recebidas_spec _ _ _ henc, Nat.sub_zero, List.range_eq_range']
  have hdm : numworkers * (10 / numworkers) + 10 % numworkers = 10 :=
    Nat.div_add_mod 10 numworkers
  have hdvd : numworkers ∣ 10 ↔ 10 % numworkers = 0 := Nat.dvd_iff_mod_eq_zero
  refine ⟨hspec.2.1, hspec.2.2.1, hrec, ?_, ?_, ?_, by omega, Nat.mod_lt _ h, ?_⟩
  · intro i hi
    exact h3 i (Nat.zero_le _) hi
  · intro i hi
    exact h4 i (Or.inr hi)
  · rw [hrec, hdvd]
    constructor
    · intro hall
      have := List.mem_range.mp (hall 9 (by decide))
      omega
    · intro h0 i hi
      exact List.mem_range.mpr (by omega)
  · intro hnd
    have hne : 10 % numworkers ≠ 0 := fun h0 => hnd (hdvd.mpr h0)
    refine ⟨by omega, ?_⟩
    intro i hi1 hi2
    refine ⟨?_, h4 i (Or.inr (by omega))⟩
    rw [hrec, List.mem_range]
    omega

/-- Witness of C28: with three workers each gets three rows, the rows stored
are `0..8`, and row `9` of the printed result is never computed. -/
theorem cobertura_teste_witness :
    1 ≤ 3 ∧ (distribuir_teste 3).1 = [⟨1, 0, 3⟩, ⟨2, 3, 3⟩, ⟨3, 6, 3⟩] ∧
    linhas_recebidas (distribuir_teste 3).1 = List.range (3 * (10 / 3)) ∧
    9 ∉ linhas_recebidas (distribuir_teste 3).1 :=
  ⟨by decide, by decide, (cobertura_teste 3 (by decide)).2.2.1,
    ((cobertura_teste 3 (by decide)).2.2.2.2.2.2.2.2 (by decide)).2 9 (by decide) (by decide) |>.1⟩

end Matriz

namespace MonteCarlo

/-! ## The batch guard of the Monte Carlo parser (claim C30) -/

theorem strtol_digitos_digitos (ds : List Nat) : ∀ acc : Nat,
    (∀ d ∈ ds, 48 ≤ d ∧ d ≤ 57) →
    Leilao.strtol_digitos ds acc = (ds.foldl (fun a d => 10 * a + (d - 48)) acc, []) := by
  induction ds with
  | nil => intro acc _; rfl
  | cons d ds ih =>
    intro acc h
    have hd := h d (List.mem_cons_self _ _)
    have hdig : Leilao.isdigit d = true := by
      simp [Leilao.isdigit, hd.1, hd.2]
    simp only [Leilao.strtol_digitos, hdig, if_true, List.foldl_cons]
    exact ih _ (fun x hx => h x (List.mem_cons_of_mem _ hx))

theorem fmt_u_cons (n : Nat) : ∃ c cs, Leilao.fmt_u n = c :: cs ∧ 48 ≤ c ∧ c ≤ 57 := by
  have hne : Leilao.fmt_u n ≠ [] := by
    unfold Leilao.fmt_u Leilao.digitos_aux
    split <;> simp
  cases hl : Leilao.fmt_u n with
  | nil => exact absurd hl hne
  | cons c cs =>
    have := Leilao.digitos_aux_mem (n + 1) n c (by
      have : c ∈ Leilao.fmt_u n := by rw [hl]; exact List.mem_cons_self _ _
      exact this)
    exact ⟨c, cs, rfl, this⟩

theorem stoull_fmt_u (n : Nat) (h : n < 2 ^ 64) : stoull (Leilao.fmt_u n) = some n := by
  obtain ⟨c, cs, hl, hc1, hc2⟩ := fmt_u_cons n
  have hval : Leilao.strtol_digitos (Leilao.fmt_u n) 0 = (n, []) := by
    unfold Leilao.fmt_u
    rw [strtol_digitos_digitos _ 0 (fun d hd => Leilao.digitos_aux_mem _ _ d hd),
      Leilao.digitos_aux_valor (n + 1) n (Nat.lt_succ_self n)]
  have hsp : Leilao.isspace c = false := by
    simp [Leilao.isspace]
    omega
  have hdig : Leilao.isdigit c = true := by
    simp [Leilao.isdigit, hc1, hc2]
  have h45 : c ≠ 45 := by omega
  have h43 : c ≠ 43 := by omega
  rw [hl] at hval
  unfold stoull
  rw [hl]
  simp only [List.dropWhile_cons, hsp, Bool.false_eq_true, if_false, List.head?_cons,
    Option.some.injEq, h45, h43, or_self, decide_False, hdig, if_true, hval, h]

theorem parse_args_guarda_spec (a : Args) :
    parse_args_guarda a
      = ⟨a.samples_total, min (if a.batch = 0 then 1000000 else a.batch) a.samples_total,
          a.report_every⟩ := by
  unfold parse_args_guarda
  by_cases h0 : a.batch = 0
  · simp only [h0, if_true]
    by_cases h1 : (1000000 : Nat) > a.samples_total
    · simp only [h1, if_true]
      rw [Nat.min_eq_right (by omega)]
    · simp only [h1, if_false]
      rw [Nat.min_eq_left (by omega)]
  · simp only [h0, if_false]
    by_cases h1 : a.batch > a.samples_total
    · simp only [h1, if_true]
      rw [Nat.min_eq_right (by omega)]
    · simp only [h1, if_false]
      rw [Nat.min_eq_left (by omega)]

theorem opcoes_distintas :
    Leilao.bytes "-batch" ≠ Leilao.bytes "-samples" := by decide

/-- C30: whatever the command line, when `parse_args` returns (no conversion
throws) the result has `batch <= samples_total`, and `batch >= 1` if and only
if `samples_total >= 1`; so the divisions `samples_total / batch` and
`samples_total % batch` of the master have a non-zero divisor exactly when
`samples_total >= 1`. For every requested `-samples` value `s` and `-batch`
value `b` (decimal texts of `uint64_t` values, either or both options given)
`parse_args` returns, with `samples_total = s` and `batch` the requested batch
(`1000000` for `0`) capped at `s`; with `-samples 0` it returns `batch = 0`, and
the division of the master is by zero. -/
theorem guarda_do_lote :
    (∀ (argv : List (List Nat)) (a : Args), parse_args argv = some a →
      a.batch ≤ a.samples_total ∧ (1 ≤ a.batch ↔ 1 ≤ a.samples_total) ∧
      ((tarefas a).isSome ↔ 1 ≤ a.samples_total)) ∧
    (∀ (prog : List Nat) (s b : Nat), s < 2 ^ 64 → b < 2 ^ 64 →
      parse_args [prog, Leilao.bytes "-samples", Leilao.fmt_u s,
          Leilao.bytes "-batch", Leilao.fmt_u b]
        = some ⟨s, min (if b = 0 then 1000000 else b) s, 10⟩) ∧
    (∀ (prog : List Nat) (s : Nat), s < 2 ^ 64 →
      parse_args [prog, Leilao.bytes "-samples", Leilao.fmt_u s]
        = some ⟨s, min 1000000 s, 10⟩) ∧
    (∀ (prog : List Nat) (b : Nat), b < 2 ^ 64 →
      parse_args [prog, Leilao.bytes "-batch", Leilao.fmt_u b]
        = some ⟨1000000, min (if b = 0 then 1000000 else b) 1000000, 10⟩) ∧
    (∀ prog : List Nat,
      parse_args [prog, Leilao.bytes "-samples", Leilao.bytes "0"] = some ⟨0, 0, 10⟩) ∧
    tarefas ⟨0, 0, 10⟩ = none := by
  refine ⟨?_, ?_, ?_, ?_, ?_, rfl⟩
  · intro argv a h
    unfold parse_args at h
    obtain ⟨a0, _, rfl⟩ := Option.map_eq_some'.mp h
    rw [parse_args_guarda_spec a0]
    have hiff : 1 ≤ min (if a0.batch = 0 then 1000000 else a0.batch) a0.samples_total ↔
        1 ≤ a0.samples_total := by
      by_cases h0 : a0.batch = 0
      · simp only [h0, if_true]; omega
      · simp only [h0, if_false]; omega
    refine ⟨Nat.min_le_right _ _, hiff, ?_⟩
    rw [← hiff]
    unfold tarefas
    by_cases hz : min (if a0.batch = 0 then 1000000 else a0.batch) a0.samples_total = 0
    · simp only [hz, if_true, Option.isSome_none, Bool.false_eq_true, false_iff]
      omega
    · simp only [hz, if_false, Option.isSome_some, true_iff]
      omega
  · intro prog s b hs hb
    simp only [parse_args, List.tail_cons, parse_args_loop, if_true, stoull_fmt_u s hs,
      stoull_fmt_u b hb, Option.some_bind, if_neg opcoes_distintas, Option.map_some',
      parse_args_guarda_spec]
  · intro prog s hs
    simp only [parse_args, List.tail_cons, parse_args_loop, if_true, stoull_fmt_u s hs,
      Option.some_bind, Option.map_some', parse_args_guarda_spec]
    rfl
  · intro prog b hb
    simp only [parse_args, List.tail_cons, parse_args_loop, if_true, stoull_fmt_u b hb,
      Option.some_bind, if_neg opcoes_distintas, Option.map_some', parse_args_guarda_spec]
  · intro prog
    simp only [parse_args, List.tail_cons]
    decide

end MonteCarlo

namespace Mandelbrot

/-! ## The tile list of the Mandelbrot renderer (claim C29) -/

theorem lt_teto_div (w t i : Nat) (ht : 1 ≤ t) : i < teto_div w t ↔ i * t < w := by
  unfold teto_div
  rw [Nat.lt_iff_add_one_le, Nat.le_div_iff_mul_le (by omega)]
  have : (i + 1) * t = i * t + t := by ring
  omega

theorem tiles_linha_spec (w t : Nat) (H y : Int) (ht : 1 ≤ t) (hw : w + t ≤ 2147483648) :
    ∀ (k i fuel : Nat) (acc : List Tile), i + k = teto_div w t → k < fuel →
      tiles_linha w H t y fuel ((i : Int) * t) acc
        = some (acc ++ (List.range' i k).map (fun i : Nat =>
            (⟨(i : Int) * t, y, min (t : Int) ((w : Int) - i * t),
              min (t : Int) (Primos.wrap_int (H - y))⟩ : Tile))) := by
  intro k
  induction k with
  | zero =>
    intro i fuel acc hi hf
    obtain ⟨f, rfl⟩ : ∃ f, fuel = f + 1 := ⟨fuel - 1, by omega⟩
    have hn : ¬ (i * t < w) := by
      rw [← lt_teto_div w t i ht]; omega
    have hn2 : ¬ ((i : Int) * t < w) := by
      intro h; exact hn (by exact_mod_cast h)
    simp only [tiles_linha, hn2, if_false, List.range'_zero, List.map_nil, List.append_nil]
  | succ k ih =>
    intro i fuel acc hi hf
    obtain ⟨f, rfl⟩ : ∃ f, fuel = f + 1 := ⟨fuel - 1, by omega⟩
    have hlt : i * t < w := by
      rw [← lt_teto_div w t i ht]; omega
    have hlt2 : (i : Int) * t < w := by exact_mod_cast hlt
    have hX : ((i * t : Nat) : Int) = (i : Int) * t := by push_cast; rfl
    have e1 : Primos.wrap_int ((i : Int) * t + t) = ((i + 1 : Nat) : Int) * t := by
      rw [Primos.wrap_int_eq]
      · push_cast; ring
      · rw [← hX]
        unfold Leilao.isInt32
        omega
    have e2 : Primos.wrap_int ((w : Int) - (i : Int) * t) = (w : Int) - (i : Int) * t := by
      apply Primos.wrap_int_eq
      rw [← hX]
      unfold Leilao.isInt32
      omega
    simp only [tiles_linha, hlt2, if_true, e1, e2]
    rw [ih (i + 1) f _ (by omega) (by omega), List.range'_succ, List.map_cons,
      List.append_assoc]
    rfl

theorem tiles_imagem_spec (w h t : Nat) (ht : 1 ≤ t) (hw : w + t ≤ 2147483648)
    (hh : h + t ≤ 2147483648) (fuel_x : Nat) (hfx : teto_div w t < fuel_x) :
    ∀ (k j fuel : Nat) (acc : List Tile), j + k = teto_div h t → k < fuel →
      tiles_imagem w h t fuel_x fuel ((j : Int) * t) acc
        = some (acc ++ (List.range' j k).flatMap (fun j : Nat =>
            (List.range (teto_div w t)).map (fun i : Nat => tile_da_grade w h t i j))) := by
  intro k
  induction k with
  | zero =>
    intro j fuel acc hj hf
    obtain ⟨f, rfl⟩ : ∃ f, fuel = f + 1 := ⟨fuel - 1, by omega⟩
    have hn : ¬ (j * t < h) := by
      rw [← lt_teto_div h t j ht]; omega
    have hn2 : ¬ ((j : Int) * t < h) := by
      intro h1; exact hn (by exact_mod_cast h1)
    simp only [tiles_imagem, hn2, if_false, List.range'_zero, List.flatMap_nil,
      List.append_nil]
  | succ k ih =>
    intro j fuel acc hj hf
    obtain ⟨f, rfl⟩ : ∃ f, fuel = f + 1 := ⟨fuel - 1, by omega⟩
    have hlt : j * t < h := by
      rw [← lt_teto_div h t j ht]; omega
    have hlt2 : (j : Int) * t < h := by exact_mod_cast hlt
    have hX : ((j * t : Nat) : Int) = (j : Int) * t := by push_cast; rfl
    have e1 : Primos.wrap_int ((j : Int) * t + t) = ((j + 1 : Nat) : Int) * t := by
      rw [Primos.wrap_int_eq]
      · push_cast; ring
      · rw [← hX]
        unfold Leilao.isInt32
        omega
    have e2 : Primos.wrap_int ((h : Int) - (j : Int) * t) = (h : Int) - (j : Int) * t := by
      apply Primos.wrap_int_eq
      rw [← hX]
      unfold Leilao.isInt32
      omega
    have z : (0 : Int) = ((0 : Nat) : Int) * t := by simp
    have hrow := tiles_linha_spec w t h ((j : Int) * t) ht hw (teto_div w t) 0 fuel_x acc
      (by omega) hfx
    rw [← z, e2, ← List.range_eq_range'] at hrow
    simp only [tiles_imagem, hlt2, if_true, hrow, Option.some_bind, e1]
    rw [ih (j + 1) f _ (by omega) (by omega), List.range'_succ, List.flatMap_cons,
      List.append_assoc]
    rfl

theorem lista_tiles_spec (w h t : Nat) (ht : 1 ≤ t) (hw : w + t ≤ 2147483648)
    (hh : h + t ≤ 2147483648) (fuel : Nat) (hfx : teto_div w t < fuel)
    (hfy : teto_div h t < fuel) :
    lista_tiles fuel w h t = some (tiles_da_grade w h t (teto_div w t) (teto_div h t)) := by
  have z : (0 : Int) = ((0 : Nat) : Int) * t := by simp
  have := tiles_imagem_spec w h t ht hw hh fuel hfx (teto_div h t) 0 fuel [] (by omega) hfy
  rw [← z, ← List.range_eq_range', List.nil_append] at this
  exact this

theorem tiles_linha_ciclo : ∀ (fuel : Nat) (x : Int) (acc : List Tile),
    (x = 0 ∨ x = 1073741824 ∨ x = -2147483648 ∨ x = -1073741824) →
    tiles_linha 2147483647 1 1073741824 0 fuel x acc = none := by
  intro fuel
  induction fuel with
  | zero => intro x acc _; rfl
  | succ fuel ih =>
    intro x acc hx
    have hlt : x < 2147483647 := by omega
    rw [tiles_linha, if_pos hlt]
    apply ih
    rcases hx with rfl | rfl | rfl | rfl
    · exact Or.inr (Or.inl (by decide))
    · exact Or.inr (Or.inr (Or.inl (by decide)))
    · exact Or.inr (Or.inr (Or.inr (by decide)))
    · exact Or.inl (by decide)

theorem lista_tiles_sem_fim (fuel : Nat) : lista_tiles fuel 2147483647 1 1073741824 = none := by
  unfold lista_tiles
  cases fuel with
  | zero => rfl
  | succ f =>
    rw [tiles_imagem, if_pos (by decide), tiles_linha_ciclo _ 0 [] (Or.inl rfl)]
    rfl

theorem teto_div_le (w t : Nat) (hw : 1 ≤ w) (ht : 1 ≤ t) : teto_div w t ≤ w := by
  unfold teto_div
  apply Nat.div_le_of_le_mul
  obtain ⟨a, rfl⟩ : ∃ a, w = a + 1 := ⟨w - 1, by omega⟩
  obtain ⟨b, rfl⟩ : ∃ b, t = b + 1 := ⟨t - 1, by omega⟩
  have : (b + 1) * (a + 1) = b * a + b + a + 1 := by ring
  omega

theorem tiles_da_grade_length (W H T : Int) (nx : Nat) : ∀ ny : Nat,
    (tiles_da_grade W H T nx ny).length = nx * ny := by
  intro ny
  unfold tiles_da_grade
  induction ny with
  | zero => simp
  | succ n ih =>
    rw [List.range_succ, List.flatMap_append, List.length_append, ih]
    simp only [List.flatMap_cons, List.flatMap_nil, List.append_nil, List.length_map,
      List.length_range]
    ring

theorem tiles_da_grade_mem (W H T : Int) (nx ny : Nat) (tile : Tile)
    (h : tile ∈ tiles_da_grade W H T nx ny) :
    ∃ i j, i < nx ∧ j < ny ∧ tile = tile_da_grade W H T i j := by
  unfold tiles_da_grade at h
  obtain ⟨j, hj, hrow⟩ := List.mem_flatMap.mp h
  obtain ⟨i, hi, rfl⟩ := List.mem_map.mp hrow
  exact ⟨i, j, List.mem_range.mp hi, List.mem_range.mp hj, rfl⟩

theorem faixa_iff (w t px i : Nat) (ht : 1 ≤ t) (hpx : px < w) :
    ((i : Int) * t ≤ px ∧ (px : Int) < i * t + min (t : Int) (w - i * t)) ↔ i = px / t := by
  have hX : ((i * t : Nat) : Int) = (i : Int) * t := by push_cast; rfl
  rw [← hX]
  constructor
  · rintro ⟨h1, h2⟩
    have h1n : i * t ≤ px := by omega
    have h2n : px < (i + 1) * t := by
      rw [Nat.succ_mul]; omega
    exact (Nat.div_eq_of_lt_le h1n h2n).symm
  · intro hi
    have a1 : px / t * t ≤ px := Nat.div_mul_le_self px t
    have a2 : px < px / t * t + t := Nat.lt_div_mul_add ht
    rw [← hi] at a1 a2
    omega

theorem contem_iff (w h t px py i j : Nat) (ht : 1 ≤ t) (hpx : px < w) (hpy : py < h) :
    (tile_da_grade w h t i j).contem px py = true ↔ i = px / t ∧ j = py / t := by
  rw [← faixa_iff w t px i ht hpx, ← faixa_iff h t py j ht hpy]
  simp only [Tile.contem, tile_da_grade, Bool.and_eq_true, decide_eq_true_eq]

theorem filter_map_range_unico {α : Type} (g : Nat → α) (p : α → Bool) (i0 : Nat)
    (h : ∀ i, p (g i) = true ↔ i = i0) : ∀ n : Nat,
    ((List.range n).map g).filter p = if i0 < n then [g i0] else [] := by
  intro n
  induction n with
  | zero => simp
  | succ n ih =>
    rw [List.range_succ, List.map_append, List.filter_append, ih]
    by_cases hn : n = i0
    · subst hn
      have hp : p (g n) = true := (h n).mpr rfl
      simp [hp]
    · have hp : ¬ (p (g n) = true) := fun hp => hn ((h n).mp hp)
      by_cases hlt : i0 < n
      · simp [hp, hlt, Nat.lt_succ_of_lt hlt]
      · have : ¬ i0 < n + 1 := by omega
        simp [hp, hlt, this]

theorem filter_flatMap_range_unico {α : Type} (G : Nat → List α) (p : α → Bool) (j0 : Nat)
    (h : ∀ j, j ≠ j0 → (G j).filter p = []) : ∀ n : Nat,
    ((List.range n).flatMap G).filter p = if j0 < n then (G j0).filter p else [] := by
  intro n
  induction n with
  | zero => simp
  | succ n ih =>
    rw [List.range_succ, List.flatMap_append, List.filter_append, ih]
    simp only [List.flatMap_cons, List.flatMap_nil, List.append_nil]
    by_cases hn : n = j0
    · subst hn
      simp
    · rw [h n hn]
      by_cases hlt : j0 < n
      · simp [hlt, Nat.lt_succ_of_lt hlt]
      · have : ¬ j0 < n + 1 := by omega
        simp [hlt, this]

theorem tiles_da_grade_filter (w h t px py : Nat) (ht : 1 ≤ t) (hpx : px < w) (hpy : py < h) :
    (tiles_da_grade w h t (teto_div w t) (teto_div h t)).filter
        (fun tile => tile.contem px py)
      = [tile_da_grade w h t (px / t) (py / t)] := by
  have hi0 : px / t < teto_div w t := by
    rw [lt_teto_div w t _ ht]
    exact lt_of_le_of_lt (Nat.div_mul_le_self px t) hpx
  have hj0 : py / t < teto_div h t := by
    rw [lt_teto_div h t _ ht]
    exact lt_of_le_of_lt (Nat.div_mul_le_self py t) hpy
  unfold tiles_da_grade
  rw [filter_flatMap_range_unico _ _ (py / t), if_pos hj0]
  · rw [filter_map_range_unico _ _ (px / t), if_pos hi0]
    intro i
    rw [contem_iff w h t px py i (py / t) ht hpx hpy]
    exact ⟨fun hh => hh.1, fun hh => ⟨hh, rfl⟩⟩
  · intro j hj
    rw [List.filter_eq_nil_iff]
    intro tile hmem
    obtain ⟨i, _, rfl⟩ := List.mem_map.mp hmem
    rw [contem_iff w h t px py i j ht hpx hpy]
    exact fun hh => hj hh.2

theorem tile_da_grade_limites (w h t i j : Nat) (ht : 1 ≤ t)
    (hi : i < teto_div w t) (hj : j < teto_div h t) :
    1 ≤ (tile_da_grade w h t i j).w ∧ (tile_da_grade w h t i j).w ≤ t ∧
    1 ≤ (tile_da_grade w h t i j).h ∧ (tile_da_grade w h t i j).h ≤ t ∧
    0 ≤ (tile_da_grade w h t i j).x0 ∧ 0 ≤ (tile_da_grade w h t i j).y0 ∧
    (tile_da_grade w h t i j).x0 + (tile_da_grade w h t i j).w ≤ w ∧
    (tile_da_grade w h t i j).y0 + (tile_da_grade w h t i j).h ≤ h := by
  have hX : ((i * t : Nat) : Int) = (i : Int) * t := by push_cast; rfl
  have hY : ((j * t : Nat) : Int) = (j : Int) * t := by push_cast; rfl
  have h1 := (lt_teto_div w t i ht).mp hi
  have h2 := (lt_teto_div h t j ht).mp hj
  simp only [tile_da_grade]
  rw [← hX, ← hY]
  omega

/-- C29 fails on the code at the top of the `int` range: for
`-w 2147483647 -h 1 -tilesize 1073741824` the third `x += tile` overflows,
`x` cycles through `0, 2^30, -2^31, -2^30`, the test `x < image_w` never fails
and the tile loop of the master does not end (no `fuel` is enough). Where no
overflow occurs (`width + tilesize <= 2^31` and `height + tilesize <= 2^31`)
the claim holds: for width, height and tilesize at least `1` the master builds
the grid of `ceil(width/tilesize) * ceil(height/tilesize)` tiles, every tile has
`1 <= w <= tilesize`, `1 <= h <= tilesize`, `x0 + w <= width` and
`y0 + h <= height`, every pixel of the image lies in exactly one tile, and the
out-of-image test of `compute_tile` is false at every loop index of every
tile. -/
theorem ladrilhamento :
    (∀ fuel : Nat, lista_tiles fuel 2147483647 1 1073741824 = none) ∧
    (∀ w h t : Nat, 1 ≤ w → 1 ≤ h → 1 ≤ t → w + t ≤ 2147483648 → h + t ≤ 2147483648 →
      ∃ tiles : List Tile,
        (∀ fuel : Nat, w < fuel → h < fuel → lista_tiles fuel w h t = some tiles) ∧
        tiles = tiles_da_grade w h t (teto_div w t) (teto_div h t) ∧
        tiles.length = teto_div w t * teto_div h t ∧
        (∀ tile ∈ tiles, 1 ≤ tile.w ∧ tile.w ≤ t ∧ 1 ≤ tile.h ∧ tile.h ≤ t ∧
          0 ≤ tile.x0 ∧ 0 ≤ tile.y0 ∧ tile.x0 + tile.w ≤ w ∧ tile.y0 + tile.h ≤ h) ∧
        (∀ px py : Nat, px < w → py < h →
          (tiles.filter (fun tile => tile.contem px py)).length = 1) ∧
        (∀ tile ∈ tiles, ∀ i j : Int, 0 ≤ i → i < tile.w → 0 ≤ j → j < tile.h →
          compute_tile_fora w h tile.x0 tile.y0 i j = false)) := by
  refine ⟨lista_tiles_sem_fim, ?_⟩
  intro w h t hw1 hh1 ht hw hh
  have hlim : ∀ tile ∈ tiles_da_grade w h t (teto_div w t) (teto_div h t),
      1 ≤ tile.w ∧ tile.w ≤ t ∧ 1 ≤ tile.h ∧ tile.h ≤ t ∧
      0 ≤ tile.x0 ∧ 0 ≤ tile.y0 ∧ tile.x0 + tile.w ≤ w ∧ tile.y0 + tile.h ≤ h := by
    intro tile hmem
    obtain ⟨i, j, hi, hj, rfl⟩ := tiles_da_grade_mem _ _ _ _ _ _ hmem
    exact tile_da_grade_limites w h t i j ht hi hj
  refine ⟨_, ?_, rfl, tiles_da_grade_length _ _ _ _ _, hlim, ?_, ?_⟩
  · intro fuel hf1 hf2
    exact lista_tiles_spec w h t ht hw hh fuel
      (lt_of_le_of_lt (teto_div_le w t hw1 ht) hf1)
      (lt_of_le_of_lt (teto_div_le h t hh1 ht) hf2)
  · intro px py hpx hpy
    rw [tiles_da_grade_filter w h t px py ht hpx hpy]
    rfl
  · intro tile hmem i j hi0 hi1 hj0 hj1
    obtain ⟨_, _, _, _, hx0, hy0, hxw, hyh⟩ := hlim tile hmem
    have ex : Primos.wrap_int (tile.x0 + i) = tile.x0 + i := by
      apply Primos.wrap_int_eq
      unfold Leilao.isInt32
      omega
    have ey : Primos.wrap_int (tile.y0 + j) = tile.y0 + j := by
      apply Primos.wrap_int_eq
      unfold Leilao.isInt32
      omega
    unfold compute_tile_fora
    rw [ex, ey]
    simp only [ge_iff_le, Bool.or_eq_false_iff, decide_eq_false_iff_not, not_le]
    omega

end Mandelbrot
